import Mathlib

/-!
# A shallow embedding of the fixed-point decimal engine

The definitions below follow `decimal.go` and `util.go` function by function.

* Go's `int64` and `int32` are modelled by `Int` together with the explicit
  wrap-around functions `wrap64` and `wrap32`.
* `big.Int` is modelled by `Int`.
* A Go `string` is modelled by `List Char`.
* A method `func (z *Big) Op(x, y *Big) *Big` becomes a function taking the
  state of the receiver `z` before the call (its stale fields are observable)
  and returning the state of `z` after the call.
* A run-time panic, and a loop that has not stopped when its fuel is used up,
  are reported through `Except Fault`.
-/

namespace Decimal

/-! ## Machine integers -/

def minInt64 : Int := -9223372036854775808
def maxInt64 : Int := 9223372036854775807
def minInt32 : Int := -2147483648
def maxInt32 : Int := 2147483647

/-- Two's-complement reduction of an exact integer to `int64`. -/
def wrap64 (v : Int) : Int :=
  (v + 9223372036854775808) % 18446744073709551616 - 9223372036854775808

/-- Two's-complement reduction of an exact integer to `int32`. -/
def wrap32 (v : Int) : Int :=
  (v + 2147483648) % 4294967296 - 2147483648

def fits64 (v : Int) : Bool := decide (minInt64 ≤ v) && decide (v ≤ maxInt64)

def fits32 (v : Int) : Bool := decide (minInt32 ≤ v) && decide (v ≤ maxInt32)

deriving instance DecidableEq for Except

/-- The ways in which a call can end without returning a value. -/
inductive Fault where
  /-- An `ErrNaN` panic raised by the package. -/
  | errNaN
  /-- An explicit `panic` guarding an internal assumption. -/
  | bug
  /-- Integer division by zero. -/
  | divideByZero
  /-- An index outside the bounds of a slice or string. -/
  | indexOutOfRange
  /-- The loop was still running when the fuel of the model ran out. -/
  | outOfFuel
  deriving DecidableEq, Repr

/-! ## The data model (`decimal.go`, lines 22-51) -/

/-- The three forms; the source declares `zero = iota`, `finite`, `inf`. -/
inductive Form where
  | zero
  | finite
  | inf
  deriving DecidableEq, Repr

/-- Modelled from the spec: the type `RoundingMode` (declared in a file that is
not part of the sources); section 4.1 names the minimum set of modes. -/
inductive RoundingMode where
  | ToNearestEven
  | ToZero
  deriving DecidableEq, Repr

/-- Modelled from the spec: the type `Context` (declared in a file that is not
part of the sources), the pair `(precision: i32, mode: RoundingMode)`. -/
structure Context where
  precision : Int
  mode : RoundingMode
  deriving DecidableEq, Repr

/-- Modelled from the spec: `Context.prec`, the precision of the context;
every statement below takes a precision of at least one. -/
def Context.prec (ctx : Context) : Int := ctx.precision

structure Big where
  compact : Int
  scale : Int
  ctx : Context
  form : Form
  mantissa : Int
  deriving DecidableEq, Repr

/-- The zero value of the Go struct, as produced by `new(Big)`. -/
def Big.fresh : Big :=
  { compact := 0, scale := 0, ctx := { precision := 0, mode := RoundingMode.ToNearestEven },
    form := Form.zero, mantissa := 0 }

/-! ## Imported packages `c`, `arith`, `pow`, `checked` -/

/-- Modelled from the spec: the constant `c.Inflated` of package `internal/c`,
"defined as the minimum signed 64-bit integer". -/
def c.Inflated : Int := minInt64

/-- Modelled from the spec: the constant `c.BadScale` of package `internal/c`,
the largest 32-bit scale. -/
def c.BadScale : Int := maxInt32

/-- Modelled from the spec: `c.MinInt64`, the 64-bit minimum as a `big.Int`. -/
def c.MinInt64 : Int := minInt64

/-- Modelled from the spec: `c.MaxInt64`, the 64-bit maximum as a `big.Int`. -/
def c.MaxInt64 : Int := maxInt64

/-- Modelled from the spec: `arith.Abs` of package `internal/arith`, the
absolute value in 64 bits. -/
def arith.Abs (x : Int) : Int := if x < 0 then wrap64 (-x) else x

/-- Modelled from the spec: `arith.AbsCmp` of package `internal/arith`, the
three-way comparison of the magnitudes of two 64-bit integers. -/
def arith.AbsCmp (x y : Int) : Int :=
  if x.natAbs < y.natAbs then -1 else if x.natAbs = y.natAbs then 0 else 1

/-- Number of binary digits of a natural number (0 for 0). -/
def bitLenAux : Nat → Nat → Nat
  | 0, _ => 0
  | fuel + 1, n => if n = 0 then 0 else 1 + bitLenAux fuel (n / 2)

/-- Number of decimal digits of a natural number (1 for 0). -/
def decLenAux : Nat → Nat → Nat
  | 0, _ => 1
  | fuel + 1, n => if n < 10 then 1 else 1 + decLenAux fuel (n / 10)

/-- Modelled from the spec: `arith.BitLen` of package `internal/arith`, the
bit-length of a signed 64-bit integer. -/
def arith.BitLen (x : Int) : Int := bitLenAux 64 x.natAbs

/-- Modelled from the spec: `arith.Length` of package `internal/arith`, the
decimal length (digit count) of a signed 64-bit integer. -/
def arith.Length (x : Int) : Int := decLenAux 20 x.natAbs

/-- Modelled from the spec: `arith.BigLength` of package `internal/arith`, the
decimal length (digit count) of an unbounded integer. -/
def arith.BigLength (x : Int) : Int := decLenAux x.natAbs x.natAbs

/-- The method `(*big.Int).BitLen` of the Go standard library. -/
def bigBitLen (x : Int) : Int := bitLenAux x.natAbs x.natAbs

/-- The method `(*big.Int).Sign` of the Go standard library. -/
def bigSign (x : Int) : Int := if x < 0 then -1 else if x = 0 then 0 else 1

/-- The method `(*big.Int).Cmp` of the Go standard library. -/
def bigCmp (x y : Int) : Int := if x < y then -1 else if x = y then 0 else 1

/-- Modelled from the spec: `pow.Ten64` of package `internal/arith/pow`,
"`10^k` as 64-bit (when representable)". -/
def pow.Ten64 (k : Int) : Int × Bool :=
  if 0 ≤ k ∧ k ≤ 18 then (10 ^ k.toNat, true) else (0, false)

/-- Modelled from the spec: `pow.BigTen` of package `internal/arith/pow`,
"`bigTen(k) → unbounded` for all non-negative `k`". -/
def pow.BigTen (k : Int) : Int := 10 ^ k.toNat

/-- Modelled from the spec: `checked.Add` of package `internal/arith/checked`,
the overflow-reporting 64-bit addition. -/
def checked.Add (x y : Int) : Int × Bool := (wrap64 (x + y), fits64 (x + y))

/-- Modelled from the spec: `checked.Sub` of package `internal/arith/checked`,
the overflow-reporting 64-bit subtraction. -/
def checked.Sub (x y : Int) : Int × Bool := (wrap64 (x - y), fits64 (x - y))

/-- Modelled from the spec: `checked.Mul` of package `internal/arith/checked`,
the overflow-reporting 64-bit multiplication. -/
def checked.Mul (x y : Int) : Int × Bool := (wrap64 (x * y), fits64 (x * y))

/-- Modelled from the spec: `checked.Add32`, "checked 32-bit add". -/
def checked.Add32 (x y : Int) : Int × Bool := (wrap32 (x + y), fits32 (x + y))

/-- Modelled from the spec: `checked.Sub32`, "checked 32-bit sub". -/
def checked.Sub32 (x y : Int) : Int × Bool := (wrap32 (x - y), fits32 (x - y))

/-- Modelled from the spec: `checked.Int32`, the checked narrowing of a 64-bit
integer to 32 bits. -/
def checked.Int32 (x : Int) : Int × Bool := (wrap32 x, fits32 x)

/-- Modelled from the spec: `checked.SumSub`, the checked 32-bit `x + y - z`. -/
def checked.SumSub (x y z : Int) : Int × Bool :=
  (wrap32 (x + y - z), fits32 (x + y) && fits32 (x + y - z))

/-- Modelled from the spec: `checked.MulPow10` of package
`internal/arith/checked`, the overflow-reporting `x * 10^n` in 64 bits. As the
comment in `Big.Int64` records, it "returns 0 when ok is false". A non-zero `x`
times `10^19` or more never fits. -/
def checked.MulPow10 (x n : Int) : Int × Bool :=
  if x = 0 ∨ n ≤ 0 then (x, true)
  else if n ≤ 18 ∧ fits64 (x * 10 ^ n.toNat) = true then (x * 10 ^ n.toNat, true)
  else (0, false)

/-- Modelled from the spec: `checked.MulBigPow10` of package
`internal/arith/checked`, `x * 10^n` on unbounded integers. -/
def checked.MulBigPow10 (x n : Int) : Int := if n ≤ 0 then x else x * 10 ^ n.toNat

/-! ## Representation predicates and constructors -/

def Big.isInflated (x : Big) : Bool := decide (x.compact = c.Inflated)

def Big.isCompact (x : Big) : Bool := decide (x.compact ≠ c.Inflated)

/-- The integer a finite value stands for: `compact`, unless `compact` holds
the sentinel, in which case it is the unbounded field. -/
def Big.mant (x : Big) : Int := if x.isCompact then x.compact else x.mantissa

def Big.SetMantScale (z : Big) (value scale : Int) : Big :=
  if value = 0 then { z with form := Form.zero }
  else
    let z := { z with scale := scale }
    let z := if value = c.Inflated then { z with mantissa := value } else z
    { z with compact := value, form := Form.finite }

def New (value scale : Int) : Big := Big.fresh.SetMantScale value scale

def Big.SetBigMantScale (z : Big) (value scale : Int) : Big :=
  if bigSign value = 0 then { z with form := Form.zero }
  else { z with scale := scale, mantissa := value, form := Form.finite, compact := c.Inflated }

def Big.Set (z x : Big) : Big :=
  let z := { z with compact := x.compact, ctx := x.ctx, form := x.form, scale := x.scale }
  if x.isInflated then { z with mantissa := x.mantissa } else z

/-! ## Multiplication (`decimal.go`, lines 525-613) -/

def Big.mulCompact (z x y : Big) : Big :=
  let (scale, ok) := checked.Add32 x.scale y.scale
  if !ok then { z with form := Form.inf }
  else
    let (prod, ok) := checked.Mul x.compact y.compact
    let z := if ok then { z with compact := prod }
             else { z with mantissa := x.compact * y.compact, compact := c.Inflated }
    { z with scale := scale, form := Form.finite }

def Big.mulBig (z x y : Big) : Big :=
  let (scale, ok) := checked.Add32 x.scale y.scale
  if !ok then { z with form := Form.inf }
  else { z with mantissa := x.mantissa * y.mantissa, compact := c.Inflated,
                scale := scale, form := Form.finite }

def Big.mulHalf (z comp non : Big) : Except Fault Big :=
  if comp.isInflated then .error Fault.bug
  else if comp.scale = non.scale then
    let (scale, ok) := checked.Add32 comp.scale non.scale
    if !ok then .ok { z with form := Form.inf }
    else .ok { z with mantissa := comp.compact * non.mantissa, compact := c.Inflated,
                      scale := scale, form := Form.finite }
  else .ok (z.mulBig { Big.fresh with mantissa := comp.compact, scale := comp.scale } non)

def Big.Mul (z x y : Big) : Except Fault Big :=
  if x.form = Form.finite ∧ y.form = Form.finite then
    let z := { z with form := Form.finite }
    if x.isCompact then
      if y.isCompact then .ok (z.mulCompact x y) else z.mulHalf x y
    else if y.isCompact then z.mulHalf y x
    else .ok (z.mulBig x y)
  else if (x.form = Form.zero ∧ y.form = Form.inf) ∨ (x.form = Form.inf ∧ y.form = Form.zero) then
    .error Fault.errNaN
  else if x.form = Form.inf ∨ y.form = Form.inf then .ok { z with form := Form.inf }
  else .ok { z with form := Form.zero }

/-! ## Sign and precision (`decimal.go`, lines 628-639 and 1087-1120) -/

/-- For a compact value both branches of the source (the branch-free formula on
amd64 and the comparisons elsewhere) give the sign of `compact`. -/
def Big.Sign (x : Big) : Int :=
  if x.form = Form.zero then 0
  else if x.isCompact then
    if x.compact = 0 then 0 else if x.compact < 0 then -1 else 1
  else bigSign x.mantissa

def Big.SignBit (x : Big) : Bool :=
  (x.isCompact && decide (x.compact < 0)) || (x.isInflated && decide (bigSign x.mantissa < 0))

def Big.Prec (x : Big) : Int :=
  if x.form ≠ Form.finite then 0
  else if x.isCompact then arith.Length x.compact
  else arith.BigLength x.mantissa

def Big.Neg (z x : Big) : Big :=
  let z := if x.isCompact then { z with compact := wrap64 (-x.compact) }
           else { z with mantissa := -x.mantissa, compact := c.Inflated }
  { z with scale := x.scale, form := x.form }

/-! ## Addition (`decimal.go`, lines 98-228) -/

def Big.addCompact (z x y : Big) : Big :=
  if x.scale = y.scale then
    let z := { z with scale := x.scale }
    let (sum, ok) := checked.Add x.compact y.compact
    if ok then
      let z := { z with compact := sum }
      if sum = 0 then { z with form := Form.zero } else z
    else
      let z := { z with mantissa := x.compact + y.compact, compact := c.Inflated }
      if bigSign z.mantissa = 0 then { z with form := Form.zero } else z
  else
    let hi := if x.scale < y.scale then y else x
    let lo := if x.scale < y.scale then x else y
    let inc := wrap32 (hi.scale - lo.scale)
    let z := { z with scale := hi.scale }
    let (scaledLo, ok) := checked.MulPow10 lo.compact inc
    let (sum, ok2) := checked.Add hi.compact scaledLo
    if ok && ok2 then { z with compact := sum }
    else
      let scaled := checked.MulBigPow10 lo.compact inc
      let z := { z with mantissa := scaled + hi.compact, compact := c.Inflated }
      if bigSign z.mantissa = 0 then { z with form := Form.zero } else z

def Big.addBig (z x y : Big) : Big :=
  let hi := if x.scale < y.scale then y else x
  let lo := if x.scale < y.scale then x else y
  let inc := wrap32 (hi.scale - lo.scale)
  let scaled := checked.MulBigPow10 lo.mantissa inc
  let z := { z with mantissa := hi.mantissa + scaled, compact := c.Inflated, scale := hi.scale }
  if bigSign z.mantissa = 0 then { z with form := Form.zero } else z

def Big.addHalf (z comp non : Big) : Except Fault Big :=
  if comp.isInflated then .error Fault.bug
  else if comp.scale = non.scale then
    let z := { z with mantissa := comp.compact + non.mantissa, scale := comp.scale,
                      compact := c.Inflated }
    .ok (if bigSign z.mantissa = 0 then { z with form := Form.zero } else z)
  else .ok (z.addBig { Big.fresh with mantissa := comp.compact, scale := comp.scale } non)

def Big.Add (z x y : Big) : Except Fault Big :=
  if x.form = Form.finite ∧ y.form = Form.finite then
    let z := { z with form := Form.finite }
    if x.isCompact then
      if y.isCompact then .ok (z.addCompact x y) else z.addHalf x y
    else if y.isCompact then z.addHalf y x
    else .ok (z.addBig x y)
  else if x.form = Form.inf ∧ y.form = Form.inf ∧ x.SignBit ≠ y.SignBit then
    .error Fault.errNaN
  else if x.form = Form.zero ∧ y.form = Form.zero then .ok { z with form := Form.zero }
  else if x.form = Form.inf ∨ y.form = Form.zero then .ok (z.Set x)
  else .ok (z.Set y)

/-! ## Comparison (`decimal.go`, lines 250-373) -/

/-- The method `(*big.Int).Bits` of the Go standard library on a 64-bit
platform: the magnitude as little-endian 64-bit words, empty for zero. -/
def bigBitsAux : Nat → Nat → List Nat
  | 0, _ => []
  | fuel + 1, n =>
    if n = 0 then [] else (n % 18446744073709551616) :: bigBitsAux fuel (n / 18446744073709551616)

def bigBits (x : Int) : List Nat := bigBitsAux x.natAbs x.natAbs

/-- The loop `for i < min-1 && zb[i] == xb[i] { i++ }`; it stops within `min`
steps. -/
def cmpBitsIndex (zb xb : List Nat) (min : Int) : Nat → Nat → Nat
  | 0, i => i
  | fuel + 1, i =>
    if (i : Int) < min - 1 ∧ zb.get? i = xb.get? i then cmpBitsIndex zb xb min fuel (i + 1) else i

/-- The receiver and the argument are two objects unless `same` is set, which
models the pointer test `z == x`. -/
def Big.Cmp (same : Bool) (z x : Big) : Except Fault Int :=
  if same then .ok 0
  else
    let rest : Unit → Except Fault Int := fun _ =>
      let ds := z.Sign
      let xs := x.Sign
      if ds > xs then .ok 1
      else if ds < xs then .ok (-1)
      else if ds = 0 ∧ xs = 0 then .ok 0
      else
        let dl := wrap32 (wrap32 z.Prec - z.scale)
        let xl := wrap32 (wrap32 x.Prec - x.scale)
        if dl > xl then .ok 1
        else if dl < xl then .ok (-1)
        else
          let swap := decide (z.scale < x.scale)
          let hi := if swap then x else z
          let lo := if swap then z else x
          let dc := if swap then x.compact else z.compact
          let xc := if swap then z.compact else x.compact
          let diff := wrap32 (hi.scale - lo.scale)
          let scaled := if diff ≤ c.BadScale then checked.MulPow10 xc diff else (xc, true)
          if diff ≤ c.BadScale ∧ scaled.2 = false ∧ dc = c.Inflated then
            if swap then .ok (bigCmp (checked.MulBigPow10 z.mantissa diff) x.mantissa)
            else .ok (bigCmp z.mantissa (checked.MulBigPow10 x.mantissa diff))
          else
            let xc := scaled.1
            let dc' := if swap then xc else dc
            let xc' := if swap then dc else xc
            if dc' ≠ c.Inflated then
              if xc' ≠ c.Inflated then .ok (arith.AbsCmp dc' xc')
              else .ok (bigCmp dc' x.mantissa)
            else if xc' ≠ c.Inflated then .ok (bigCmp z.mantissa xc')
            else .ok (bigCmp z.mantissa x.mantissa)
    if z.scale = x.scale then
      if z.isCompact ∧ x.isCompact then
        if z.compact > x.compact then .ok 1
        else if z.compact < x.compact then .ok (-1)
        else .ok 0
      else if z.isInflated ∧ x.isInflated then
        if bigSign z.mantissa ≠ bigSign x.mantissa then .ok (bigSign z.mantissa)
        else if z.scale < 0 then .ok (bigCmp z.mantissa x.mantissa)
        else
          let zb := bigBits z.mantissa
          let xb := bigBits x.mantissa
          let min : Int := if xb.length < zb.length then xb.length else zb.length
          let i := cmpBitsIndex zb xb min min.toNat 0
          match zb.get? i, xb.get? i with
          | some a, some b => if a > b then .ok 1 else if a < b then .ok (-1) else .ok 0
          | _, _ => .error Fault.indexOutOfRange
      else rest ()
    else rest ()

/-! ## Rounding and division (`decimal.go`, lines 641-880; `util.go`, lines 41-73) -/

/-- Modelled from the spec: `Big.needsInc` (declared in a file that is not part
of the sources), section 4.5: "increment iff `2·|r| > |divisor|`, or
`2·|r| = |divisor|` and the quotient is odd"; never under `ToZero`. -/
def Big.needsInc (z : Big) (x r : Int) (_pos odd : Bool) : Bool :=
  match z.ctx.mode with
  | RoundingMode.ToZero => false
  | RoundingMode.ToNearestEven =>
    decide (2 * r.natAbs > x.natAbs) || (decide (2 * r.natAbs = x.natAbs) && odd)

/-- Modelled from the spec: `Big.needsIncBig` (declared in a file that is not
part of the sources), the same predicate on unbounded integers. -/
def Big.needsIncBig (z : Big) (x r : Int) (_pos odd : Bool) : Bool :=
  match z.ctx.mode with
  | RoundingMode.ToZero => false
  | RoundingMode.ToNearestEven =>
    decide (2 * r.natAbs > x.natAbs) || (decide (2 * r.natAbs = x.natAbs) && odd)

/-- The body of `quoAndRound`; `round` stands for the call `z.Round`. -/
def Big.quoAndRoundWith (round : Big → Int → Except Fault Big) (z : Big) (x y : Int) :
    Except Fault Big :=
  if y = 0 then .error Fault.divideByZero
  else
    let z := { z with compact := wrap64 (Int.tdiv x y) }
    if z.ctx.mode = RoundingMode.ToZero then .ok z
    else
      let r := Int.tmod x y
      let sign : Int := if decide (x < 0) != decide (y < 0) then -1 else 1
      let z := if r ≠ 0 ∧ z.needsInc y r (decide (sign > 0)) (decide (z.compact % 2 ≠ 0)) = true
               then { z with compact := wrap64 (z.compact + sign) } else z
      round z z.ctx.prec

/-- The body of `quoBigAndRound`; `round` stands for the call `z.Round`. -/
def Big.quoBigAndRoundWith (round : Big → Int → Except Fault Big) (z : Big) (x y : Int) :
    Except Fault Big :=
  let z := { z with compact := c.Inflated }
  if y = 0 then .error Fault.divideByZero
  else
    let q := Int.tdiv x y
    let r := Int.tmod x y
    let z := { z with mantissa := q }
    if z.ctx.mode = RoundingMode.ToZero then .ok z
    else
      let sign : Int := if decide (bigSign x < 0) != decide (bigSign y < 0) then -1 else 1
      let odd := decide (q % 2 ≠ 0)
      let z := if bigSign r ≠ 0 ∧ z.needsIncBig y r (decide (sign > 0)) odd = true
               then { z with mantissa := z.mantissa + sign } else z
      round z z.ctx.prec

/-- `Round` and the two division helpers call each other; the first argument
bounds the depth of these calls. -/
def Big.Round : Nat → Big → Int → Except Fault Big
  | 0, _, _ => .error Fault.outOfFuel
  | fuel + 1, z, n =>
    let zp := z.Prec
    if n ≤ 0 ∨ n < zp - z.scale ∨ z.form ≠ Form.finite then .ok z
    else
      let (shift, ok) := checked.Sub zp n
      if !ok then .ok { z with form := Form.inf }
      else if shift ≤ 0 then .ok z
      else
        let z := { z with scale := wrap32 (z.scale - wrap32 shift) }
        let (val, ok) := pow.Ten64 shift
        if z.isCompact ∧ ok = true then Big.quoAndRoundWith (Big.Round fuel) z z.compact val
        else
          let z := if z.isCompact then { z with mantissa := z.compact } else z
          Big.quoBigAndRoundWith (Big.Round fuel) z z.mantissa (pow.BigTen shift)

def Big.quoAndRound (fuel : Nat) (z : Big) (x y : Int) : Except Fault Big :=
  Big.quoAndRoundWith (Big.Round fuel) z x y

def Big.quoBigAndRound (fuel : Nat) (z : Big) (x y : Int) : Except Fault Big :=
  Big.quoBigAndRoundWith (Big.Round fuel) z x y

def cmpNorm (x xs y ys : Int) : Except Fault Bool :=
  if x = 0 ∨ y = 0 then .error Fault.bug
  else
    let diff := wrap32 (xs - ys)
    let x' := if diff ≠ 0 ∧ diff < 0 then (checked.MulPow10 x (wrap32 (-diff))).1 else x
    let y' := if diff ≠ 0 ∧ ¬ diff < 0 then (checked.MulPow10 y diff).1 else y
    if x' ≠ c.Inflated then
      if y' ≠ c.Inflated then .ok (decide (arith.AbsCmp x' y' > 0)) else .ok false
    else .ok true

def cmpNormBig (x xs y ys : Int) : Bool :=
  let diff := wrap32 (xs - ys)
  if diff < 0 then decide (bigCmp (checked.MulBigPow10 x (wrap32 (-diff))) y > 0)
  else decide (bigCmp x (checked.MulBigPow10 y diff) > 0)

def Big.quoCompact (fuel : Nat) (z x y : Big) : Except Fault Big :=
  if x.compact = 0 then
    if y.compact = 0 then .error Fault.errNaN else .ok { z with form := Form.zero }
  else
    let (scale, ok) := checked.Sub32 x.scale y.scale
    if !ok then .ok { z with form := Form.inf }
    else
      let zp := z.ctx.prec
      let xp := wrap32 x.Prec
      let yp := wrap32 y.Prec
      match cmpNorm x.compact xp y.compact yp with
      | .error e => .error e
      | .ok gt =>
        let yp := if gt then wrap32 (yp - 1) else yp
        let (scale, ok) := checked.Int32 (scale + yp - xp + zp)
        if !ok then .ok { z with form := Form.inf }
        else
          let z := { z with scale := scale }
          let (shift, ok) := checked.SumSub zp yp xp
          if !ok then .ok { z with form := Form.inf }
          else if shift > 0 then
            let (xs, ok) := checked.MulPow10 x.compact shift
            if !ok then
              z.quoBigAndRound fuel (checked.MulBigPow10 x.compact shift) y.compact
            else z.quoAndRound fuel xs y.compact
          else
            let (ns, ok) := checked.Sub32 xp zp
            if !ok then .ok { z with form := Form.inf }
            else if ns = yp then z.quoAndRound fuel x.compact y.compact
            else
              let (shift, ok) := checked.Sub32 ns yp
              if !ok then .ok { z with form := Form.inf }
              else
                let (ys, ok) := checked.MulPow10 y.compact shift
                if !ok then
                  z.quoBigAndRound fuel x.compact (checked.MulBigPow10 y.compact shift)
                else z.quoAndRound fuel x.compact ys

def Big.quoBig (fuel : Nat) (z x y : Big) : Except Fault Big :=
  let (scale, ok) := checked.Sub32 x.scale y.scale
  if !ok then .ok { z with form := Form.inf }
  else
    let zp := z.ctx.prec
    let xp := wrap32 x.Prec
    let yp := wrap32 y.Prec
    let yp := if cmpNormBig x.mantissa xp y.mantissa yp then wrap32 (yp - 1) else yp
    let (scale, ok) := checked.Int32 (scale + yp - xp + zp)
    if !ok then .ok { z with form := Form.inf }
    else
      let z := { z with scale := scale }
      let (shift, ok) := checked.SumSub zp yp xp
      if !ok then .ok { z with form := Form.inf }
      else if shift > 0 then
        z.quoBigAndRound fuel (checked.MulBigPow10 x.mantissa shift) y.mantissa
      else
        let (ns, ok) := checked.Sub32 xp zp
        if !ok then .ok { z with form := Form.inf }
        else
          let (shift, ok) := checked.Sub32 ns yp
          if !ok then .ok { z with form := Form.inf }
          else z.quoBigAndRound fuel x.mantissa (checked.MulBigPow10 y.mantissa shift)

/-- The temporary `&Big{compact: c.Inflated, mantissa: *big.NewInt(v.compact), ...}`
that `Quo` builds for a compact operand facing an inflated one. -/
def Big.inflatedCopy (v : Big) : Big :=
  { compact := c.Inflated, mantissa := v.compact, ctx := v.ctx, form := v.form, scale := v.scale }

def Big.Quo (fuel : Nat) (z x y : Big) : Except Fault Big :=
  if x.form = Form.finite ∧ y.form = Form.finite then
    let z := { z with form := Form.finite }
    if x.isCompact then
      if y.isCompact then z.quoCompact fuel x y
      else z.quoBig fuel x.inflatedCopy y
    else if y.isCompact then z.quoBig fuel x y.inflatedCopy
    else z.quoBig fuel x y
  else if (x.form = Form.zero ∧ y.form = Form.zero) ∨ (x.form = Form.inf ∧ y.form = Form.inf) then
    .error Fault.errNaN
  else if x.form = Form.zero ∨ y.form = Form.inf then .ok { z with form := Form.zero }
  else .ok { z with form := Form.inf }

/-! ## Integer views (`decimal.go`, lines 420-494) -/

def Big.IsBig (x : Big) : Bool :=
  (x.isCompact && (decide (x.scale < -19) || decide (x.scale > 19))) ||
    (decide (bigCmp x.mantissa c.MinInt64 < 0) || decide (bigCmp x.mantissa c.MaxInt64 ≥ 0))

/-- The method `Int` of the source (`BigInt` in the interface list of the
spec; the name `Big.Int` would hide the type of integers). `big.Int.Div` is
Euclidean division, which is `Int.ediv`. -/
def Big.BigInt (x : Big) : Int :=
  let b := if x.isCompact then x.compact else x.mantissa
  if x.scale = 0 then b
  else if x.scale < 0 then checked.MulBigPow10 b (wrap32 (-x.scale))
  else Int.ediv b (pow.BigTen x.scale)

/-- `big.Int.Int64` keeps the low 64 bits; `/` on `int64` truncates. -/
def Big.Int64 (x : Big) : Int :=
  let b := if x.isCompact then x.compact else wrap64 x.mantissa
  if x.scale = 0 then b
  else if x.scale < 0 then (checked.MulPow10 b (wrap32 (-x.scale))).1
  else
    let (p, ok) := pow.Ten64 x.scale
    if !ok then 0 else wrap64 (Int.tdiv b p)

def Big.IsInt (x : Big) : Bool :=
  if x.form ≠ Form.finite then decide (x.form = Form.zero)
  else decide (x.scale ≤ 0) || decide (x.Prec < x.scale)

/-! ## Parsing (`decimal.go`, lines 1017-1085; `util.go`, lines 100-134) -/

/-- The body of the loop of `equalFold` for one pair of bytes. -/
def foldEq (a b : Char) : Bool :=
  if a = b then true
  else
    let sr := if b.toNat < a.toNat then b else a
    let tr := if b.toNat < a.toNat then a else b
    decide ('A'.toNat ≤ sr.toNat) && decide (sr.toNat ≤ 'Z'.toNat) &&
      decide (tr.toNat = (sr.toNat + 'a'.toNat - 'A'.toNat) % 256)

def equalFold (s1 s2 : List Char) : Bool :=
  if s1.length ≠ s2.length then false
  else (List.zip s1 s2).all fun (a, b) => foldEq a b

/-- The two errors of package `strconv`. -/
inductive NumError where
  | ErrSyntax
  | ErrRange
  deriving DecidableEq, Repr

def isDigit (ch : Char) : Bool := decide ('0'.toNat ≤ ch.toNat) && decide (ch.toNat ≤ '9'.toNat)

def digitVal (ch : Char) : Nat := ch.toNat - '0'.toNat

/-- The digit loop of `strconv.ParseUint` in base 10: a character that is not
a digit is a syntax error, a value above `maxVal` is a range error, met in
the order of the characters. -/
def parseUintLoop (maxVal : Nat) : List Char → Nat → Nat × Option NumError
  | [], n => (n, none)
  | ch :: rest, n =>
    if isDigit ch then
      if n * 10 + digitVal ch > maxVal then (maxVal, some NumError.ErrRange)
      else parseUintLoop maxVal rest (n * 10 + digitVal ch)
    else (0, some NumError.ErrSyntax)

/-- `strconv.ParseUint(s, 10, bitSize)` of the Go standard library. -/
def strconv.ParseUint (s : List Char) (bitSize : Nat) : Nat × Option NumError :=
  if s = [] then (0, some NumError.ErrSyntax) else parseUintLoop (2 ^ bitSize - 1) s 0

/-- `strconv.ParseInt(s, 10, bitSize)` of the Go standard library. -/
def strconv.ParseInt (s : List Char) (bitSize : Nat) : Int × Option NumError :=
  match s with
  | [] => (0, some NumError.ErrSyntax)
  | ch :: rest =>
    let neg := decide (ch = '-')
    let body := if ch = '+' ∨ ch = '-' then rest else s
    let (un, err) := strconv.ParseUint body bitSize
    if err = some NumError.ErrSyntax then (0, err)
    else
      let cutoff : Nat := 2 ^ (bitSize - 1)
      if !neg && decide (un ≥ cutoff) then ((cutoff : Int) - 1, some NumError.ErrRange)
      else if neg && decide (un > cutoff) then (-(cutoff : Int), some NumError.ErrRange)
      else (if neg then -(un : Int) else (un : Int), none)

/-- The digit loop of `(*big.Int).SetString(s, 10)`. -/
def bigDigits : List Char → Nat → Option Nat
  | [], n => some n
  | ch :: rest, n => if isDigit ch then bigDigits rest (n * 10 + digitVal ch) else none

/-- `(*big.Int).SetString(s, 10)` of the Go standard library: an optional sign
followed by one or more decimal digits. -/
def bigSetString (s : List Char) : Option Int :=
  match s with
  | [] => none
  | ch :: rest =>
    let body := if ch = '+' ∨ ch = '-' then rest else s
    if body = [] then none
    else match bigDigits body 0 with
      | none => none
      | some n => some (if ch = '-' then -(n : Int) else (n : Int))

/-- `strings.LastIndexAny`: the index of the last character of `s` that occurs
in `chars`, or `-1`. -/
def lastIndexAny : List Char → List Char → Int
  | [], _ => -1
  | ch :: rest, chars =>
    let r := lastIndexAny rest chars
    if r ≥ 0 then r + 1 else if ch ∈ chars then 0 else -1

/-- The first test of `SetString`: `Inf`, `+Inf` or `-Inf` in any case. -/
def isInfText (s : List Char) : Bool :=
  (decide (s.length = 3) && equalFold s ['I', 'n', 'f']) ||
    (decide (s.length = 4) && (decide (s.head? = some '+') || decide (s.head? = some '-')) &&
      equalFold (s.drop 1) ['I', 'n', 'f'])

/-- The block `i := strings.LastIndexAny(s, "Ee"); if i > 0 { ... }` of
`SetString`: the text before the exponent and the scale `-int32(eint)`, or
`none` when `strconv.ParseInt(s[i+1:], 10, 32)` reports an error. -/
def splitExponent (s : List Char) : Option (List Char × Int) :=
  let i := lastIndexAny s ['E', 'e']
  if i > 0 then
    match strconv.ParseInt (s.drop (i.toNat + 1)) 32 with
    | (eint, none) => some (s.take i.toNat, wrap32 (-eint))
    | (_, some _) => none
  else some (s, 0)

/-- The block `switch strings.Count(s, ".")` of `SetString`: the text without
its radix point and the scale increased by `int32(len(s) - i)`. -/
def splitRadix (s : List Char) (scale : Int) : Option (List Char × Int) :=
  match s.count '.' with
  | 0 => some (s, scale)
  | 1 =>
    let i := s.indexOf '.'
    let s' := s.take i ++ s.drop (i + 1)
    some (s', wrap32 (scale + wrap32 ((s'.length : Int) - (i : Int))))
  | _ => none

/-- The rest of `SetString`: the digits are read in 64 bits when there are at
most 19 characters, and as an unbounded integer after a range error on 19
characters or when there are more than 19. -/
def Big.setMantissa (z : Big) (s : List Char) (scale : Int) : Option Big :=
  let parsed : Int × Option NumError :=
    if s.length ≤ 19 then strconv.ParseInt s 64 else (z.compact, none)
  if s.length ≤ 19 ∧ parsed.2 = some NumError.ErrSyntax then none
  else
    let z := { z with compact := parsed.1 }
    if (parsed.2 = some NumError.ErrRange ∧ s.length = 19) ∨ s.length > 19 then
      match bigSetString s with
      | none => none
      | some m =>
        some { z with mantissa := m, compact := c.Inflated, scale := scale, form := Form.finite }
    else some { z with scale := scale, form := Form.finite }

/-- `SetString` returns `(nil, false)` on failure, which is `none` here. -/
def Big.SetString (z : Big) (s : List Char) : Option Big :=
  if isInfText s then some { z with form := Form.inf }
  else
    (splitExponent s).bind fun (s, scale) =>
      (splitRadix s scale).bind fun (s, scale) => z.setMantissa s scale

/-! ## Formatting (`decimal.go`, lines 1122-1260; `util.go`, lines 75-88) -/

/-- `strconv.FormatInt(v, 10)`, `strconv.Itoa` and `(*big.Int).String`. -/
def formatInt (v : Int) : List Char :=
  if v < 0 then '-' :: Nat.toDigits 10 v.natAbs else Nat.toDigits 10 v.natAbs

/-- The method `buffer.String` applied to the bytes written so far: trailing
characters `0` are dropped, then one `.`; the test `buf[i] == '.'` indexes the
slice at `-1` when nothing else is left. -/
def buffer.String (buf : List Char) : Except Fault (List Char) :=
  match buf.reverse.dropWhile (fun ch => ch = '0') with
  | [] => .error Fault.indexOutOfRange
  | ch :: rest => if ch = '.' then .ok rest.reverse else .ok (ch :: rest).reverse

def Big.normString (x : Big) (str b : List Char) : Except Fault (List Char) :=
  let pad : Int := (str.length : Int) - x.scale
  if pad = 0 then buffer.String (b ++ ['0', '.'] ++ str)
  else if pad > 0 then buffer.String (b ++ str.take pad.toNat ++ ['.'] ++ str.drop pad.toNat)
  else buffer.String (b ++ ['0', '.'] ++ List.replicate (-pad).toNat '0' ++ str)

/-- `opts` is `lower` (0) or `upper` (1), the two values the source passes. -/
def Big.toSciString (x : Big) (str b : List Char) (opts : Nat) : Except Fault (List Char) :=
  let adj : Int := -x.scale + ((str.length : Int) - 1)
  let pos := decide (adj > 0)
  if x.scale ≥ 0 ∧ adj ≥ -6 then x.normString str b
  else
    match str with
    | [] => .error Fault.indexOutOfRange
    | d :: ds =>
      let b := b ++ [d]
      let b := if str.length > 1 then b ++ ['.'] ++ ds else b
      let b := if adj ≠ 0 then
          b ++ [if opts = 0 then 'e' else 'E'] ++ (if pos then ['+'] else []) ++ formatInt adj
        else b
      buffer.String b

/-- For a non-negative scale `toPlainString` hands `normString` a new, empty
buffer. -/
def Big.toPlainString (x : Big) (str b : List Char) : Except Fault (List Char) :=
  if x.scale < 0 then buffer.String (b ++ str ++ List.replicate (-x.scale).toNat '0')
  else x.normString str []

def lower : Nat := 0
def upper : Nat := 1

/-- The receiver is a value here, so the case `x == nil` of the source does not
arise. -/
def Big.toString (x : Big) (sci : Bool) (opts : Nat) : Except Fault (List Char) :=
  if x.form = Form.inf then .ok ['I', 'n', 'f']
  else if x.scale = 0 then
    if x.isInflated then .ok (formatInt x.mantissa) else .ok (formatInt x.compact)
  else if (x.isCompact ∧ x.compact = 0) ∨ (x.isInflated ∧ bigSign x.mantissa = 0) then .ok ['0']
  else
    let str := if x.isInflated then formatInt x.mantissa else formatInt x.compact
    let b : List Char := if str.head? = some '-' then ['-'] else []
    let str := if str.head? = some '-' then str.drop 1 else str
    if sci then x.toSciString str b opts else x.toPlainString str b

def Big.String (x : Big) : Except Fault (List Char) := x.toString true lower

def Big.PlainString (x : Big) : Except Fault (List Char) := x.toString false lower

/-! ## Square root (`decimal.go`, lines 1262-1356; `util.go`, lines 205-212) -/

def shiftRadixRight (x : Big) (n : Int) : Big × Bool :=
  let (ns, ok) := checked.Sub32 x.scale (wrap32 n)
  if !ok then (x, false) else ({ x with scale := ns }, true)

/-- The hardware square root is not modelled: `fsqrt xc` stands for the value
of `int64(math.Sqrt(float64(xc)))`. -/
def perfectSquare (fsqrt : Int → Int) (x : Big) : Int × Bool :=
  if x.IsBig || !x.IsInt then (0, false)
  else
    let xc := x.Int64
    let h := xc % 16
    if h > 9 then (0, false)
    else if h ≠ 2 ∧ h ≠ 3 ∧ h ≠ 5 ∧ h ≠ 6 ∧ h ≠ 7 ∧ h ≠ 8 then
      let tst := fsqrt xc
      (tst, decide (wrap64 (tst * tst) = xc))
    else (0, false)

/-- The loop of the 64-bit path: `p = ix; ix += n / ix; ix >>= 1`, left when
`ix == p`. -/
def sqrtLoop64 : Nat → Int → Int → Except Fault Int
  | 0, _, _ => .error Fault.outOfFuel
  | fuel + 1, n, ix =>
    if ix = 0 then .error Fault.divideByZero
    else
      let next := (wrap64 (ix + wrap64 (Int.tdiv n ix))) >>> (1 : Nat)
      if next = ix then .ok next else sqrtLoop64 fuel n next

/-- The loop of the unbounded path: `p.Set(ix); ix.Add(ix, a.Quo(n, ix)).Rsh(ix, 1)`,
left when `ix.Cmp(&p) == 0`. -/
def sqrtLoopBig : Nat → Int → Int → Except Fault Int
  | 0, _, _ => .error Fault.outOfFuel
  | fuel + 1, n, ix =>
    if ix = 0 then .error Fault.divideByZero
    else
      let next := (ix + Int.tdiv n ix) >>> (1 : Nat)
      if next = ix then .ok next else sqrtLoopBig fuel n next

/-- The seed `n >> uint((arith.BitLen(n)+1)>>1)` of the 64-bit path. -/
def sqrtSeed64 (n : Int) : Int := n >>> (((arith.BitLen n + 1) >>> (1 : Nat)).toNat)

/-- The seed `new(big.Int).Rsh(n, uint((n.BitLen()+1)>>1))` of the unbounded path. -/
def sqrtSeedBig (n : Int) : Int := n >>> (((bigBitLen n + 1) >>> (1 : Nat)).toNat)

/-- `same` models the pointer test `z != x`; when it is set the receiver is
`x` itself. `fuel` bounds the number of passes through either loop. -/
def Big.Sqrt (fsqrt : Int → Int) (fuel : Nat) (same : Bool) (z x : Big) : Except Fault Big :=
  let z := if same then x else z
  if x.SignBit then .error Fault.bug
  else if x.form = Form.inf then .ok { z with form := Form.inf }
  else if x.Sign = 0 then .ok { z with form := Form.zero }
  else
    let (sq, ok) := perfectSquare fsqrt x
    if ok then .ok ({ z with ctx := x.ctx }.SetMantScale sq 0)
    else
      let zp := z.ctx.prec
      let zpadj := wrap64 (zp * 2)
      let z := if same then z else { z.Set x with ctx := z.ctx }
      let tmp := if same then Big.fresh.Set x else z
      let (tmp, ok) := shiftRadixRight tmp zpadj
      let z := if same then z else tmp
      if !ok then .ok { z with form := Form.inf }
      else if !x.IsBig ∧ zpadj ≤ 19 then
        let n := tmp.Int64
        (sqrtLoop64 fuel n (sqrtSeed64 n)).map fun ix => z.SetMantScale ix zp
      else
        let n := tmp.BigInt
        (sqrtLoopBig fuel n (sqrtSeedBig n)).map fun ix => z.SetBigMantScale ix zp

/-! ## Subtraction and infinities (`decimal.go`, lines 975-979 and 1358-1388) -/

def Big.SetInf (x : Big) : Big := { x with form := Form.inf }

/-- The temporary of the finite case is `new(Big).Neg(y)`. -/
def Big.Sub (z x y : Big) : Except Fault Big :=
  if x.form = Form.finite ∧ y.form = Form.finite then z.Add x (Big.fresh.Neg y)
  else if x.form = Form.inf ∧ y.form = Form.inf ∧ x.Sign = y.Sign then .error Fault.errNaN
  else if x.form = Form.zero ∧ y.form = Form.zero then .ok { z with form := Form.zero }
  else if x.form = Form.inf ∨ y.form = Form.zero then .ok (z.Set x)
  else .ok (z.Neg y)

/-! ## Absolute value (`decimal.go`, lines 82-96) -/

/-- The unbounded branch writes `z.mantissa` only; `z.compact` keeps what the
destination held. -/
def Big.Abs (z x : Big) : Big :=
  if x.form ≠ Form.finite then z
  else
    let z := if x.isCompact then { z with compact := arith.Abs x.compact }
             else { z with mantissa := |x.mantissa| }
    { z with scale := x.scale, ctx := x.ctx, form := Form.finite }

/-! ## Definitions used in the statements -/

/-- The destination used in the examples: a new value whose context carries
the given precision and rounding mode. -/
def withContext (p : Int) (m : RoundingMode) : Big :=
  { Big.fresh with ctx := { precision := p, mode := m } }

/-! ## The grammar of numerals (spec, section 4.7) -/

/-- A sign: nothing, `+` or `-`. -/
def IsSign (s : List Char) : Prop := s = [] ∨ s = ['+'] ∨ s = ['-']

/-- A non-empty string of decimal digits. -/
def IsDigits (ds : List Char) : Prop := ds ≠ [] ∧ ∀ ch ∈ ds, isDigit ch = true

/-- The natural number written by a string of digits, most significant digit
first. -/
def decimalValue (ds : List Char) : Nat := Nat.ofDigits 10 (ds.reverse.map digitVal)

/-- The integer written by a sign and a natural number. -/
def applySign (sign : List Char) (n : Nat) : Int := if sign = ['-'] then -(n : Int) else (n : Int)

/-- The parts of a text `[sign] I [ '.' F ] [ ('e'|'E') [sign] X ]`: the sign,
the digits `I`, the digits `F` when there is a fraction, and the letter, the
sign and the digits `X` of the exponent when there is one. -/
structure Numeral where
  sign : List Char
  int : List Char
  frac : Option (List Char)
  exp : Option (Char × List Char × List Char)

def Numeral.fracText (t : Numeral) : List Char :=
  match t.frac with
  | none => []
  | some f => '.' :: f

def Numeral.expText (t : Numeral) : List Char :=
  match t.exp with
  | none => []
  | some (e, es, X) => e :: (es ++ X)

/-- The text of a numeral. -/
def Numeral.text (t : Numeral) : List Char := t.sign ++ t.int ++ t.fracText ++ t.expText

/-- The digits `F`, none without a fraction. -/
def Numeral.fracDigits (t : Numeral) : List Char := t.frac.getD []

/-- The value `X` of the exponent with its sign, 0 without an exponent. -/
def Numeral.exponent (t : Numeral) : Int :=
  match t.exp with
  | none => 0
  | some (_, es, X) => applySign es (decimalValue X)

/-- The signed integer written by the digits of `I` followed by those of `F`. -/
def Numeral.mantissa (t : Numeral) : Int :=
  applySign t.sign (decimalValue (t.int ++ t.fracDigits))

structure Numeral.WellFormed (t : Numeral) : Prop where
  sign : IsSign t.sign
  int : IsDigits t.int
  frac : ∀ f, t.frac = some f → IsDigits f
  exp : ∀ e es X, t.exp = some (e, es, X) → (e = 'e' ∨ e = 'E') ∧ IsSign es ∧ IsDigits X


/-! ## Definitions used for the square root -/

/-- One pass of the Newton loop on natural numbers: `(a + n / a) / 2`. -/
def newtonStep (n a : Nat) : Nat := (a + n / a) / 2

/-- A model of `int64(math.Sqrt(float64(v)))` for closed statements: the
integer square root. -/
def intSqrt (v : Int) : Int := Nat.sqrt v.toNat

/-- The integer part of `x * 10^k` for a finite `x`: the mantissa scaled up by
`10^(k - scale)` when `scale ≤ k`, and divided by `10^(scale - k)`, rounding
down, otherwise. -/
def Big.shifted (x : Big) (k : Int) : Int :=
  if x.scale ≤ k then x.mant * 10 ^ (k - x.scale).toNat
  else x.mant / 10 ^ (x.scale - k).toNat

/-- The numerical value `mantissa * 10^(-scale)` of a value that is not an
infinity. -/
def Big.value (x : Big) : ℚ :=
  if x.form = Form.zero then 0 else (x.mant : ℚ) * (10 : ℚ) ^ (-x.scale)

/-- The fields of `x` hold values of their Go types: `compact` is an `int64`,
`scale` and the precision of the context are `int32`. -/
def Big.WellTyped (x : Big) : Prop :=
  fits64 x.compact = true ∧ fits32 x.scale = true ∧ fits32 x.ctx.precision = true

/-! ## Definitions used in the statements on subtraction, rounding and comparison -/

/-- Two calls end alike: both fail with the same fault, or both return values
of the same form, mantissa and scale (hence of the same numerical value). -/
def SameOutcome (a b : Except Fault Big) : Prop :=
  match a, b with
  | .error e1, .error e2 => e1 = e2
  | .ok r1, .ok r2 => r1.form = r2.form ∧ r1.mant = r2.mant ∧ r1.scale = r2.scale
  | _, _ => False

/-! ## The texts that `SetString` can accept -/

/-- An optional sign followed by one or more decimal digits. -/
def isSignedDigits (s : List Char) : Bool :=
  match s with
  | [] => false
  | ch :: rest =>
    let body := if ch = '+' ∨ ch = '-' then rest else s
    decide (body ≠ []) && body.all isDigit

/-- A text with at most one radix point that is an optional sign followed by
one or more digits once the radix point is deleted. -/
def isLenientMantissa (m : List Char) : Bool :=
  decide (m.count '.' ≤ 1) && isSignedDigits (m.filter fun ch => decide (ch ≠ '.'))

/-- Such a mantissa, alone or followed by `e` or `E` and a signed exponent. -/
def isLenientNumeral (s : List Char) : Bool :=
  isLenientMantissa s ||
    (List.range s.length).any fun i =>
      (decide (s.get? i = some 'e') || decide (s.get? i = some 'E')) &&
        isLenientMantissa (s.take i) && isSignedDigits (s.drop (i + 1))

/-! ## The result scale of a division as the spec states it (section 4.4) -/

/-- The test of step 2 as the spec words it, "the normalised `x` strictly
exceeds the normalised `y`", on magnitudes: `|x| / 10^(p_x - 1)` against
`|y| / 10^(p_y - 1)`, compared after multiplying both by the two powers. -/
def specNormalisedExceeds (x y : Big) : Bool :=
  decide (x.mant.natAbs * 10 ^ (y.Prec - 1).toNat > y.mant.natAbs * 10 ^ (x.Prec - 1).toNat)

/-- The result scale of steps 1 to 3 of the spec, in exact integers:
`x.scale - y.scale + p_y - p_x + p_z`, with `p_y` one less than `Prec(y)`
when the test of step 2 holds. -/
def specQuoScale (z x y : Big) : Int :=
  x.scale - y.scale + (if specNormalisedExceeds x y then y.Prec - 1 else y.Prec)
    - x.Prec + z.ctx.prec

/-! # Theorems -/

/-! ## Basic facts about the machine-integer model -/

theorem wrap32_of_fits {v : Int} (h : fits32 v = true) : wrap32 v = v := by
  simp only [fits32, minInt32, maxInt32, Bool.and_eq_true, decide_eq_true_eq] at h
  unfold wrap32
  omega

theorem wrap64_of_fits {v : Int} (h : fits64 v = true) : wrap64 v = v := by
  simp only [fits64, minInt64, maxInt64, Bool.and_eq_true, decide_eq_true_eq] at h
  unfold wrap64
  omega

/-! ## Addition -/

/-- C1. `Add` is not exact when the 64-bit sum is the sentinel: for
`x = y = New(-2^62, 0)` the sum `-2^63` fits in 64 bits, so `addCompact` stores
it in `compact`, where it reads as "inflated"; the mantissa of the result is
then whatever the unbounded field of the destination held (0 when the
destination is new), not `-2^63`. -/
theorem Add_sentinel_sum_reads_stale_mantissa (z : Big) :
    z.Add (New (-4611686018427387904) 0) (New (-4611686018427387904) 0)
        = .ok { z with compact := c.Inflated, scale := 0, form := Form.finite } ∧
      ({ z with compact := c.Inflated, scale := 0, form := Form.finite } : Big).mant
        = z.mantissa ∧
      (New (-4611686018427387904) 0).mant * 10 ^ 0 + (New (-4611686018427387904) 0).mant * 10 ^ 0
        = -9223372036854775808 := by
  refine ⟨rfl, rfl, by decide⟩

/-! ## Multiplication -/

/-- C2, as stated, fails when the scales overflow: the product of
`New(maxInt64, maxInt32)` and `New(10, 1)` overflows 64 bits, and the result is
an infinity, not a finite value. -/
theorem Mul_overflow_counterexample :
    (New maxInt64 maxInt32).form = Form.finite ∧ (New 10 1).form = Form.finite ∧
      (New maxInt64 maxInt32).isCompact = true ∧ (New 10 1).isCompact = true ∧
      fits64 ((New maxInt64 maxInt32).compact * (New 10 1).compact) = false ∧
      Big.fresh.Mul (New maxInt64 maxInt32) (New 10 1) = .ok { Big.fresh with form := Form.inf } := by
  decide

/-- C2 (amended). For finite compact `x` and `y` whose 64-bit product overflows
and whose scales add up within 32 bits, `Mul` returns a finite value on the
unbounded path whose mantissa is `x.mantissa * y.mantissa` and whose scale is
`x.scale + y.scale`. -/
theorem Mul_overflow_promotes (z x y : Big)
    (hx : x.form = Form.finite) (hy : y.form = Form.finite)
    (hxc : x.isCompact = true) (hyc : y.isCompact = true)
    (hov : fits64 (x.compact * y.compact) = false)
    (hs : fits32 (x.scale + y.scale) = true) :
    ∃ r, z.Mul x y = .ok r ∧ r.form = Form.finite ∧ r.isInflated = true ∧
      r.compact = c.Inflated ∧ r.mant = x.compact * y.compact ∧
      r.mant = x.mant * y.mant ∧ r.scale = x.scale + y.scale := by
  refine ⟨{ z with mantissa := x.compact * y.compact, compact := c.Inflated,
                   scale := x.scale + y.scale, form := Form.finite }, ?_, rfl, rfl, rfl, rfl, ?_, rfl⟩
  · simp [Big.Mul, Big.mulCompact, checked.Add32, checked.Mul, hx, hy, hxc, hyc, hov, hs,
      wrap32_of_fits hs]
  · simp only [Big.mant, hxc, hyc, if_true]
    rfl

/-- The scenario of the spec: `New(maxInt64, 0)` times `New(10, 0)`. -/
theorem Mul_overflow_promotes_witness :
    ∃ r, Big.fresh.Mul (New maxInt64 0) (New 10 0) = .ok r ∧ r.form = Form.finite ∧
      r.isInflated = true ∧ r.compact = c.Inflated ∧
      r.mant = (New maxInt64 0).compact * (New 10 0).compact ∧
      r.mant = (New maxInt64 0).mant * (New 10 0).mant ∧
      r.scale = (New maxInt64 0).scale + (New 10 0).scale :=
  Mul_overflow_promotes Big.fresh (New maxInt64 0) (New 10 0) (by decide) (by decide) (by decide)
    (by decide) (by decide) (by decide)

/-- C3. When the exact product is the sentinel `-2^63` (here `(-2^62) * 2`),
`checked.Mul` succeeds and `mulCompact` stores the product in `compact`; the
unbounded field is not written, so the mantissa of the result is whatever that
field of the destination held before, not `-2^63`. -/
theorem Mul_sentinel_product_reads_stale_mantissa (z : Big) :
    fits64 ((-4611686018427387904) * 2) = true ∧
      z.Mul (New (-4611686018427387904) 0) (New 2 0)
        = .ok { z with compact := c.Inflated, scale := 0, form := Form.finite } ∧
      ({ z with compact := c.Inflated, scale := 0, form := Form.finite } : Big).mant
        = z.mantissa := by
  refine ⟨by decide, rfl, rfl⟩


/-! ## Division -/

/-- C4. The quotient-digit normalisation is lost when its own 64-bit scaling
overflows. For `x = 95`, `y = 9000000000000000000`, precision 1 and `ToZero`,
the normalised `|x| = 0.95` exceeds the normalised `|y| = 0.9` (that is,
`95 * 10^17 > 9 * 10^18`), so the claim gives `p_y = 18`, `shift = 17`, scale 17
and mantissa `trunc(95 * 10^17 / y) = 1`. In `cmpNorm` the product `95 * 10^17`
overflows, `checked.MulPow10` yields 0, and the comparison answers `false`;
`Quo` returns mantissa 10 with scale 18. -/
theorem Quo_normalisation_lost_on_overflow (fuel : Nat) :
    (95 : Int) * 10 ^ 17 > 9000000000000000000 ∧
      cmpNorm 95 2 9000000000000000000 19 = .ok false ∧
      Big.Quo fuel (withContext 1 RoundingMode.ToZero) (New 95 0) (New 9000000000000000000 0)
        = .ok { withContext 1 RoundingMode.ToZero with
                compact := c.Inflated, mantissa := 10, scale := 18, form := Form.finite } ∧
      Int.tdiv (95 * 10 ^ 17) 9000000000000000000 = 1 := by
  refine ⟨by decide, by decide, rfl, by decide⟩

/-- C5. The result of `Quo` can have more digits than the context precision.
Under `ToZero`, `1 / 1` at precision 1 is the mantissa 10 with scale 1, which
has two digits: `quoAndRound` returns before the call of `Round`. Under
`ToNearestEven`, `99999 / 1` at precision 3 is the mantissa 1000 with scale -2,
which has four digits: `Round` returns early because the value has more than
three integer digits. -/
theorem Quo_result_exceeds_precision (fuel : Nat) :
    Big.Quo fuel (withContext 1 RoundingMode.ToZero) (New 1 0) (New 1 0)
        = .ok { withContext 1 RoundingMode.ToZero with
                compact := 10, scale := 1, form := Form.finite } ∧
      ({ withContext 1 RoundingMode.ToZero with
                compact := 10, scale := 1, form := Form.finite } : Big).Prec = 2 ∧
      Big.Quo (fuel + 1) (withContext 3 RoundingMode.ToNearestEven) (New 99999 0) (New 1 0)
        = .ok { withContext 3 RoundingMode.ToNearestEven with
                compact := 1000, scale := -2, form := Form.finite } ∧
      ({ withContext 3 RoundingMode.ToNearestEven with
                compact := 1000, scale := -2, form := Form.finite } : Big).Prec = 4 := by
  refine ⟨rfl, by decide, rfl, by decide⟩

/-! ## Comparison -/

/-- C8. `Cmp` answers `+1` for `z = -100` (mantissa -100, scale 0) against
`x = -0.1` (mantissa -1, scale 1), although `z < x`: both are negative, the
decimal magnitude of `z` (3) is the larger one, and the source returns `+1` for
the larger magnitude without looking at the sign. The values are compared
here after scaling both to scale 1. -/
theorem Cmp_larger_magnitude_ignores_sign :
    Big.Cmp false (New (-100) 0) (New (-1) 1) = .ok 1 ∧
      (New (-100) 0).mant * 10 ^ 1 < (New (-1) 1).mant * 10 ^ 0 ∧
      (New (-100) 0).form = Form.finite ∧ (New (-1) 1).form = Form.finite := by
  decide


/-! ## Parsing: lemmas -/

theorem isDigit_bounds {ch : Char} (h : isDigit ch = true) : 48 ≤ ch.toNat ∧ ch.toNat ≤ 57 := by
  simpa [isDigit] using h

theorem digitVal_le {ch : Char} (h : isDigit ch = true) : digitVal ch ≤ 9 := by
  have := isDigit_bounds h
  simp only [digitVal, Char.reduceToNat]
  omega

theorem isDigit_not_special {ch : Char} (h : isDigit ch = true) :
    ch ≠ '.' ∧ ch ≠ 'e' ∧ ch ≠ 'E' ∧ ch ≠ '+' ∧ ch ≠ '-' := by
  refine ⟨?_, ?_, ?_, ?_, ?_⟩ <;> rintro rfl <;> exact absurd h (by decide)

theorem decimalValue_nil : decimalValue [] = 0 := rfl

theorem decimalValue_cons (ch : Char) (ds : List Char) :
    decimalValue (ch :: ds) = digitVal ch * 10 ^ ds.length + decimalValue ds := by
  simp [decimalValue, Nat.ofDigits_append, Nat.mul_comm, Nat.add_comm]

theorem decimalValue_append (a b : List Char) :
    decimalValue (a ++ b) = decimalValue a * 10 ^ b.length + decimalValue b := by
  induction a with
  | nil => simp [decimalValue_nil]
  | cons ch a ih =>
    simp only [List.cons_append, decimalValue_cons, ih, List.length_append]
    ring

theorem decimalValue_lt (ds : List Char) (h : ∀ ch ∈ ds, isDigit ch = true) :
    decimalValue ds < 10 ^ ds.length := by
  induction ds with
  | nil => simp [decimalValue_nil]
  | cons ch ds ih =>
    have h1 := digitVal_le (h ch (List.mem_cons_self _ _))
    have h2 := ih (fun c hc => h c (List.mem_cons_of_mem _ hc))
    rw [decimalValue_cons, List.length_cons, pow_succ]
    nlinarith [Nat.one_le_pow ds.length 10 (by norm_num)]

theorem parseUintLoop_digits (maxVal : Nat) (ds : List Char) (n : Nat)
    (h : ∀ ch ∈ ds, isDigit ch = true)
    (hle : n * 10 ^ ds.length + decimalValue ds ≤ maxVal) :
    parseUintLoop maxVal ds n = (n * 10 ^ ds.length + decimalValue ds, none) := by
  induction ds generalizing n with
  | nil => simp [parseUintLoop, decimalValue_nil]
  | cons ch ds ih =>
    have hd : isDigit ch = true := h ch (List.mem_cons_self _ _)
    have hrest : ∀ c ∈ ds, isDigit c = true := fun c hc => h c (List.mem_cons_of_mem _ hc)
    have hp : 1 ≤ 10 ^ ds.length := Nat.one_le_pow _ _ (by norm_num)
    rw [decimalValue_cons, List.length_cons, pow_succ] at hle
    have e : (n * 10 + digitVal ch) * 10 ^ ds.length + decimalValue ds
        = n * (10 ^ ds.length * 10) + (digitVal ch * 10 ^ ds.length + decimalValue ds) := by ring
    have hstep : ¬ (n * 10 + digitVal ch > maxVal) := by
      have : n * 10 + digitVal ch ≤ (n * 10 + digitVal ch) * 10 ^ ds.length :=
        Nat.le_mul_of_pos_right _ hp
      omega
    rw [parseUintLoop, if_pos hd, if_neg hstep, ih _ hrest (by omega), decimalValue_cons,
      List.length_cons, pow_succ, e]

theorem bigDigits_digits (ds : List Char) (n : Nat) (h : ∀ ch ∈ ds, isDigit ch = true) :
    bigDigits ds n = some (n * 10 ^ ds.length + decimalValue ds) := by
  induction ds generalizing n with
  | nil => simp [bigDigits, decimalValue_nil]
  | cons ch ds ih =>
    have hd : isDigit ch = true := h ch (List.mem_cons_self _ _)
    have hrest : ∀ c ∈ ds, isDigit c = true := fun c hc => h c (List.mem_cons_of_mem _ hc)
    rw [bigDigits, if_pos hd, ih _ hrest, decimalValue_cons, List.length_cons, pow_succ]
    congr 1; ring

theorem ParseUint_digits (bitSize : Nat) (ds : List Char) (hd : IsDigits ds)
    (hv : decimalValue ds ≤ 2 ^ bitSize - 1) :
    strconv.ParseUint ds bitSize = (decimalValue ds, none) := by
  rw [strconv.ParseUint, if_neg hd.1, parseUintLoop_digits _ _ _ hd.2 (by simpa using hv)]
  simp

/-- `strconv.ParseInt` on a sign followed by digits whose value fits the
unsigned type. -/
theorem ParseInt_signed (bitSize : Nat) (sign ds : List Char) (hs : IsSign sign)
    (hd : IsDigits ds) (hv : decimalValue ds ≤ 2 ^ bitSize - 1) :
    strconv.ParseInt (sign ++ ds) bitSize =
      if sign ≠ ['-'] ∧ decimalValue ds ≥ 2 ^ (bitSize - 1) then
        (((2 ^ (bitSize - 1) : Nat) : Int) - 1, some NumError.ErrRange)
      else if sign = ['-'] ∧ decimalValue ds > 2 ^ (bitSize - 1) then
        (-((2 ^ (bitSize - 1) : Nat) : Int), some NumError.ErrRange)
      else (applySign sign (decimalValue ds), none) := by
  obtain ⟨hne, hall⟩ := hd
  rcases hs with rfl | rfl | rfl
  · obtain ⟨d, ds', rfl⟩ := List.exists_cons_of_ne_nil hne
    have hdig := isDigit_not_special (hall d (List.mem_cons_self _ _))
    simp only [List.nil_append, strconv.ParseInt, hdig.2.2.2.1, hdig.2.2.2.2, or_self, if_false,
      decide_False, ParseUint_digits bitSize (d :: ds') ⟨hne, hall⟩ hv]
    simp [applySign]
  · simp only [List.singleton_append, strconv.ParseInt, true_or, if_true,
      ParseUint_digits bitSize ds ⟨hne, hall⟩ hv]
    simp [applySign]
  · simp only [List.singleton_append, strconv.ParseInt, or_true, if_true,
      ParseUint_digits bitSize ds ⟨hne, hall⟩ hv]
    simp [applySign]

theorem bigSetString_signed (sign ds : List Char) (hs : IsSign sign) (hd : IsDigits ds) :
    bigSetString (sign ++ ds) = some (applySign sign (decimalValue ds)) := by
  obtain ⟨hne, hall⟩ := hd
  rcases hs with rfl | rfl | rfl
  · obtain ⟨d, ds', rfl⟩ := List.exists_cons_of_ne_nil hne
    have hdig := isDigit_not_special (hall d (List.mem_cons_self _ _))
    simp [bigSetString, hdig.2.2.2.1, hdig.2.2.2.2, bigDigits_digits _ _ hall, applySign]
  · simp [bigSetString, hne, bigDigits_digits _ _ hall, applySign]
  · simp [bigSetString, hne, bigDigits_digits _ _ hall, applySign]

theorem applySign_fits_of_lt (sign : List Char) (v : Nat) (h : v < 2 ^ 63) :
    fits64 (applySign sign v) = true ∧ applySign sign v ≠ c.Inflated := by
  unfold applySign fits64 c.Inflated minInt64 maxInt64
  split <;> simp <;> omega

/-- The last stage of `SetString` on a sign followed by digits. -/
theorem setMantissa_signed (z : Big) (sign ds : List Char) (scale : Int)
    (hs : IsSign sign) (hd : IsDigits ds) :
    ∃ r, z.setMantissa (sign ++ ds) scale = some r ∧ r.form = Form.finite ∧ r.scale = scale ∧
      r.mant = applySign sign (decimalValue ds) ∧
      (fits64 (applySign sign (decimalValue ds)) = false →
        r.isInflated = true ∧ r.mantissa = applySign sign (decimalValue ds)) := by
  have hv := decimalValue_lt ds hd.2
  have hbig := bigSetString_signed sign ds hs hd
  by_cases hlen : (sign ++ ds).length ≤ 19
  · have hdl : ds.length ≤ 19 := by simp at hlen; omega
    have hpow : 10 ^ ds.length ≤ 10 ^ 19 := Nat.pow_le_pow_right (by norm_num) hdl
    have hv64 : decimalValue ds ≤ 2 ^ 64 - 1 := by norm_num at hpow ⊢; omega
    have hP := ParseInt_signed 64 sign ds hs hd hv64
    by_cases hA : sign ≠ ['-'] ∧ decimalValue ds ≥ 2 ^ (64 - 1)
    · rw [if_pos hA] at hP
      have h19 : (sign ++ ds).length = 19 := by
        by_contra hne
        have h18 : ds.length ≤ 18 := by simp at hlen hne; omega
        have : 10 ^ ds.length ≤ 10 ^ 18 := Nat.pow_le_pow_right (by norm_num) h18
        norm_num at hA this; omega
      refine ⟨{ z with compact := c.Inflated, mantissa := applySign sign (decimalValue ds),
                       scale := scale, form := Form.finite }, ?_, rfl, rfl, rfl, fun _ => ⟨rfl, rfl⟩⟩
      have h19' : sign.length + ds.length = 19 := by simpa using h19
      simp [Big.setMantissa, hP, h19', hbig]
    · rw [if_neg hA] at hP
      have hlt : decimalValue ds < 2 ^ 63 := by
        by_cases hneg : sign = ['-']
        · subst hneg
          have h18 : ds.length ≤ 18 := by simp at hlen; omega
          have : 10 ^ ds.length ≤ 10 ^ 18 := Nat.pow_le_pow_right (by norm_num) h18
          norm_num at this ⊢; omega
        · have := fun h => hA ⟨hneg, h⟩
          norm_num at this ⊢; omega
      have hB : ¬ (sign = ['-'] ∧ decimalValue ds > 2 ^ (64 - 1)) := by
        rintro ⟨_, h⟩; norm_num at h hlt; omega
      rw [if_neg hB] at hP
      obtain ⟨hfit, hne⟩ := applySign_fits_of_lt sign _ hlt
      refine ⟨{ z with compact := applySign sign (decimalValue ds), scale := scale,
                       form := Form.finite }, ?_, rfl, rfl, ?_, ?_⟩
      · have hlen' : sign.length + ds.length ≤ 19 := by simpa using hlen
        have hgt' : ¬ (19 < sign.length + ds.length) := by omega
        simp [Big.setMantissa, hP, hlen', hgt']
      · simp [Big.mant, Big.isCompact, hne]
      · intro h; rw [hfit] at h; exact absurd h (by decide)
  · refine ⟨{ z with compact := c.Inflated, mantissa := applySign sign (decimalValue ds),
                     scale := scale, form := Form.finite }, ?_, rfl, rfl, rfl, fun _ => ⟨rfl, rfl⟩⟩
    have hlen' : ¬ (sign.length + ds.length ≤ 19) := by simpa using hlen
    have hgt' : 19 < sign.length + ds.length := by omega
    simp [Big.setMantissa, hlen', hgt', hbig]

theorem wrap32_add_wrap32 (a b : Int) : wrap32 (wrap32 a + wrap32 b) = wrap32 (a + b) := by
  unfold wrap32; omega

theorem lastIndexAny_none (l chars : List Char) (h : ∀ ch ∈ l, ch ∉ chars) :
    lastIndexAny l chars = -1 := by
  induction l with
  | nil => rfl
  | cons ch l ih =>
    have h1 := ih (fun c hc => h c (List.mem_cons_of_mem _ hc))
    have h2 := h ch (List.mem_cons_self _ _)
    simp [lastIndexAny, h1, h2]

theorem lastIndexAny_last (pre post chars : List Char) (e : Char) (he : e ∈ chars)
    (h : ∀ ch ∈ post, ch ∉ chars) :
    lastIndexAny (pre ++ e :: post) chars = pre.length := by
  induction pre with
  | nil => simp [lastIndexAny, lastIndexAny_none post chars h, he]
  | cons ch pre ih =>
    have hnn : lastIndexAny (pre ++ e :: post) chars ≥ 0 := by
      rw [ih]; exact Int.natCast_nonneg _
    have step : lastIndexAny (ch :: (pre ++ e :: post)) chars
        = if lastIndexAny (pre ++ e :: post) chars ≥ 0
          then lastIndexAny (pre ++ e :: post) chars + 1
          else if ch ∈ chars then 0 else -1 := rfl
    rw [List.cons_append, step, if_pos hnn, ih, List.length_cons]
    push_cast; rfl

theorem sign_chars {sign : List Char} (hs : IsSign sign) :
    ∀ ch ∈ sign, ch = '+' ∨ ch = '-' := by
  rcases hs with rfl | rfl | rfl <;> simp

/-- None of the characters of a sign followed by digits is a radix point or
the letter of an exponent. -/
theorem signed_digits_chars {sign ds : List Char} (hs : IsSign sign)
    (hd : ∀ ch ∈ ds, isDigit ch = true) :
    ∀ ch ∈ sign ++ ds, ch ≠ '.' ∧ ch ≠ 'e' ∧ ch ≠ 'E' := by
  intro ch hch
  rcases List.mem_append.1 hch with h | h
  · rcases sign_chars hs ch h with rfl | rfl <;> decide
  · have := isDigit_not_special (hd ch h)
    exact ⟨this.1, this.2.1, this.2.2.1⟩

theorem foldEq_I_false (ch : Char) (h : isDigit ch = true ∨ ch = '+' ∨ ch = '-') :
    foldEq ch 'I' = false := by
  rcases h with h | rfl | rfl
  · have hb := isDigit_bounds h
    have hne : ch ≠ 'I' := by rintro rfl; exact absurd h (by decide)
    have hlt : ¬ (73 < ch.toNat) := by omega
    have h65 : ¬ (65 ≤ ch.toNat) := by omega
    simp [foldEq, hne, hlt, h65]
  · decide
  · decide

theorem isInfText_numeral (sign ds rest : List Char) (hs : IsSign sign) (hd : IsDigits ds) :
    isInfText (sign ++ ds ++ rest) = false := by
  obtain ⟨hne, hall⟩ := hd
  obtain ⟨d, ds', rfl⟩ := List.exists_cons_of_ne_nil hne
  have hdig : isDigit d = true := hall d (List.mem_cons_self _ _)
  have hsp := isDigit_not_special hdig
  have hd1 := foldEq_I_false d (Or.inl hdig)
  have hp := foldEq_I_false '+' (Or.inr (Or.inl rfl))
  have hm := foldEq_I_false '-' (Or.inr (Or.inr rfl))
  rcases hs with rfl | rfl | rfl
  · simp [isInfText, equalFold, hsp.2.2.2.1, hsp.2.2.2.2, hd1]
  · simp [isInfText, equalFold, hd1, hp]
  · simp [isInfText, equalFold, hd1, hm]

theorem take_length_append_cons (A F : List Char) (ch : Char) :
    List.take A.length (A ++ ch :: F) = A := by
  induction A with
  | nil => rfl
  | cons a A ih => simp [ih]

theorem drop_length_succ_append_cons (A F : List Char) (ch : Char) :
    List.drop (A.length + 1) (A ++ ch :: F) = F := by
  induction A with
  | nil => rfl
  | cons a A ih => simp [ih]

theorem splitExponent_absent (B : List Char) (hB : ∀ ch ∈ B, ch ∉ ['E', 'e']) :
    splitExponent B = some (B, 0) := by
  simp [splitExponent, lastIndexAny_none B _ hB]

theorem splitExponent_present (B post : List Char) (e : Char) (eint : Int)
    (hB : 0 < B.length) (he : e ∈ ['E', 'e']) (hpost : ∀ ch ∈ post, ch ∉ ['E', 'e'])
    (hP : strconv.ParseInt post 32 = (eint, none)) :
    splitExponent (B ++ e :: post) = some (B, wrap32 (-eint)) := by
  have hidx := lastIndexAny_last B post ['E', 'e'] e he hpost
  have hpos : (0 : Int) < (B.length : Int) := by exact_mod_cast hB
  unfold splitExponent
  simp only [hidx, if_pos hpos, Int.toNat_ofNat, take_length_append_cons,
    drop_length_succ_append_cons, hP]

theorem splitRadix_absent (A : List Char) (sc : Int) (hA : '.' ∉ A) :
    splitRadix A sc = some (A, sc) := by
  simp [splitRadix, List.count_eq_zero_of_not_mem hA]

theorem splitRadix_present (A F : List Char) (sc : Int) (hA : '.' ∉ A) (hF : '.' ∉ F) :
    splitRadix (A ++ '.' :: F) sc = some (A ++ F, wrap32 (sc + wrap32 (F.length : Int))) := by
  have hc : (A ++ '.' :: F).count '.' = 1 := by
    rw [List.count_append, List.count_cons_self, List.count_eq_zero_of_not_mem hA,
      List.count_eq_zero_of_not_mem hF]
  have hi : (A ++ '.' :: F).indexOf '.' = A.length := by
    rw [List.indexOf_append_of_not_mem hA, List.indexOf_cons_self]; rfl
  unfold splitRadix
  simp only [hc, hi, take_length_append_cons, drop_length_succ_append_cons, List.length_append]
  have : ((A.length + F.length : Nat) : Int) - (A.length : Int) = (F.length : Int) := by
    push_cast; ring
  rw [this]

/-- The text before the exponent of a well-formed numeral. -/
theorem body_chars (t : Numeral) (hwf : t.WellFormed) :
    ∀ ch ∈ t.sign ++ t.int ++ t.fracText, ch ≠ 'e' ∧ ch ≠ 'E' := by
  intro ch hch
  rcases List.mem_append.1 hch with h | h
  · have := signed_digits_chars hwf.sign hwf.int.2 ch h
    exact ⟨this.2.1, this.2.2⟩
  · cases hf : t.frac with
    | none => simp [Numeral.fracText, hf] at h
    | some f =>
      simp only [Numeral.fracText, hf, List.mem_cons] at h
      rcases h with rfl | h
      · decide
      · have := isDigit_not_special ((hwf.frac f hf).2 ch h)
        exact ⟨this.2.1, this.2.2.1⟩

theorem splitExponent_numeral (t : Numeral) (hwf : t.WellFormed)
    (hexp : fits32 t.exponent = true) :
    splitExponent t.text = some (t.sign ++ t.int ++ t.fracText, wrap32 (-t.exponent)) := by
  have hbody := body_chars t hwf
  have hnot : ∀ ch ∈ t.sign ++ t.int ++ t.fracText, ch ∉ ['E', 'e'] := by
    intro ch hch; have := hbody ch hch; simp [this.1, this.2]
  cases he : t.exp with
  | none =>
    have htext : t.text = t.sign ++ t.int ++ t.fracText := by simp [Numeral.text, Numeral.expText, he]
    rw [htext, splitExponent_absent _ hnot]
    simp [Numeral.exponent, he, wrap32]
  | some p =>
    obtain ⟨e, es, X⟩ := p
    obtain ⟨hE, hes, hX⟩ := hwf.exp e es X he
    have htext : t.text = (t.sign ++ t.int ++ t.fracText) ++ e :: (es ++ X) := by
      simp [Numeral.text, Numeral.expText, he]
    have hpost : ∀ ch ∈ es ++ X, ch ∉ ['E', 'e'] := by
      intro ch hch; have := signed_digits_chars hes hX.2 ch hch; simp [this.2.1, this.2.2]
    have heIn : e ∈ ['E', 'e'] := by rcases hE with rfl | rfl <;> simp
    have hlen : 0 < (t.sign ++ t.int ++ t.fracText).length := by
      have := List.length_pos.2 hwf.int.1
      simp only [List.length_append]; omega
    have hv : fits32 (applySign es (decimalValue X)) = true := by
      simpa [Numeral.exponent, he] using hexp
    have hv32 : decimalValue X ≤ 2 ^ 32 - 1 := by
      simp only [fits32, minInt32, maxInt32, Bool.and_eq_true, decide_eq_true_eq, applySign] at hv
      split at hv <;> norm_num <;> omega
    have hP := ParseInt_signed 32 es X hes hX hv32
    have hA : ¬ (es ≠ ['-'] ∧ decimalValue X ≥ 2 ^ (32 - 1)) := by
      rintro ⟨h1, h2⟩
      simp only [fits32, minInt32, maxInt32, Bool.and_eq_true, decide_eq_true_eq, applySign,
        if_neg h1] at hv
      norm_num at h2; omega
    have hB : ¬ (es = ['-'] ∧ decimalValue X > 2 ^ (32 - 1)) := by
      rintro ⟨h1, h2⟩
      simp only [fits32, minInt32, maxInt32, Bool.and_eq_true, decide_eq_true_eq, applySign,
        if_pos h1] at hv
      norm_num at h2; omega
    rw [if_neg hA, if_neg hB] at hP
    rw [htext, splitExponent_present _ _ e _ hlen heIn hpost hP]
    simp [Numeral.exponent, he]

theorem splitRadix_numeral (t : Numeral) (hwf : t.WellFormed) (sc : Int) :
    splitRadix (t.sign ++ t.int ++ t.fracText) sc =
      some (t.sign ++ (t.int ++ t.fracDigits),
        if t.frac = none then sc else wrap32 (sc + wrap32 (t.fracDigits.length : Int))) := by
  have hA : '.' ∉ t.sign ++ t.int := fun h =>
    (signed_digits_chars hwf.sign hwf.int.2 '.' h).1 rfl
  cases hf : t.frac with
  | none =>
    have h := splitRadix_absent _ sc hA
    simp [Numeral.fracText, Numeral.fracDigits, hf, h]
  | some f =>
    have hF : '.' ∉ f := fun h => (isDigit_not_special ((hwf.frac f hf).2 '.' h)).1 rfl
    have h := splitRadix_present _ f sc hA hF
    simpa [Numeral.fracText, Numeral.fracDigits, hf] using h

/-- C6. For every text `[sign] I [ '.' F ] [ ('e'|'E') [sign] X ]` whose
exponent and resulting scale fit in 32 bits, `SetString` succeeds with a
finite value whose mantissa is the signed integer written by the digits of
`I` followed by those of `F` and whose scale is `len(F) - X`; a mantissa that
does not fit in 64 bits is held by the unbounded field. -/
theorem SetString_numeral (z : Big) (t : Numeral) (hwf : t.WellFormed)
    (hexp : fits32 t.exponent = true)
    (hscale : fits32 ((t.fracDigits.length : Int) - t.exponent) = true) :
    ∃ r, z.SetString t.text = some r ∧ r.form = Form.finite ∧ r.mant = t.mantissa ∧
      r.scale = (t.fracDigits.length : Int) - t.exponent ∧
      (fits64 t.mantissa = false → r.isInflated = true ∧ r.mantissa = t.mantissa) := by
  have hInf : isInfText t.text = false := by
    have := isInfText_numeral t.sign t.int (t.fracText ++ t.expText) hwf.sign hwf.int
    simpa [Numeral.text, List.append_assoc] using this
  have hdig : IsDigits (t.int ++ t.fracDigits) := by
    refine ⟨by simp [hwf.int.1], ?_⟩
    intro ch hch
    rcases List.mem_append.1 hch with h | h
    · exact hwf.int.2 ch h
    · cases hf : t.frac with
      | none => simp [Numeral.fracDigits, hf] at h
      | some f =>
        simp only [Numeral.fracDigits, hf, Option.getD_some] at h
        exact (hwf.frac f hf).2 ch h
  have hsc : (if t.frac = none then wrap32 (-t.exponent)
      else wrap32 (wrap32 (-t.exponent) + wrap32 (t.fracDigits.length : Int)))
      = (t.fracDigits.length : Int) - t.exponent := by
    split
    · next h =>
      have h0 : t.fracDigits = [] := by simp [Numeral.fracDigits, h]
      rw [h0] at hscale ⊢
      have : ((([] : List Char).length : Nat) : Int) - t.exponent = -t.exponent := by simp
      rw [this] at hscale ⊢
      exact wrap32_of_fits hscale
    · rw [wrap32_add_wrap32]
      have : -t.exponent + (t.fracDigits.length : Int) = (t.fracDigits.length : Int) - t.exponent := by
        ring
      rw [this]
      exact wrap32_of_fits hscale
  obtain ⟨r, hr, hform, hscale', hmant, hbig⟩ :=
    setMantissa_signed z t.sign (t.int ++ t.fracDigits)
      ((t.fracDigits.length : Int) - t.exponent) hwf.sign hdig
  refine ⟨r, ?_, hform, hmant, hscale', hbig⟩
  unfold Big.SetString
  rw [hInf, splitExponent_numeral t hwf hexp]
  simp only [Bool.false_eq_true, if_false, Option.some_bind, splitRadix_numeral t hwf, hsc]
  exact hr

/-- The text `-1.234e+5` is the mantissa -1234 with scale -2. -/
theorem SetString_numeral_witness :
    ∃ r, Big.fresh.SetString
        (Numeral.text ⟨['-'], ['1'], some ['2', '3', '4'], some ('e', ['+'], ['5'])⟩) = some r ∧
      r.form = Form.finite ∧
      r.mant = Numeral.mantissa ⟨['-'], ['1'], some ['2', '3', '4'], some ('e', ['+'], ['5'])⟩ ∧
      r.scale = ((Numeral.fracDigits
          ⟨['-'], ['1'], some ['2', '3', '4'], some ('e', ['+'], ['5'])⟩).length : Int)
        - Numeral.exponent ⟨['-'], ['1'], some ['2', '3', '4'], some ('e', ['+'], ['5'])⟩ ∧
      (fits64 (Numeral.mantissa ⟨['-'], ['1'], some ['2', '3', '4'], some ('e', ['+'], ['5'])⟩)
          = false →
        r.isInflated = true ∧
          r.mantissa = Numeral.mantissa ⟨['-'], ['1'], some ['2', '3', '4'], some ('e', ['+'], ['5'])⟩) :=
  SetString_numeral Big.fresh ⟨['-'], ['1'], some ['2', '3', '4'], some ('e', ['+'], ['5'])⟩
    { sign := Or.inr (Or.inr rfl)
      int := ⟨by simp, by decide⟩
      frac := by
        intro f hf
        cases hf
        exact ⟨by simp, by decide⟩
      exp := by
        intro e es X h
        cases h
        exact ⟨Or.inl rfl, Or.inr (Or.inl rfl), by simp, by decide⟩ }
    (by simp [Numeral.exponent, applySign, decimalValue, digitVal, fits32, minInt32, maxInt32])
    (by simp [Numeral.exponent, Numeral.fracDigits, applySign, decimalValue, digitVal, fits32,
          minInt32, maxInt32])


/-! ## Text -/

/-- C7. The scientific text of `10^10` (mantissa 1, scale -10) is `1e+1`:
`buffer.String` trims the trailing zero of the exponent `10`. Parsing that text
gives mantissa 1 with scale -1, which is 10. -/
theorem String_trims_zeros_of_exponent :
    (New 1 (-10)).form = Form.finite ∧
      (New 1 (-10)).String = .ok "1e+1".toList ∧
      Big.fresh.SetString "1e+1".toList = some (New 1 (-1)) ∧
      (New 1 (-1)).mant * 10 ^ 1 ≠ (New 1 (-10)).mant * 10 ^ 10 := by
  decide


/-! ## Square root -/

theorem sqrtLoop64_99_cycle (fuel : Nat) :
    sqrtLoop64 fuel 99 10 = .error Fault.outOfFuel ∧
      sqrtLoop64 fuel 99 9 = .error Fault.outOfFuel := by
  induction fuel with
  | zero => exact ⟨rfl, rfl⟩
  | succ k ih =>
    have h10 : sqrtLoop64 (k + 1) 99 10 = sqrtLoop64 k 99 9 := rfl
    have h9 : sqrtLoop64 (k + 1) 99 9 = sqrtLoop64 k 99 10 := rfl
    exact ⟨h10 ▸ ih.2, h9 ▸ ih.1⟩

theorem sqrtLoop64_99_seed (fuel : Nat) : sqrtLoop64 fuel 99 6 = .error Fault.outOfFuel := by
  match fuel with
  | 0 => rfl
  | 1 => rfl
  | k + 2 =>
    have h : sqrtLoop64 (k + 2) 99 6 = sqrtLoop64 k 99 10 := rfl
    rw [h]; exact (sqrtLoop64_99_cycle k).1

theorem sqrtLoopBig_99_cycle (fuel : Nat) :
    sqrtLoopBig fuel 99 10 = .error Fault.outOfFuel ∧
      sqrtLoopBig fuel 99 9 = .error Fault.outOfFuel := by
  induction fuel with
  | zero => exact ⟨rfl, rfl⟩
  | succ k ih =>
    have h10 : sqrtLoopBig (k + 1) 99 10 = sqrtLoopBig k 99 9 := rfl
    have h9 : sqrtLoopBig (k + 1) 99 9 = sqrtLoopBig k 99 10 := rfl
    exact ⟨h10 ▸ ih.2, h9 ▸ ih.1⟩

theorem sqrtLoopBig_99_seed (fuel : Nat) : sqrtLoopBig fuel 99 6 = .error Fault.outOfFuel := by
  match fuel with
  | 0 => rfl
  | 1 => rfl
  | k + 2 =>
    have h : sqrtLoopBig (k + 2) 99 6 = sqrtLoopBig k 99 10 := rfl
    rw [h]; exact (sqrtLoopBig_99_cycle k).1

/-- C10. The Newton loop does not stop for `n = 99`. For `x = 0.99` (mantissa
99, scale 2) at precision 1 the 64-bit path runs with `n = 99` and seed 6; the
iterates are 6, 11, 10, 9, 10, 9, ... and `ix == p` never holds, so no amount
of fuel yields a result. The same happens on the unbounded path, which
`x = 99 * 10^-20` takes at precision 10. -/
theorem Sqrt_newton_never_stops (fsqrt : Int → Int) (fuel : Nat) (m : RoundingMode) :
    Big.Sqrt fsqrt fuel false (withContext 1 m) (New 99 2) = .error Fault.outOfFuel ∧
      Big.Sqrt fsqrt fuel false (withContext 10 m) (New 99 20) = .error Fault.outOfFuel := by
  constructor
  · have h : Big.Sqrt fsqrt fuel false (withContext 1 m) (New 99 2)
        = (sqrtLoop64 fuel 99 6).map fun ix =>
            ({ (withContext 1 m).Set (New 99 2) with
                ctx := (withContext 1 m).ctx, scale := 0 } : Big).SetMantScale ix 1 := by
      cases m <;> rfl
    rw [h, sqrtLoop64_99_seed]; rfl
  · have h : Big.Sqrt fsqrt fuel false (withContext 10 m) (New 99 20)
        = (sqrtLoopBig fuel 99 6).map fun ix =>
            ({ (withContext 10 m).Set (New 99 20) with
                ctx := (withContext 10 m).ctx, scale := 0 } : Big).SetBigMantScale ix 10 := by
      cases m <;> rfl
    rw [h, sqrtLoopBig_99_seed]; rfl

/-! ## The Newton iteration on natural numbers -/

theorem newtonStep_ge_sqrt (n a : Nat) (ha : 1 ≤ a) : Nat.sqrt n ≤ newtonStep n a := by
  unfold newtonStep
  have hr := Nat.sqrt_le n
  rw [Nat.le_div_iff_mul_le (by norm_num)]
  by_cases h : Nat.sqrt n * 2 ≤ a
  · exact le_trans h (Nat.le_add_right _ _)
  · have hd : (Nat.sqrt n * 2 - a) * a ≤ n := by
      have key : (Nat.sqrt n * 2 - a) * a ≤ Nat.sqrt n * Nat.sqrt n := by
        obtain ⟨d, hd⟩ : ∃ d, Nat.sqrt n * 2 = a + d := ⟨Nat.sqrt n * 2 - a, by omega⟩
        have : Nat.sqrt n * 2 - a = d := by omega
        rw [this]
        nlinarith [sq_nonneg ((d : Int) - a), sq_nonneg ((d : Int) + a - 2 * Nat.sqrt n)]
      exact le_trans key hr
    have hq := (Nat.le_div_iff_mul_le (by omega : 0 < a)).2 hd
    generalize n / a = q at hq ⊢
    omega

theorem newtonStep_lt (n a : Nat) (h : Nat.sqrt n < a) : newtonStep n a < a := by
  unfold newtonStep
  have h1 : n < a * a := Nat.sqrt_lt.1 h
  have h2 : n / a < a := (Nat.div_lt_iff_lt_mul (by omega)).2 h1
  generalize n / a = q at h2 ⊢
  omega

theorem newtonStep_sqrt (n : Nat) (h1 : 1 ≤ Nat.sqrt n)
    (hns : n + 1 ≠ (Nat.sqrt n + 1) * (Nat.sqrt n + 1)) :
    newtonStep n (Nat.sqrt n) = Nat.sqrt n := by
  unfold newtonStep
  have hlo := Nat.sqrt_le n
  have hhi := Nat.lt_succ_sqrt n
  have hge : Nat.sqrt n ≤ n / Nat.sqrt n := (Nat.le_div_iff_mul_le (by omega)).2 hlo
  have hlt : n / Nat.sqrt n < Nat.sqrt n + 2 := by
    rw [Nat.div_lt_iff_lt_mul (by omega)]
    simp only [Nat.succ_eq_add_one] at hhi
    have hstrict : n + 1 < (Nat.sqrt n + 1) * (Nat.sqrt n + 1) := lt_of_le_of_ne (by omega) hns
    nlinarith
  generalize n / Nat.sqrt n = q at hge hlt ⊢
  omega

theorem div_sqrt_le (n a : Nat) (ha : Nat.sqrt n ≤ a) (h1 : 1 ≤ a) : n / a ≤ a + 2 := by
  have hhi := Nat.lt_succ_sqrt n
  simp only [Nat.succ_eq_add_one] at hhi
  have hq : n / a < a + 3 := by
    rw [Nat.div_lt_iff_lt_mul (by omega)]
    nlinarith
  generalize n / a = q at hq ⊢
  omega

/-! ## The Newton loops of `Sqrt` -/

theorem shiftRight_one_natCast (m : Nat) :
    (m : Int) >>> (1 : Nat) = ((m / 2 : Nat) : Int) := by
  rw [Int.shiftRight_eq_div_pow]; norm_cast

theorem bigNext_eq (n a : Nat) :
    ((a : Int) + Int.tdiv (n : Int) (a : Int)) >>> (1 : Nat) = ((newtonStep n a : Nat) : Int) := by
  rw [← Int.ofNat_tdiv, Int.shiftRight_eq_div_pow]
  unfold newtonStep
  norm_cast

theorem sqrtLoopBig_step (fuel n a : Nat) (ha : 1 ≤ a) :
    sqrtLoopBig (fuel + 1) n a =
      if newtonStep n a = a then .ok ((a : Nat) : Int) else sqrtLoopBig fuel n (newtonStep n a) := by
  have h0 : ¬ ((a : Int) = 0) := by omega
  rw [sqrtLoopBig, if_neg h0]
  simp only [bigNext_eq]
  by_cases h : newtonStep n a = a
  · simp [h]
  · have : ¬ (((newtonStep n a : Nat) : Int) = (a : Int)) := by exact_mod_cast h
    simp [h, this]

theorem sqrtLoopBig_descends (n : Nat) (h1 : 1 ≤ Nat.sqrt n)
    (hns : n + 1 ≠ (Nat.sqrt n + 1) * (Nat.sqrt n + 1)) :
    ∀ (fuel a : Nat), Nat.sqrt n ≤ a → a - Nat.sqrt n < fuel →
      sqrtLoopBig fuel n a = .ok ((Nat.sqrt n : Nat) : Int) := by
  intro fuel
  induction fuel with
  | zero => intro a _ h; omega
  | succ k ih =>
    intro a hle hfuel
    rw [sqrtLoopBig_step k n a (by omega)]
    rcases Nat.eq_or_lt_of_le hle with heq | hlt
    · rw [← heq, newtonStep_sqrt n h1 hns]; simp
    · have hstep := newtonStep_lt n a hlt
      have hge := newtonStep_ge_sqrt n a (by omega)
      rw [if_neg (by omega)]
      exact ih _ hge (by omega)

theorem newtonStep_le (n a : Nat) (han : a ≤ n) : newtonStep n a ≤ n := by
  unfold newtonStep
  have : n / a ≤ n := Nat.div_le_self n a
  generalize n / a = q at this ⊢
  omega

/-- From any positive seed the unbounded loop returns the integer square root
of `n`, provided `n + 1` is not a perfect square. -/
theorem sqrtLoopBig_converges (n a fuel : Nat) (h1 : 1 ≤ Nat.sqrt n)
    (hns : n + 1 ≠ (Nat.sqrt n + 1) * (Nat.sqrt n + 1))
    (ha : 1 ≤ a) (han : a ≤ n) (hfuel : n + 2 ≤ fuel) :
    sqrtLoopBig fuel n a = .ok ((Nat.sqrt n : Nat) : Int) := by
  by_cases hle : Nat.sqrt n ≤ a
  · exact sqrtLoopBig_descends n h1 hns fuel a hle (by omega)
  · obtain ⟨k, rfl⟩ : ∃ k, fuel = k + 1 := ⟨fuel - 1, by omega⟩
    have hge := newtonStep_ge_sqrt n a ha
    have hn := newtonStep_le n a han
    rw [sqrtLoopBig_step k n a ha, if_neg (by omega)]
    exact sqrtLoopBig_descends n h1 hns k _ hge (by omega)

theorem sqrt_lt_two_pow_32 (n : Nat) (hn : n < 2 ^ 63) : Nat.sqrt n < 2 ^ 32 := by
  rw [Nat.sqrt_lt]
  norm_num at hn ⊢
  omega

theorem wrap64_natCast (v : Nat) (h : v < 2 ^ 63) : wrap64 (v : Int) = (v : Int) := by
  unfold wrap64
  norm_num at h
  omega

theorem sqrtLoop64_step (fuel n a : Nat) (ha : 1 ≤ a) (hsum : a + n / a < 2 ^ 63) :
    sqrtLoop64 (fuel + 1) n a =
      if newtonStep n a = a then .ok ((a : Nat) : Int) else sqrtLoop64 fuel n (newtonStep n a) := by
  have h0 : ¬ ((a : Int) = 0) := by omega
  have hq : n / a < 2 ^ 63 := by omega
  have e1 : wrap64 (Int.tdiv (n : Int) (a : Int)) = ((n / a : Nat) : Int) := by
    rw [← Int.ofNat_tdiv]; exact wrap64_natCast _ hq
  have e2 : wrap64 ((a : Int) + ((n / a : Nat) : Int)) = ((a + n / a : Nat) : Int) := by
    rw [← Nat.cast_add]; exact wrap64_natCast _ hsum
  have e3 : ((a + n / a : Nat) : Int) >>> (1 : Nat) = ((newtonStep n a : Nat) : Int) :=
    shiftRight_one_natCast _
  rw [sqrtLoop64, if_neg h0]
  simp only [e1, e2, e3]
  by_cases h : newtonStep n a = a
  · simp [h]
  · have : ¬ (((newtonStep n a : Nat) : Int) = (a : Int)) := by exact_mod_cast h
    simp [h, this]

theorem sqrtLoop64_descends (n : Nat) (hn : n < 2 ^ 63) (h1 : 1 ≤ Nat.sqrt n)
    (hns : n + 1 ≠ (Nat.sqrt n + 1) * (Nat.sqrt n + 1)) :
    ∀ (fuel a : Nat), Nat.sqrt n ≤ a → a < 2 ^ 62 → a - Nat.sqrt n < fuel →
      sqrtLoop64 fuel n a = .ok ((Nat.sqrt n : Nat) : Int) := by
  intro fuel
  induction fuel with
  | zero => intro a _ _ h; omega
  | succ k ih =>
    intro a hle hbound hfuel
    have hr := sqrt_lt_two_pow_32 n hn
    have hq : n / a ≤ Nat.sqrt n + 2 :=
      le_trans (Nat.div_le_div_left hle (by omega)) (div_sqrt_le n _ le_rfl h1)
    have hsum : a + n / a < 2 ^ 63 := by
      norm_num at hbound hr ⊢
      generalize n / a = q at hq ⊢
      omega
    rw [sqrtLoop64_step k n a (by omega) hsum]
    rcases Nat.eq_or_lt_of_le hle with heq | hlt
    · rw [← heq, newtonStep_sqrt n h1 hns]; simp
    · have hstep := newtonStep_lt n a hlt
      have hge := newtonStep_ge_sqrt n a (by omega)
      rw [if_neg (by omega)]
      exact ih _ hge (by omega) (by omega)

/-- From a positive seed whose first pass does not overflow, the 64-bit loop
returns the integer square root of `n`, provided `n + 1` is not a perfect
square. -/
theorem sqrtLoop64_converges (n a fuel : Nat) (hn : n < 2 ^ 63) (h1 : 1 ≤ Nat.sqrt n)
    (hns : n + 1 ≠ (Nat.sqrt n + 1) * (Nat.sqrt n + 1))
    (ha : 1 ≤ a) (han : a ≤ n / 2) (hsum : a + n / a < 2 ^ 63) (hfuel : n + 2 ≤ fuel) :
    sqrtLoop64 fuel n a = .ok ((Nat.sqrt n : Nat) : Int) := by
  have ha62 : a < 2 ^ 62 := by norm_num at hn ⊢; omega
  by_cases hle : Nat.sqrt n ≤ a
  · exact sqrtLoop64_descends n hn h1 hns fuel a hle ha62 (by omega)
  · obtain ⟨k, rfl⟩ : ∃ k, fuel = k + 1 := ⟨fuel - 1, by omega⟩
    have hge := newtonStep_ge_sqrt n a ha
    have hnle := newtonStep_le n a (by omega)
    have hlt62 : newtonStep n a < 2 ^ 62 := by
      unfold newtonStep
      norm_num at hsum ⊢
      generalize n / a = q at hsum ⊢
      omega
    rw [sqrtLoop64_step k n a ha hsum, if_neg (by omega)]
    exact sqrtLoop64_descends n hn h1 hns k _ hge hlt62 (by omega)

/-! ## The seed of the Newton loops -/

theorem bitLenAux_le (fuel n : Nat) : bitLenAux fuel n ≤ fuel := by
  induction fuel generalizing n with
  | zero => simp [bitLenAux]
  | succ k ih =>
    rw [bitLenAux]
    split
    · omega
    · have := ih (n / 2); omega

theorem bitLenAux_zero (fuel : Nat) : bitLenAux fuel 0 = 0 := by
  cases fuel <;> simp [bitLenAux]

theorem bitLenAux_spec (fuel n : Nat) (hn : n ≠ 0) (hlt : n < 2 ^ fuel) :
    1 ≤ bitLenAux fuel n ∧ 2 ^ (bitLenAux fuel n - 1) ≤ n ∧ n < 2 ^ bitLenAux fuel n := by
  induction fuel generalizing n with
  | zero => simp at hlt; omega
  | succ k ih =>
    rw [bitLenAux, if_neg hn]
    by_cases h2 : n / 2 = 0
    · have h1 : n = 1 := by omega
      subst h1
      simp [bitLenAux_zero]
    · have hlt2 : n / 2 < 2 ^ k := by
        rw [pow_succ] at hlt; omega
      obtain ⟨hb1, hlo, hhi⟩ := ih (n / 2) h2 hlt2
      refine ⟨by omega, ?_, ?_⟩
      · have e : 1 + bitLenAux k (n / 2) - 1 = (bitLenAux k (n / 2) - 1) + 1 := by omega
        rw [e, pow_succ]; omega
      · have e : 1 + bitLenAux k (n / 2) = bitLenAux k (n / 2) + 1 := by omega
        rw [e, pow_succ]; omega

/-- The facts about the seed `n >> ((b + 1) / 2)` that the loops need, for any
`b` that is the bit length of `n ≥ 2`. -/
theorem seed_bounds (n b : Nat) (hn : 2 ≤ n) (hlo : 2 ^ (b - 1) ≤ n) (hhi : n < 2 ^ b) :
    1 ≤ n / 2 ^ ((b + 1) / 2) ∧ n / 2 ^ ((b + 1) / 2) ≤ n / 2 ∧
      (n / 2 ^ ((b + 1) / 2) = 1 → n < 2 * 2 ^ ((b + 1) / 2)) := by
  have hb : 2 ≤ b := by
    by_contra h
    have : b ≤ 1 := by omega
    have : 2 ^ b ≤ 2 ^ 1 := Nat.pow_le_pow_right (by norm_num) this
    omega
  have hk1 : 1 ≤ (b + 1) / 2 := by omega
  have hk2 : (b + 1) / 2 ≤ b - 1 := by omega
  have hpk : 2 ^ ((b + 1) / 2) ≤ n := le_trans (Nat.pow_le_pow_right (by norm_num) hk2) hlo
  have hp2 : 2 ^ 1 ≤ 2 ^ ((b + 1) / 2) := Nat.pow_le_pow_right (by norm_num) hk1
  have hpos : 0 < 2 ^ ((b + 1) / 2) := Nat.pow_pos (by norm_num)
  refine ⟨(Nat.le_div_iff_mul_le hpos).2 (by simpa using hpk),
    Nat.div_le_div_left (by simpa using hp2) (by norm_num), ?_⟩
  intro h1
  have : n / 2 ^ ((b + 1) / 2) < 2 := by omega
  rw [Nat.div_lt_iff_lt_mul hpos] at this
  exact this

theorem natCast_shiftRight (n k : Nat) : (n : Int) >>> k = ((n / 2 ^ k : Nat) : Int) := by
  rw [Int.shiftRight_eq_div_pow]; norm_cast

theorem sqrtSeed64_natCast (n : Nat) :
    sqrtSeed64 (n : Int) = ((n / 2 ^ ((bitLenAux 64 n + 1) / 2) : Nat) : Int) := by
  unfold sqrtSeed64 arith.BitLen
  have e : ((bitLenAux 64 (n : Int).natAbs : Nat) : Int) + 1 = ((bitLenAux 64 n + 1 : Nat) : Int) := by
    simp
  rw [e, shiftRight_one_natCast, Int.toNat_ofNat, natCast_shiftRight]

theorem sqrtSeedBig_natCast (n : Nat) :
    sqrtSeedBig (n : Int) = ((n / 2 ^ ((bitLenAux n n + 1) / 2) : Nat) : Int) := by
  unfold sqrtSeedBig bigBitLen
  have e : ((bitLenAux (n : Int).natAbs (n : Int).natAbs : Nat) : Int) + 1
      = ((bitLenAux n n + 1 : Nat) : Int) := by
    simp
  rw [e, shiftRight_one_natCast, Int.toNat_ofNat, natCast_shiftRight]

/-- The 64-bit loop started from its seed returns the integer square root. -/
theorem sqrtLoop64_seeded (n fuel : Nat) (hn2 : 2 ≤ n) (hn : n < 2 ^ 63)
    (hns : n + 1 ≠ (Nat.sqrt n + 1) * (Nat.sqrt n + 1)) (hfuel : n + 2 ≤ fuel) :
    sqrtLoop64 fuel n (sqrtSeed64 n) = .ok ((Nat.sqrt n : Nat) : Int) := by
  have h64 : n < 2 ^ 64 := lt_trans hn (by norm_num)
  obtain ⟨_, hlo, hhi⟩ := bitLenAux_spec 64 n (by omega) h64
  obtain ⟨hs1, hs2, hs3⟩ := seed_bounds n _ hn2 hlo hhi
  have hb := bitLenAux_le 64 n
  have h1 : 1 ≤ Nat.sqrt n := Nat.sqrt_pos.2 (by omega)
  rw [sqrtSeed64_natCast]
  refine sqrtLoop64_converges n _ fuel hn h1 hns hs1 hs2 ?_ hfuel
  generalize hs : n / 2 ^ ((bitLenAux 64 n + 1) / 2) = s at hs1 hs2 hs3
  rcases Nat.eq_or_lt_of_le hs1 with h | h
  · have hk : (bitLenAux 64 n + 1) / 2 ≤ 32 := by omega
    have hp : 2 ^ ((bitLenAux 64 n + 1) / 2) ≤ 2 ^ 32 := Nat.pow_le_pow_right (by norm_num) hk
    have := hs3 h.symm
    rw [← h, Nat.div_one]
    norm_num at hp ⊢
    omega
  · have hq : n / s ≤ n / 2 := Nat.div_le_div_left h (by norm_num)
    norm_num at hn ⊢
    generalize n / s = q at hq ⊢
    omega

/-- The unbounded loop started from its seed returns the integer square root. -/
theorem sqrtLoopBig_seeded (n fuel : Nat) (hn2 : 2 ≤ n)
    (hns : n + 1 ≠ (Nat.sqrt n + 1) * (Nat.sqrt n + 1)) (hfuel : n + 2 ≤ fuel) :
    sqrtLoopBig fuel n (sqrtSeedBig n) = .ok ((Nat.sqrt n : Nat) : Int) := by
  obtain ⟨_, hlo, hhi⟩ := bitLenAux_spec n n (by omega) (Nat.lt_two_pow n)
  obtain ⟨hs1, hs2, _⟩ := seed_bounds n _ hn2 hlo hhi
  have h1 : 1 ≤ Nat.sqrt n := Nat.sqrt_pos.2 (by omega)
  rw [sqrtSeedBig_natCast]
  exact sqrtLoopBig_converges n _ fuel h1 hns hs1 (le_trans hs2 (Nat.div_le_self _ _)) hfuel

/-! ## The integer handed to the Newton loops -/

theorem pow_le_of_mul_pow_fits (b : Int) (k : Nat) (hb : 1 ≤ b)
    (hfit : fits64 (b * 10 ^ k) = true) : k ≤ 18 := by
  by_contra hk
  have h19 : 19 ≤ k := by omega
  have hp : (10 : Int) ^ 19 ≤ 10 ^ k := pow_le_pow_right₀ (by norm_num) h19
  simp only [fits64, minInt64, maxInt64, Bool.and_eq_true, decide_eq_true_eq] at hfit
  have : (10 : Int) ^ k ≤ b * 10 ^ k := by nlinarith [pow_pos (by norm_num : (0 : Int) < 10) k]
  norm_num at hp
  omega

/-- `Int64` returns the integer part of the value when that fits in 64 bits. -/
theorem Int64_eq_shifted (y : Big) (hpos : 0 < y.mant) (hm : fits64 y.mant = true)
    (hneg : fits32 (-y.scale) = true) (hfit : fits64 (y.shifted 0) = true) :
    y.Int64 = y.shifted 0 := by
  have hb : (if y.isCompact then y.compact else wrap64 y.mantissa) = y.mant := by
    unfold Big.mant at hm ⊢
    split
    · rfl
    · next h => simp only [h] at hm; exact wrap64_of_fits (by simpa using hm)
  unfold Big.Int64
  simp only [hb]
  unfold Big.shifted at hfit ⊢
  by_cases h0 : y.scale = 0
  · simp [h0]
  · rw [if_neg h0]
    by_cases hlt : y.scale < 0
    · have hle : y.scale ≤ 0 := by omega
      rw [if_pos hlt, if_pos hle]
      rw [if_pos hle] at hfit
      have e : (0 - y.scale).toNat = (-y.scale).toNat := by simp
      rw [e] at hfit ⊢
      have hk := pow_le_of_mul_pow_fits y.mant _ (by omega) hfit
      have hk' : -y.scale ≤ 18 := by omega
      have hne : ¬ (y.mant = 0 ∨ -y.scale ≤ 0) := by omega
      rw [wrap32_of_fits hneg, checked.MulPow10, if_neg hne, if_pos ⟨hk', hfit⟩]
    · have hgt : ¬ (y.scale ≤ 0) := by omega
      rw [if_neg hlt, if_neg hgt]
      have e : (y.scale - 0).toNat = y.scale.toNat := by simp
      rw [e]
      simp only [fits64, minInt64, maxInt64, Bool.and_eq_true, decide_eq_true_eq] at hm
      by_cases h18 : y.scale ≤ 18
      · have hT : pow.Ten64 y.scale = (10 ^ y.scale.toNat, true) := by
          rw [pow.Ten64, if_pos ⟨by omega, h18⟩]
        simp only [hT, Bool.not_true, Bool.false_eq_true, if_false]
        have hq : Int.tdiv y.mant (10 ^ y.scale.toNat) = y.mant / 10 ^ y.scale.toNat :=
          Int.tdiv_eq_ediv (by omega) (by positivity)
        rw [hq]
        apply wrap64_of_fits
        have h1 : 0 ≤ y.mant / 10 ^ y.scale.toNat := Int.ediv_nonneg (by omega) (by positivity)
        have h2 : y.mant / 10 ^ y.scale.toNat ≤ y.mant :=
          Int.ediv_le_self _ (by omega)
        simp only [fits64, minInt64, maxInt64, Bool.and_eq_true, decide_eq_true_eq]
        omega
      · have hno : ¬ (0 ≤ y.scale ∧ y.scale ≤ 18) := by omega
        have hT : pow.Ten64 y.scale = (0, false) := by
          rw [pow.Ten64, if_neg hno]
        simp only [hT, Bool.not_false, if_true]
        have h19 : 19 ≤ y.scale.toNat := by omega
        have hp : (10 : Int) ^ 19 ≤ 10 ^ y.scale.toNat := pow_le_pow_right₀ (by norm_num) h19
        symm
        apply Int.ediv_eq_zero_of_lt (by omega)
        norm_num at hp
        omega

/-- `Int` (here `BigInt`) returns the integer part of a positive value. -/
theorem BigInt_eq_shifted (y : Big) (hneg : fits32 (-y.scale) = true) :
    y.BigInt = y.shifted 0 := by
  have hb : (if y.isCompact then y.compact else y.mantissa) = y.mant := rfl
  unfold Big.BigInt
  simp only [hb]
  unfold Big.shifted
  by_cases h0 : y.scale = 0
  · simp [h0]
  · rw [if_neg h0]
    by_cases hlt : y.scale < 0
    · have hle : y.scale ≤ 0 := by omega
      rw [if_pos hlt, if_pos hle]
      have e : (0 - y.scale).toNat = (-y.scale).toNat := by simp
      have hne : ¬ (-y.scale ≤ 0) := by omega
      rw [e, wrap32_of_fits hneg, checked.MulBigPow10, if_neg hne]
    · have hgt : ¬ (y.scale ≤ 0) := by omega
      rw [if_neg hlt, if_neg hgt]
      have e : (y.scale - 0).toNat = y.scale.toNat := by simp
      rw [e]
      rfl

/-! ## The value of the shifted integer -/

theorem value_of_finite (x : Big) (h : x.form = Form.finite) :
    x.value = (x.mant : ℚ) * (10 : ℚ) ^ (-x.scale) := by
  simp [Big.value, h]

/-- `x.shifted k` is the integer part of `x * 10^k`. -/
theorem shifted_bounds (x : Big) (k : Int) (h : x.form = Form.finite) :
    ((x.shifted k : Int) : ℚ) ≤ x.value * (10 : ℚ) ^ k ∧
      x.value * (10 : ℚ) ^ k < ((x.shifted k : Int) : ℚ) + 1 := by
  have h10 : (10 : ℚ) ≠ 0 := by norm_num
  have hv : x.value * (10 : ℚ) ^ k = (x.mant : ℚ) * (10 : ℚ) ^ (k - x.scale) := by
    rw [value_of_finite x h, mul_assoc, ← zpow_add₀ h10]
    congr 2; ring
  rw [hv]
  unfold Big.shifted
  by_cases hle : x.scale ≤ k
  · rw [if_pos hle]
    have hd : (((k - x.scale).toNat : Nat) : Int) = k - x.scale := Int.toNat_of_nonneg (by omega)
    have e : (10 : ℚ) ^ (k - x.scale) = (10 : ℚ) ^ (k - x.scale).toNat := by
      rw [← zpow_natCast, hd]
    rw [e]
    push_cast
    constructor
    · exact le_refl _
    · linarith
  · rw [if_neg hle]
    have hd : (((x.scale - k).toNat : Nat) : Int) = x.scale - k := Int.toNat_of_nonneg (by omega)
    have e : (10 : ℚ) ^ (k - x.scale) = ((10 : ℚ) ^ (x.scale - k).toNat)⁻¹ := by
      rw [← zpow_natCast, hd, ← zpow_neg]; congr 1; ring
    rw [e]
    set D : Int := 10 ^ (x.scale - k).toNat with hD
    have hDpos : 0 < D := by positivity
    have hDq : ((D : Int) : ℚ) = (10 : ℚ) ^ (x.scale - k).toNat := by simp [hD]
    rw [← hDq]
    have hDq0 : (0 : ℚ) < (D : ℚ) := by exact_mod_cast hDpos
    have h1 : x.mant / D * D ≤ x.mant := Int.ediv_mul_le _ (by omega)
    have h2 : x.mant < (x.mant / D + 1) * D := Int.lt_ediv_add_one_mul_self _ hDpos
    have h1q : ((x.mant / D : Int) : ℚ) * (D : ℚ) ≤ (x.mant : ℚ) := by exact_mod_cast h1
    have h2q : (x.mant : ℚ) < (((x.mant / D : Int) : ℚ) + 1) * (D : ℚ) := by exact_mod_cast h2
    rw [← div_eq_mul_inv]
    constructor
    · rw [le_div_iff₀ hDq0]; exact h1q
    · rw [div_lt_iff₀ hDq0]; exact h2q

/-- A value with mantissa `⌊√n⌋` and scale `p`, for `n` the integer part of
`x * 10^(2p)`, squares to at most `x`, and its successor in the last place
squares to more than `x`. -/
theorem sqrt_value_bounds (x r : Big) (p : Int) (n : Nat) (hx : x.form = Form.finite)
    (hr : r.form = Form.finite) (hrs : r.scale = p) (hrm : r.mant = (Nat.sqrt n : Nat))
    (hn : x.shifted (2 * p) = n) :
    r.value ^ 2 ≤ x.value ∧ x.value < (r.value + (10 : ℚ) ^ (-p)) ^ 2 := by
  have h10 : (10 : ℚ) ≠ 0 := by norm_num
  obtain ⟨hlo, hhi⟩ := shifted_bounds x (2 * p) hx
  rw [hn] at hlo hhi
  have hP : (0 : ℚ) < (10 : ℚ) ^ (2 * p) := zpow_pos (by norm_num) _
  have hsq : ((10 : ℚ) ^ (-p)) ^ 2 * (10 : ℚ) ^ (2 * p) = 1 := by
    rw [← zpow_natCast, ← zpow_mul, ← zpow_add₀ h10]
    have : -p * ((2 : Nat) : Int) + 2 * p = 0 := by push_cast; ring
    rw [this, zpow_zero]
  have hrv : r.value = ((Nat.sqrt n : Nat) : ℚ) * (10 : ℚ) ^ (-p) := by
    rw [value_of_finite r hr, hrs, hrm]; norm_cast
  have hm1 : ((Nat.sqrt n : Nat) : ℚ) ^ 2 ≤ (n : ℚ) := by exact_mod_cast Nat.sqrt_le' n
  have hm2 : (n : ℚ) + 1 ≤ (((Nat.sqrt n : Nat) : ℚ) + 1) ^ 2 := by
    exact_mod_cast Nat.succ_le_succ_sqrt' n
  have hlo' : ((n : Int) : ℚ) = (n : ℚ) := by norm_cast
  rw [hlo'] at hlo hhi
  constructor
  · have : r.value ^ 2 * (10 : ℚ) ^ (2 * p) ≤ x.value * (10 : ℚ) ^ (2 * p) := by
      rw [hrv, mul_pow, mul_assoc, hsq, mul_one]
      linarith
    exact le_of_mul_le_mul_right this hP
  · have : x.value * (10 : ℚ) ^ (2 * p)
        < (r.value + (10 : ℚ) ^ (-p)) ^ 2 * (10 : ℚ) ^ (2 * p) := by
      have e : (r.value + (10 : ℚ) ^ (-p)) ^ 2 * (10 : ℚ) ^ (2 * p)
          = (((Nat.sqrt n : Nat) : ℚ) + 1) ^ 2 * (((10 : ℚ) ^ (-p)) ^ 2 * (10 : ℚ) ^ (2 * p)) := by
        rw [hrv]; ring
      rw [e, hsq, mul_one]
      linarith
    exact lt_of_mul_lt_mul_right this (le_of_lt hP)

theorem SignBit_of_pos (x : Big) (hpos : 0 < x.mant) : x.SignBit = false := by
  unfold Big.mant at hpos
  unfold Big.SignBit Big.isInflated Big.isCompact bigSign
  by_cases h : x.compact = c.Inflated
  · have hc : x.isCompact = false := by simp [Big.isCompact, h]
    rw [hc] at hpos
    simp only [Bool.false_eq_true, if_false] at hpos
    have : ¬ (x.mantissa < 0) := by omega
    simp [h, this, hpos.ne']
  · have hc : x.isCompact = true := by simp [Big.isCompact, h]
    rw [hc] at hpos
    simp only [if_true] at hpos
    have : ¬ (x.compact < 0) := by omega
    simp [h, this]

theorem Sign_of_pos (x : Big) (hfin : x.form = Form.finite) (hpos : 0 < x.mant) :
    x.Sign = 1 := by
  unfold Big.mant at hpos
  unfold Big.Sign bigSign
  rw [hfin]
  simp only [reduceCtorEq, if_false]
  split
  · next h =>
    rw [h] at hpos
    simp only [if_true] at hpos
    rw [if_neg (by omega), if_neg (by omega)]
  · next h =>
    simp only [h, Bool.false_eq_true, if_false] at hpos
    rw [if_neg (by omega), if_neg (by omega)]

theorem fits64_mant_of_not_IsBig (x : Big) (hx : x.WellTyped) (hb : x.IsBig = false) :
    fits64 x.mant = true := by
  unfold Big.mant
  split
  · exact hx.1
  · unfold Big.IsBig bigCmp c.MinInt64 c.MaxInt64 at hb
    simp only [Bool.or_eq_false_iff, decide_eq_false_iff_not] at hb
    obtain ⟨_, h1, h2⟩ := hb
    simp only [fits64, Bool.and_eq_true, decide_eq_true_eq]
    unfold minInt64 maxInt64 at *
    constructor
    · by_contra hlt
      exact h1 (by rw [if_pos (by omega)]; norm_num)
    · by_contra hgt
      apply h2
      rw [if_neg (by omega)]
      split <;> norm_num

/-- C9 (amended). Let `x` be finite and positive and not taken by the
perfect-square fast path, let `p ≥ 1` be the precision of the destination,
let `n = ⌊x * 10^(2p)⌋ ≥ 2` with `n + 1` not a perfect square, and let `n`
fit in 64 bits when the 64-bit path is taken. Then, given enough fuel, `Sqrt`
returns a finite `r` with scale `p` and mantissa `⌊√n⌋`, so that
`r^2 ≤ x < (r + 10^(-p))^2`. -/
theorem Sqrt_newton_accuracy (fsqrt : Int → Int) (fuel : Nat) (z x : Big) (p : Int) (n : Nat)
    (hx : x.WellTyped) (hfin : x.form = Form.finite) (hpos : 0 < x.mant)
    (hsq : (perfectSquare fsqrt x).2 = false)
    (hz : z.ctx.precision = p) (hp1 : 1 ≤ p) (hp2 : fits32 (2 * p) = true)
    (hs1 : fits32 (x.scale - 2 * p) = true) (hs2 : fits32 (2 * p - x.scale) = true)
    (hn : x.shifted (2 * p) = n) (hn2 : 2 ≤ n)
    (hns : n + 1 ≠ (Nat.sqrt n + 1) * (Nat.sqrt n + 1))
    (h64 : x.IsBig = false → 2 * p ≤ 19 → fits64 (n : Int) = true)
    (hfuel : n + 2 ≤ fuel) :
    ∃ r, Big.Sqrt fsqrt fuel false z x = .ok r ∧ r.form = Form.finite ∧ r.scale = p ∧
      r.mant = (Nat.sqrt n : Nat) ∧
      r.value ^ 2 ≤ x.value ∧ x.value < (r.value + (10 : ℚ) ^ (-p)) ^ 2 := by
  have hSB := SignBit_of_pos x hpos
  have hSign := Sign_of_pos x hfin hpos
  obtain ⟨sq, ok, hps⟩ : ∃ sq ok, perfectSquare fsqrt x = (sq, ok) := ⟨_, _, rfl⟩
  have hok : ok = false := by rw [hps] at hsq; exact hsq
  subst hok
  have hzp : z.ctx.prec = p := hz
  have hadj : wrap64 (p * 2) = 2 * p := by
    simp only [fits32, minInt32, maxInt32, Bool.and_eq_true, decide_eq_true_eq] at hp2
    unfold wrap64; omega
  have h2p : wrap32 (2 * p) = 2 * p := wrap32_of_fits hp2
  -- the temporary after the radix shift
  set tmp : Big := { z.Set x with ctx := z.ctx, scale := x.scale - 2 * p } with htmp
  have htm : tmp.mant = x.mant := by
    simp only [htmp, Big.mant, Big.isCompact, Big.Set, Big.isInflated]
    by_cases h : x.compact = c.Inflated <;> simp [h]
  have hts : tmp.scale = x.scale - 2 * p := rfl
  have hshift : tmp.shifted 0 = n := by
    rw [← hn]
    unfold Big.shifted
    rw [htm, hts]
    by_cases h : x.scale ≤ 2 * p
    · rw [if_pos (by omega), if_pos h]; congr 2; omega
    · rw [if_neg (by omega), if_neg h]; congr 2; omega
  have hneg : fits32 (-tmp.scale) = true := by
    rw [hts]; have : -(x.scale - 2 * p) = 2 * p - x.scale := by ring
    rw [this]; exact hs2
  have hm1 : 1 ≤ Nat.sqrt n := Nat.sqrt_pos.2 (by omega)
  have hunf : Big.Sqrt fsqrt fuel false z x =
      if !x.IsBig ∧ 2 * p ≤ 19 then
        (sqrtLoop64 fuel tmp.Int64 (sqrtSeed64 tmp.Int64)).map fun ix => tmp.SetMantScale ix p
      else
        (sqrtLoopBig fuel tmp.BigInt (sqrtSeedBig tmp.BigInt)).map fun ix =>
          tmp.SetBigMantScale ix p := by
    have hss : (z.Set x).scale = x.scale := by unfold Big.Set; split <;> rfl
    unfold Big.Sqrt
    simp only [hSB, hfin, hSign, hps, hzp, hadj, shiftRadixRight, checked.Sub32, h2p, hss, hs1,
      wrap32_of_fits hs1, Bool.false_eq_true, if_false, reduceCtorEq, one_ne_zero,
      Bool.not_true]
  rw [hunf]
  by_cases hpath : !x.IsBig ∧ 2 * p ≤ 19
  · rw [if_pos hpath]
    have hbig : x.IsBig = false := by simpa using hpath.1
    have hfit := h64 hbig hpath.2
    have hmfit : fits64 tmp.mant = true := by rw [htm]; exact fits64_mant_of_not_IsBig x hx hbig
    have hI : tmp.Int64 = n :=
      (Int64_eq_shifted tmp (by rw [htm]; exact hpos) hmfit hneg (by rw [hshift]; exact hfit)).trans
        hshift
    have hn63 : n < 2 ^ 63 := by
      simp only [fits64, minInt64, maxInt64, Bool.and_eq_true, decide_eq_true_eq] at hfit
      norm_num; omega
    rw [hI, sqrtLoop64_seeded n fuel hn2 hn63 hns hfuel]
    have h32 := sqrt_lt_two_pow_32 n hn63
    have hne0 : ¬ (((Nat.sqrt n : Nat) : Int) = 0) := by omega
    have hneI : ¬ (((Nat.sqrt n : Nat) : Int) = c.Inflated) := by
      unfold c.Inflated minInt64; omega
    refine ⟨tmp.SetMantScale (Nat.sqrt n : Nat) p, rfl, ?_, ?_, ?_, ?_⟩
    · simp [Big.SetMantScale, hne0, hneI]
    · simp [Big.SetMantScale, hne0, hneI]
    · simp [Big.SetMantScale, hne0, hneI, Big.mant, Big.isCompact]
    · refine sqrt_value_bounds x _ p n hfin ?_ ?_ ?_ hn
      · simp [Big.SetMantScale, hne0, hneI]
      · simp [Big.SetMantScale, hne0, hneI]
      · simp [Big.SetMantScale, hne0, hneI, Big.mant, Big.isCompact]
  · rw [if_neg hpath]
    have hI : tmp.BigInt = n := (BigInt_eq_shifted tmp hneg).trans hshift
    rw [hI, sqrtLoopBig_seeded n fuel hn2 hns hfuel]
    have hne0 : ¬ (bigSign ((Nat.sqrt n : Nat) : Int) = 0) := by
      unfold bigSign
      rw [if_neg (by omega), if_neg (by omega)]; norm_num
    refine ⟨tmp.SetBigMantScale (Nat.sqrt n : Nat) p, rfl, ?_, ?_, ?_, ?_⟩
    · simp [Big.SetBigMantScale, hne0]
    · simp [Big.SetBigMantScale, hne0]
    · simp [Big.SetBigMantScale, hne0, Big.mant, Big.isCompact]
    · refine sqrt_value_bounds x _ p n hfin ?_ ?_ ?_ hn
      · simp [Big.SetBigMantScale, hne0]
      · simp [Big.SetBigMantScale, hne0]
      · simp [Big.SetBigMantScale, hne0, Big.mant, Big.isCompact]

/-- C9, as stated, fails for large `x`: at precision 1 the square root of 1000
is returned as 31.6 (mantissa 316, scale 1), whose square 998.56 differs from
1000 by 1.44, more than the tolerance `10^(-1+1) = 1`. -/
theorem Sqrt_tolerance_counterexample :
    (New 1000 0).form = Form.finite ∧
      Big.Sqrt intSqrt 10 false (withContext 1 RoundingMode.ToZero) (New 1000 0)
        = .ok { withContext 1 RoundingMode.ToZero with
                compact := 316, scale := 1, form := Form.finite } ∧
      ¬ (|({ withContext 1 RoundingMode.ToZero with
              compact := 316, scale := 1, form := Form.finite } : Big).value ^ 2
            - (New 1000 0).value| ≤ (10 : ℚ) ^ (-(1 : Int) + 1)) := by
  refine ⟨by decide, by decide, ?_⟩
  have h1 : ({ withContext 1 RoundingMode.ToZero with
      compact := 316, scale := 1, form := Form.finite } : Big).value = 316 / 10 := by
    rw [value_of_finite _ rfl]
    have hm : ({ withContext 1 RoundingMode.ToZero with
      compact := 316, scale := 1, form := Form.finite } : Big).mant = 316 := by decide
    rw [hm]; norm_num
  have h2 : (New 1000 0).value = 1000 := by
    rw [value_of_finite _ (by decide)]
    have hm : (New 1000 0).mant = 1000 := by decide
    have hs : (New 1000 0).scale = 0 := by decide
    rw [hm, hs]; norm_num
  rw [h1, h2]
  norm_num [abs_le]

/-- The square root of 2 at precision 1: `n = 200`, and the result is 1.4. -/
theorem Sqrt_newton_accuracy_witness :
    ∃ r, Big.Sqrt intSqrt 202 false (withContext 1 RoundingMode.ToZero) (New 2 0) = .ok r ∧
      r.form = Form.finite ∧ r.scale = 1 ∧ r.mant = (Nat.sqrt 200 : Nat) ∧
      r.value ^ 2 ≤ (New 2 0).value ∧ (New 2 0).value < (r.value + (10 : ℚ) ^ (-(1 : Int))) ^ 2 :=
  Sqrt_newton_accuracy intSqrt 202 (withContext 1 RoundingMode.ToZero) (New 2 0) 1 200
    ⟨by decide, by decide, by decide⟩ (by decide) (by decide) (by decide) rfl (by decide)
    (by decide) (by decide) (by decide) (by decide) (by decide)
    (by
      have h : Nat.sqrt 200 = 14 := (Nat.eq_sqrt.2 ⟨by norm_num, by norm_num⟩).symm
      rw [h]; decide)
    (fun _ _ => by decide) (by decide)

/-! ## Addition and subtraction: zero sums and infinities -/

/-- C11. `New(10, 1) + New(-1, 0)` is `1.0 - 1 = 0`, but the result keeps
`form = finite`: on the 64-bit path for different scales `addCompact` stores
the sum and returns without the test for zero that the other paths make. -/
theorem Add_zero_sum_different_scales_stays_finite (z : Big) :
    (New 10 1).mant * 10 ^ 0 + (New (-1) 0).mant * 10 ^ 1 = 0 ∧
      z.Add (New 10 1) (New (-1) 0)
        = .ok { z with compact := 0, scale := 1, form := Form.finite } := by
  refine ⟨by decide, rfl⟩

/-- C12, as stated, fails for infinities without a sign: for `x = y` obtained
from `SetString("+Inf")` the subtraction fails, while `Add(z, x, Neg(y))`
returns an infinity. -/
theorem Sub_infinities_counterexample :
    Big.fresh.SetString "+Inf".toList = some Big.fresh.SetInf ∧
      Big.fresh.Sub Big.fresh.SetInf Big.fresh.SetInf = .error Fault.errNaN ∧
      Big.fresh.Add Big.fresh.SetInf (Big.fresh.Neg Big.fresh.SetInf) = .ok Big.fresh.SetInf := by
  decide

/-- C13, as stated, fails: `SetString` gives the same infinity for `+Inf` and
for `-Inf` (the sign is not recorded), and the sum of the two is an infinity,
not a failure. -/
theorem Add_parsed_infinities_counterexample :
    Big.fresh.SetString "+Inf".toList = some Big.fresh.SetInf ∧
      Big.fresh.SetString "-Inf".toList = some Big.fresh.SetInf ∧
      Big.fresh.Add Big.fresh.SetInf Big.fresh.SetInf = .ok Big.fresh.SetInf := by
  decide

/-! ## Rounding -/

/-- C15, as stated, fails at its own example: `Round(3)` leaves the mantissa
12345 with scale 0 unchanged, with five digits, because the value has more
than three integer digits (`n < prec - scale`). -/
theorem Round_integer_digits_counterexample :
    Big.Round 1 ((withContext 0 RoundingMode.ToZero).SetMantScale 12345 0) 3
        = .ok ((withContext 0 RoundingMode.ToZero).SetMantScale 12345 0) ∧
      ((withContext 0 RoundingMode.ToZero).SetMantScale 12345 0).Prec = 5 := by
  decide

/-- C16. Under `ToZero`, `Round(2)` takes `-1.25` (mantissa -125, scale 2) to
`-1.2` (mantissa -12, scale 1), which is greater than `-1.25` and so outside
`[⌊z⌋, z]`. The values are compared after scaling both to scale 2. -/
theorem Round_negative_leaves_interval (fuel : Nat) :
    Big.Round (fuel + 1) ((withContext 0 RoundingMode.ToZero).SetMantScale (-125) 2) 2
        = .ok { (withContext 0 RoundingMode.ToZero).SetMantScale (-125) 2 with
                compact := -12, scale := 1 } ∧
      ¬ (({ (withContext 0 RoundingMode.ToZero).SetMantScale (-125) 2 with
              compact := -12, scale := 1 } : Big).mant * 10 ^ 1
          ≤ ((withContext 0 RoundingMode.ToZero).SetMantScale (-125) 2).mant * 10 ^ 0) := by
  refine ⟨rfl, by decide⟩

/-! ## Values with `form = zero` -/

/-- C19. After `z.Mul(z, zero)` on `z = New(5, 0)` the form is `zero` and the
field `compact` still holds 5. `String` then prints `5`, not `0`, and `Cmp`
against `New(3, 0)` answers `+1`, not `-Sign(x) = -1`: neither looks at the
form. -/
theorem zero_form_observed_through_stale_fields :
    (New 5 0).Mul (New 5 0) (New 0 0) = .ok { New 5 0 with form := Form.zero } ∧
      ({ New 5 0 with form := Form.zero } : Big).String = .ok "5".toList ∧
      Big.Cmp false { New 5 0 with form := Form.zero } (New 3 0) = .ok 1 ∧
      (New 3 0).form = Form.finite ∧ -(New 3 0).Sign = -1 := by
  decide

/-! ## Comparison: antisymmetry -/

/-- C17. `SetString` of twenty zeros gives a finite `x` on the unbounded path
whose unbounded field holds zero; against `y = 2^63` (same scale, also on the
unbounded path) `x.Cmp(y)` is 0 while `y.Cmp(x)` is +1: when the signs of the
two unbounded fields differ, `Cmp` answers with the sign of the receiver,
which is 0 for a zero receiver. -/
theorem Cmp_zero_mantissa_breaks_antisymmetry :
    Big.fresh.SetString "00000000000000000000".toList
        = some { Big.fresh with compact := c.Inflated, form := Form.finite } ∧
      Big.fresh.SetString "9223372036854775808".toList
        = some { Big.fresh with compact := c.Inflated, mantissa := 9223372036854775808,
                                form := Form.finite } ∧
      Big.Cmp false { Big.fresh with compact := c.Inflated, form := Form.finite }
          { Big.fresh with compact := c.Inflated, mantissa := 9223372036854775808,
                           form := Form.finite } = .ok 0 ∧
      Big.Cmp false { Big.fresh with compact := c.Inflated, mantissa := 9223372036854775808,
                                     form := Form.finite }
          { Big.fresh with compact := c.Inflated, form := Form.finite } = .ok 1 := by
  decide

theorem wrap64_neg_of_compact {v : Int} (h : fits64 v = true) (hne : v ≠ c.Inflated) :
    wrap64 (-v) = -v ∧ -v ≠ c.Inflated := by
  simp only [fits64, minInt64, maxInt64, Bool.and_eq_true, decide_eq_true_eq] at h
  unfold c.Inflated minInt64 at *
  unfold wrap64
  constructor <;> omega

theorem wrap32_zero : wrap32 0 = 0 := by decide

theorem wrap64_zero : wrap64 0 = 0 := by decide

/-- C14. For every finite `x`, `Add(z, x, Neg(x))` has `form = zero` and
sign 0, whatever the destinations `z` of the sum and `w` of the negation. -/
theorem Add_Neg_self_is_zero (z w x : Big) (hfin : x.form = Form.finite)
    (hx : fits64 x.compact = true) :
    ∃ r, z.Add x (w.Neg x) = .ok r ∧ r.form = Form.zero ∧ r.Sign = 0 := by
  by_cases hc : x.compact = c.Inflated
  · have hxc : x.isCompact = false := by simp [Big.isCompact, hc]
    refine ⟨{ z with form := Form.zero, mantissa := 0, compact := c.Inflated, scale := x.scale },
      ?_, rfl, rfl⟩
    simp [Big.Add, Big.Neg, Big.addBig, Big.isCompact, hfin, hc, checked.MulBigPow10,
      wrap32_zero, bigSign]
  · obtain ⟨hw, hne⟩ := wrap64_neg_of_compact hx hc
    refine ⟨{ z with form := Form.zero, compact := 0, scale := x.scale }, ?_, rfl, rfl⟩
    simp [Big.Add, Big.Neg, Big.addCompact, Big.isCompact, hfin, hc, hw, hne, checked.Add,
      wrap64_zero, fits64, minInt64, maxInt64]

/-- The value -1.5 (mantissa -15, scale 1). -/
theorem Add_Neg_self_is_zero_witness :
    ∃ r, Big.fresh.Add (New (-15) 1) (Big.fresh.Neg (New (-15) 1)) = .ok r ∧
      r.form = Form.zero ∧ r.Sign = 0 :=
  Add_Neg_self_is_zero Big.fresh Big.fresh (New (-15) 1) (by decide) (by decide)

/-- C13 (amended). Two infinities whose sign bits differ cannot be added: `Add`
fails with `ErrNaN`. -/
theorem Add_opposite_infinities_fails (z x y : Big) (hx : x.form = Form.inf)
    (hy : y.form = Form.inf) (hs : x.SignBit ≠ y.SignBit) :
    z.Add x y = .error Fault.errNaN := by
  simp [Big.Add, hx, hy, hs]

/-- The infinities made from 1 and from -1 by `SetInf`. -/
theorem Add_opposite_infinities_fails_witness :
    Big.fresh.Add (New 1 0).SetInf (New (-1) 0).SetInf = .error Fault.errNaN :=
  Add_opposite_infinities_fails Big.fresh (New 1 0).SetInf (New (-1) 0).SetInf
    (by decide) (by decide) (by decide)

theorem SameOutcome_refl (a : Except Fault Big) : SameOutcome a a := by
  cases a with
  | error e => exact rfl
  | ok r => exact ⟨rfl, rfl, rfl⟩

theorem Sign_eq_bigSign (x : Big) (h : x.form ≠ Form.zero) : x.Sign = bigSign x.mant := by
  unfold Big.Sign Big.mant bigSign
  rw [if_neg h]
  split
  · split_ifs <;> first | rfl | omega
  · rfl

theorem SignBit_eq (x : Big) : x.SignBit = decide (x.mant < 0) := by
  unfold Big.SignBit Big.mant Big.isInflated Big.isCompact bigSign
  by_cases h : x.compact = c.Inflated
  · simp only [h, ne_eq, not_true_eq_false, decide_False, Bool.false_and, decide_True,
      Bool.true_and, Bool.false_or, Bool.false_eq_true, if_false]
    by_cases hm : x.mantissa < 0
    · simp [hm]
    · by_cases h0 : x.mantissa = 0 <;> simp [hm, h0]
  · simp [h]

theorem Neg_mant (w y : Big) (hy : fits64 y.compact = true) : (w.Neg y).mant = -y.mant := by
  unfold Big.Neg Big.mant Big.isCompact
  by_cases h : y.compact = c.Inflated
  · simp [h]
  · obtain ⟨hw, hne⟩ := wrap64_neg_of_compact hy h
    simp [h, hw, hne]

theorem Neg_form (w y : Big) : (w.Neg y).form = y.form := rfl

theorem Neg_scale (w y : Big) : (w.Neg y).scale = y.scale := rfl

theorem Set_fields (z x : Big) :
    (z.Set x).form = x.form ∧ (z.Set x).mant = x.mant ∧ (z.Set x).scale = x.scale := by
  unfold Big.Set Big.mant Big.isCompact Big.isInflated
  by_cases h : x.compact = c.Inflated <;> simp [h]

theorem sign_test_agrees (a b : Int) (ha : a ≠ 0) (hb : b ≠ 0) :
    (bigSign a = bigSign b) ↔ (decide (a < 0) ≠ decide (-b < 0)) := by
  unfold bigSign
  by_cases h1 : a < 0 <;> by_cases h2 : b < 0
  · have : ¬ (-b < 0) := by omega
    simp [h1, h2, this]
  · have : -b < 0 := by omega
    simp [h1, h2, hb, this]
  · have : ¬ (-b < 0) := by omega
    simp [h1, h2, ha, this]
  · have : -b < 0 := by omega
    simp [h1, h2, ha, hb, this]

/-- C12 (amended). Unless `x` and `y` are two infinities one of which carries
no sign (a zero mantissa field), `Sub(z, x, y)` ends as `Add(z, x, Neg(y))`
does: both fail with `ErrNaN`, or both return values of the same form,
mantissa and scale. -/
theorem Sub_as_Add_Neg (z x y : Big) (hy : fits64 y.compact = true)
    (hsign : x.form = Form.inf → y.form = Form.inf → x.mant ≠ 0 ∧ y.mant ≠ 0) :
    SameOutcome (z.Sub x y) (z.Add x (Big.fresh.Neg y)) := by
  have hnf := Neg_form Big.fresh y
  have hset := Set_fields z x
  have hsetn := Set_fields z (Big.fresh.Neg y)
  have hnm := Neg_mant Big.fresh y hy
  have hzm := Neg_mant z y hy
  by_cases hxf : x.form = Form.finite
  · by_cases hyf : y.form = Form.finite
    · have : z.Sub x y = z.Add x (Big.fresh.Neg y) := by simp [Big.Sub, hxf, hyf]
      rw [this]; exact SameOutcome_refl _
    · cases hy' : y.form with
      | finite => exact absurd hy' hyf
      | zero =>
        simp only [Big.Sub, Big.Add, hxf, hy', hnf, reduceCtorEq, and_false, false_and, if_false,
          or_true, if_true, and_self]
        exact ⟨rfl, rfl, rfl⟩
      | inf =>
        simp only [Big.Sub, Big.Add, hxf, hy', hnf, reduceCtorEq, and_false, false_and, if_false,
          or_self, and_self]
        exact ⟨by rw [hsetn.1, hnf]; rfl, by rw [hsetn.2.1, hzm, hnm],
          by rw [hsetn.2.2]; rfl⟩
  · cases hx' : x.form with
    | finite => exact absurd hx' hxf
    | zero =>
      cases hy' : y.form with
      | finite =>
        simp only [Big.Sub, Big.Add, hx', hy', hnf, reduceCtorEq, and_false, false_and, if_false,
          or_self, and_self]
        exact ⟨by rw [hsetn.1, hnf]; rfl, by rw [hsetn.2.1, hzm, hnm],
          by rw [hsetn.2.2]; rfl⟩
      | zero =>
        simp only [Big.Sub, Big.Add, hx', hy', hnf, reduceCtorEq, and_false, false_and, if_false,
          and_self, if_true]
        exact ⟨rfl, rfl, rfl⟩
      | inf =>
        simp only [Big.Sub, Big.Add, hx', hy', hnf, reduceCtorEq, and_false, false_and, if_false,
          or_self, and_self, and_true]
        exact ⟨by rw [hsetn.1, hnf]; rfl, by rw [hsetn.2.1, hzm, hnm],
          by rw [hsetn.2.2]; rfl⟩
    | inf =>
      cases hy' : y.form with
      | finite =>
        simp only [Big.Sub, Big.Add, hx', hy', hnf, reduceCtorEq, and_false, false_and, if_false,
          true_or, if_true, and_self]
        exact ⟨rfl, rfl, rfl⟩
      | zero =>
        simp only [Big.Sub, Big.Add, hx', hy', hnf, reduceCtorEq, and_false, false_and, if_false,
          true_or, if_true, and_self]
        exact ⟨rfl, rfl, rfl⟩
      | inf =>
        obtain ⟨hxm, hym⟩ := hsign hx' hy'
        have hxs : x.Sign = bigSign x.mant := Sign_eq_bigSign x (by rw [hx']; decide)
        have hys : y.Sign = bigSign y.mant := Sign_eq_bigSign y (by rw [hy']; decide)
        have key := sign_test_agrees x.mant y.mant hxm hym
        simp only [Big.Sub, Big.Add, hx', hy', hnf, reduceCtorEq, and_false, false_and, if_false,
          true_and, hxs, hys, SignBit_eq, hnm]
        by_cases hs : bigSign x.mant = bigSign y.mant
        · rw [if_pos hs, if_pos (key.1 hs)]
          exact rfl
        · rw [if_neg hs, if_neg (fun h => hs (key.2 h))]
          simp only [true_or, if_true]
          exact ⟨rfl, rfl, rfl⟩

/-- The difference of the infinities made from 1 and from -1. -/
theorem Sub_as_Add_Neg_witness :
    SameOutcome (Big.fresh.Sub (New 1 0).SetInf (New (-1) 0).SetInf)
      (Big.fresh.Add (New 1 0).SetInf (Big.fresh.Neg (New (-1) 0).SetInf)) :=
  Sub_as_Add_Neg Big.fresh (New 1 0).SetInf (New (-1) 0).SetInf (by decide)
    (fun _ _ => ⟨by decide, by decide⟩)

/-! ## The number of decimal digits -/

theorem decLenAux_spec (fuel n : Nat) (hn : n ≠ 0) (hlt : n < 10 ^ fuel) :
    1 ≤ decLenAux fuel n ∧ 10 ^ (decLenAux fuel n - 1) ≤ n ∧ n < 10 ^ decLenAux fuel n := by
  induction fuel generalizing n with
  | zero => simp at hlt; omega
  | succ k ih =>
    rw [decLenAux]
    by_cases h10 : n < 10
    · rw [if_pos h10]
      refine ⟨le_refl _, ?_, ?_⟩
      · simp; omega
      · simpa using h10
    · rw [if_neg h10]
      have hlt2 : n / 10 < 10 ^ k := by rw [pow_succ] at hlt; omega
      obtain ⟨hb1, hlo, hhi⟩ := ih (n / 10) (by omega) hlt2
      refine ⟨by omega, ?_, ?_⟩
      · have e : 1 + decLenAux k (n / 10) - 1 = (decLenAux k (n / 10) - 1) + 1 := by omega
        rw [e, pow_succ]; omega
      · have e : 1 + decLenAux k (n / 10) = decLenAux k (n / 10) + 1 := by omega
        rw [e, pow_succ]; omega

theorem digits_unique (n a b : Nat) (ha : 1 ≤ a) (hb : 1 ≤ b)
    (ha1 : 10 ^ (a - 1) ≤ n) (ha2 : n < 10 ^ a) (hb1 : 10 ^ (b - 1) ≤ n) (hb2 : n < 10 ^ b) :
    a = b := by
  by_contra hne
  rcases Nat.lt_or_gt_of_ne hne with h | h
  · have : 10 ^ a ≤ 10 ^ (b - 1) := Nat.pow_le_pow_right (by norm_num) (by omega)
    omega
  · have : 10 ^ b ≤ 10 ^ (a - 1) := Nat.pow_le_pow_right (by norm_num) (by omega)
    omega

theorem decLenAux_eq_of_bounds (fuel n d : Nat) (hlt : n < 10 ^ fuel) (hd : 1 ≤ d)
    (hlo : 10 ^ (d - 1) ≤ n) (hhi : n < 10 ^ d) : decLenAux fuel n = d := by
  have hn : n ≠ 0 := by
    have : 0 < 10 ^ (d - 1) := Nat.pow_pos (by norm_num)
    omega
  obtain ⟨h1, h2, h3⟩ := decLenAux_spec fuel n hn hlt
  exact digits_unique n _ _ h1 hd h2 h3 hlo hhi

/-- Multiplying by `10^k` adds `k` digits. -/
theorem decLenAux_mul_pow (fuel n k : Nat) (hn : n ≠ 0) (hlt : n * 10 ^ k < 10 ^ fuel) :
    decLenAux fuel (n * 10 ^ k) = decLenAux fuel n + k := by
  have hp : 0 < 10 ^ k := Nat.pow_pos (by norm_num)
  have hlt' : n < 10 ^ fuel := lt_of_le_of_lt (Nat.le_mul_of_pos_right n hp) hlt
  obtain ⟨h1, h2, h3⟩ := decLenAux_spec fuel n hn hlt'
  apply decLenAux_eq_of_bounds fuel _ _ hlt (by omega)
  · have e : decLenAux fuel n + k - 1 = (decLenAux fuel n - 1) + k := by omega
    rw [e, pow_add]
    exact Nat.mul_le_mul_right _ h2
  · rw [pow_add]
    exact Nat.mul_lt_mul_of_pos_right h3 hp

/-- Dividing by `10^k` removes `k` digits, as long as one digit is left. -/
theorem decLenAux_div_pow (fuel n k : Nat) (hn : n ≠ 0) (hlt : n < 10 ^ fuel)
    (hk : k < decLenAux fuel n) :
    n / 10 ^ k ≠ 0 ∧ decLenAux fuel (n / 10 ^ k) = decLenAux fuel n - k := by
  have hp : 0 < 10 ^ k := Nat.pow_pos (by norm_num)
  obtain ⟨h1, h2, h3⟩ := decLenAux_spec fuel n hn hlt
  have hlo : 10 ^ (decLenAux fuel n - k - 1) ≤ n / 10 ^ k := by
    rw [Nat.le_div_iff_mul_le hp, ← pow_add]
    have e : decLenAux fuel n - k - 1 + k = decLenAux fuel n - 1 := by omega
    rw [e]; exact h2
  have hhi : n / 10 ^ k < 10 ^ (decLenAux fuel n - k) := by
    rw [Nat.div_lt_iff_lt_mul hp, ← pow_add]
    have e : decLenAux fuel n - k + k = decLenAux fuel n := by omega
    rw [e]; exact h3
  have hpos : 0 < 10 ^ (decLenAux fuel n - k - 1) := Nat.pow_pos (by norm_num)
  refine ⟨by omega, ?_⟩
  exact decLenAux_eq_of_bounds fuel _ _
    (lt_of_le_of_lt (Nat.div_le_self _ _) hlt) (by omega) hlo hhi

theorem natAbs_lt_of_fits64 {v : Int} (h : fits64 v = true) : v.natAbs < 10 ^ 20 := by
  simp only [fits64, minInt64, maxInt64, Bool.and_eq_true, decide_eq_true_eq] at h
  norm_num
  omega

theorem Length_mul_pow (m : Int) (k : Nat) (hm : m ≠ 0) (hfit : fits64 (m * 10 ^ k) = true) :
    arith.Length (m * 10 ^ k) = arith.Length m + k := by
  unfold arith.Length
  have e : (m * 10 ^ k).natAbs = m.natAbs * 10 ^ k := by
    rw [Int.natAbs_mul, Int.natAbs_pow]; rfl
  have hlt := natAbs_lt_of_fits64 hfit
  rw [e] at hlt ⊢
  rw [decLenAux_mul_pow 20 _ k (Int.natAbs_ne_zero.2 hm) hlt]
  push_cast; rfl

theorem decLenAux_bounds (fuel n : Nat) : 1 ≤ decLenAux fuel n ∧ decLenAux fuel n ≤ fuel + 1 := by
  induction fuel generalizing n with
  | zero => simp [decLenAux]
  | succ k ih =>
    rw [decLenAux]
    split
    · omega
    · have := ih (n / 10); omega

theorem Length_bounds (m : Int) : 1 ≤ arith.Length m ∧ arith.Length m ≤ 21 := by
  unfold arith.Length
  have := decLenAux_bounds 20 m.natAbs
  omega

theorem wrap32_Length (m : Int) : wrap32 (arith.Length m) = arith.Length m := by
  have := Length_bounds m
  apply wrap32_of_fits
  simp only [fits32, minInt32, maxInt32, Bool.and_eq_true, decide_eq_true_eq]
  omega

theorem New_of_compact (m s : Int) (hm : m ≠ 0) (hi : m ≠ c.Inflated) :
    New m s = { Big.fresh with scale := s, compact := m, form := Form.finite } := by
  simp [New, Big.SetMantScale, hm, hi]

theorem pow_le_of_mul_pow_fits64 (m : Int) (k : Nat) (hm : m ≠ 0)
    (hfit : fits64 (m * 10 ^ k) = true) : k ≤ 18 := by
  by_contra hk
  have h19 : (10 : Nat) ^ 19 ≤ 10 ^ k := Nat.pow_le_pow_right (by norm_num) (by omega)
  have e : (m * 10 ^ k).natAbs = m.natAbs * 10 ^ k := by
    rw [Int.natAbs_mul, Int.natAbs_pow]; rfl
  have h1 : 1 ≤ m.natAbs := Nat.one_le_iff_ne_zero.2 (Int.natAbs_ne_zero.2 hm)
  have h2 : 10 ^ k ≤ m.natAbs * 10 ^ k := Nat.le_mul_of_pos_left _ h1
  simp only [fits64, minInt64, maxInt64, Bool.and_eq_true, decide_eq_true_eq] at hfit
  have h3 : (m * 10 ^ k).natAbs ≤ 2 ^ 63 := by omega
  rw [e] at h3
  norm_num at h19 h3
  omega

/-- C18: a nonzero 64-bit value written with `k` more trailing zeros and a
scale larger by `k` compares equal to the original, in both directions. -/
theorem Cmp_ignores_trailing_zeros (m s : Int) (k : Nat) (hm : m ≠ 0) (hk : 1 ≤ k)
    (hfit : fits64 (m * 10 ^ k) = true) (_hs : fits32 s = true)
    (_hsk : fits32 (s + k) = true) :
    Big.Cmp false (New m s) (New (m * 10 ^ k) (s + k)) = .ok 0 ∧
      Big.Cmp false (New (m * 10 ^ k) (s + k)) (New m s) = .ok 0 := by
  have hk18 := pow_le_of_mul_pow_fits64 m k hm hfit
  have hp : (0 : Int) < 10 ^ k := by positivity
  have hp10 : (10 : Int) ≤ 10 ^ k := by
    calc (10 : Int) = 10 ^ 1 := by norm_num
      _ ≤ 10 ^ k := pow_le_pow_right₀ (by norm_num) hk
  have hM : m * 10 ^ k ≠ 0 := mul_ne_zero hm (ne_of_gt hp)
  have hfit2 := hfit
  simp only [fits64, minInt64, maxInt64, Bool.and_eq_true, decide_eq_true_eq] at hfit2
  have hmI : m ≠ c.Inflated := by
    intro h
    rw [h] at hfit2
    simp only [c.Inflated, minInt64] at hfit2
    nlinarith
  have hMI : m * 10 ^ k ≠ c.Inflated := by
    intro h
    have hd : (10 : Int) ∣ 10 ^ k := dvd_pow_self 10 (by omega)
    have : (10 : Int) ∣ c.Inflated := by rw [← h]; exact Dvd.dvd.mul_left hd m
    simp only [c.Inflated, minInt64] at this
    omega
  have hsgn : (m * 10 ^ k < 0) ↔ m < 0 := by
    constructor
    · intro h; by_contra hn; push_neg at hn; nlinarith
    · intro h; nlinarith
  have hlen := Length_mul_pow m k hm hfit
  have hw := wrap32_Length m
  have hwM : wrap32 (arith.Length m + (k : Int)) = arith.Length m + k := by
    rw [← hlen]; exact wrap32_Length (m * 10 ^ k)
  have hkw : wrap32 (k : Int) = k := by
    apply wrap32_of_fits
    simp only [fits32, minInt32, maxInt32, Bool.and_eq_true, decide_eq_true_eq]
    omega
  have hmp : checked.MulPow10 m k = (m * 10 ^ k, true) := by
    simp only [checked.MulPow10]
    rw [if_neg (by push_neg; exact ⟨hm, by omega⟩)]
    rw [if_pos ⟨by omega, by simpa using hfit⟩]
    simp
  have hne1 : ¬ (s = s + (k : Int)) := by omega
  have hne2 : ¬ (s + (k : Int) = s) := by omega
  have hd1 : wrap32 (s + (k : Int) - s) = k := by
    have : s + (k : Int) - s = k := by ring
    rw [this, hkw]
  have hkb : (k : Int) ≤ c.BadScale := by simp only [c.BadScale, maxInt32]; omega
  have hlt1 : s < s + (k : Int) := by omega
  have hlt2 : ¬ (s + (k : Int) < s) := by omega
  have hdl : wrap32 (arith.Length m + (k : Int) - (s + k)) = wrap32 (arith.Length m - s) := by
    have e : arith.Length m + (k : Int) - (s + k) = arith.Length m - s := by
      generalize arith.Length m = a
      omega
    rw [e]
  have hSign : ∀ (v sc : Int), v ≠ 0 → v ≠ c.Inflated →
      Big.Sign { Big.fresh with scale := sc, compact := v, form := Form.finite }
        = if v < 0 then -1 else 1 := by
    intro v sc hv hvi
    have hc : Big.isCompact { Big.fresh with scale := sc, compact := v, form := Form.finite }
        = true := by
      unfold Big.isCompact; exact decide_eq_true hvi
    unfold Big.Sign
    rw [hc, if_neg (by intro h; cases h), if_pos rfl, if_neg hv]
  have hPrec : ∀ (v sc : Int), v ≠ c.Inflated →
      Big.Prec { Big.fresh with scale := sc, compact := v, form := Form.finite }
        = arith.Length v := by
    intro v sc hvi
    have hc : Big.isCompact { Big.fresh with scale := sc, compact := v, form := Form.finite }
        = true := by
      unfold Big.isCompact; exact decide_eq_true hvi
    unfold Big.Prec
    rw [hc, if_neg (by intro h; exact h rfl), if_pos rfl]
  rw [New_of_compact m s hm hmI, New_of_compact (m * 10 ^ k) (s + k) hM hMI]
  have hS1 := hSign m s hm hmI
  have hS2 := hSign (m * 10 ^ k) (s + k) hM hMI
  have hP1 := hPrec m s hmI
  have hP2 := hPrec (m * 10 ^ k) (s + k) hMI
  have hS2b : (if m * 10 ^ k < 0 then (-1 : Int) else 1) = if m < 0 then -1 else 1 := by
    by_cases h : m < 0
    · rw [if_pos h, if_pos (hsgn.2 h)]
    · rw [if_neg h, if_neg (fun h2 => h (hsgn.1 h2))]
  rw [hS2b] at hS2
  have hs0 : ¬ ((if m < 0 then (-1 : Int) else 1) = 0) := by split <;> omega
  have habs : arith.AbsCmp (m * 10 ^ k) (m * 10 ^ k) = 0 := by simp [arith.AbsCmp]
  constructor
  · simp only [Big.Cmp, hS1, hS2, hP1, hP2, hlen, hw, hwM, hne1, hdl, hlt1, hd1, hkb, hmp, hMI,
      habs, hs0, gt_iff_lt, lt_self_iff_false, if_false, if_true, decide_True, and_self,
      Bool.false_eq_true, false_and, and_false, ne_eq, not_false_eq_true, reduceCtorEq]
  · simp only [Big.Cmp, hS1, hS2, hP1, hP2, hlen, hw, hwM, hne2, hdl, hlt2, hd1, hkb, hmp, hMI,
      habs, hs0, gt_iff_lt, lt_self_iff_false, if_false, if_true, decide_False, and_self,
      Bool.false_eq_true, false_and, and_false, ne_eq, not_false_eq_true, reduceCtorEq]

/-- `New(1, 5)` against `New(100, 7)`: both are `0.00001`. -/
theorem Cmp_ignores_trailing_zeros_witness :
    Big.Cmp false (New 1 5) (New (1 * 10 ^ 2) (5 + (2 : Nat))) = .ok 0 ∧
      Big.Cmp false (New (1 * 10 ^ 2) (5 + (2 : Nat))) (New 1 5) = .ok 0 :=
  Cmp_ignores_trailing_zeros 1 5 2 (by decide) (by decide) (by decide) (by decide) (by decide)

/-! ## Rounding under `ToZero` -/

theorem Prec_compact (z : Big) (hfin : z.form = Form.finite) (hc : z.compact ≠ c.Inflated) :
    z.Prec = arith.Length z.compact := by
  have hcc : z.isCompact = true := by unfold Big.isCompact; exact decide_eq_true hc
  unfold Big.Prec
  rw [hcc, if_neg (by rw [hfin]; exact fun h => h rfl), if_pos rfl]

theorem Prec_inflated (z : Big) (hfin : z.form = Form.finite) (hc : z.compact = c.Inflated) :
    z.Prec = arith.BigLength z.mantissa := by
  have hcc : z.isCompact = false := by
    unfold Big.isCompact; exact decide_eq_false (by rw [hc]; exact fun h => h rfl)
  unfold Big.Prec
  rw [hcc, if_neg (by rw [hfin]; exact fun h => h rfl), if_neg (by decide)]

theorem Length_le_19 {v : Int} (h : fits64 v = true) : arith.Length v ≤ 19 := by
  unfold arith.Length
  simp only [fits64, minInt64, maxInt64, Bool.and_eq_true, decide_eq_true_eq] at h
  by_cases h0 : v.natAbs = 0
  · rw [h0]; decide
  · have hlt : v.natAbs < 10 ^ 20 := by norm_num; omega
    obtain ⟨h1, h2, _⟩ := decLenAux_spec 20 v.natAbs h0 hlt
    have h19 : v.natAbs < 10 ^ 19 := by norm_num; omega
    by_contra hgt
    have : (10 : Nat) ^ 19 ≤ 10 ^ (decLenAux 20 v.natAbs - 1) :=
      Nat.pow_le_pow_right (by norm_num) (by omega)
    omega

theorem wrap32_sub_wrap32 (a b : Int) : wrap32 (a - wrap32 b) = wrap32 (a - b) := by
  unfold wrap32; omega

/-- The 64-bit path of `Round` under `ToZero`. -/
theorem Round_ToZero_compact (fuel : Nat) (z : Big) (n : Int) (k : Nat)
    (hfin : z.form = Form.finite) (hmode : z.ctx.mode = RoundingMode.ToZero)
    (hc : z.compact ≠ c.Inflated) (hfit : fits64 z.compact = true)
    (hn : 0 < n) (hint : z.Prec - z.scale ≤ n) (hk : (k : Int) = z.Prec - n) (hk1 : 1 ≤ k)
    (hsc : fits32 (z.scale - k) = true) :
    Big.Round (fuel + 1) z n
      = .ok { z with scale := z.scale - k, compact := Int.tdiv z.compact (10 ^ k) } := by
  have hP := Prec_compact z hfin hc
  have h19 := Length_le_19 hfit
  have hcc : z.isCompact = true := by unfold Big.isCompact; exact decide_eq_true hc
  have hk18 : k ≤ 18 := by omega
  have hshift : z.Prec - n = (k : Int) := hk.symm
  have hfs : fits64 (k : Int) = true := by
    simp only [fits64, minInt64, maxInt64, Bool.and_eq_true, decide_eq_true_eq]; omega
  have hq : fits64 (Int.tdiv z.compact (10 ^ k)) = true := by
    have hfit2 := hfit
    simp only [fits64, minInt64, maxInt64, Bool.and_eq_true, decide_eq_true_eq] at hfit2 ⊢
    have hle : (Int.tdiv z.compact (10 ^ k)).natAbs ≤ z.compact.natAbs := by
      rw [Int.natAbs_tdiv]
      exact Nat.div_le_self _ _
    have hne : z.compact ≠ -9223372036854775808 := by
      simpa only [c.Inflated, minInt64] using hc
    omega
  have hy : ¬ ((10 : Int) ^ k = 0) := by positivity
  have hten : (if 0 ≤ (k : Int) ∧ (k : Int) ≤ 18 then (((10 : Int) ^ k, true) : Int × Bool)
      else (0, false)) = (10 ^ k, true) := if_pos ⟨by omega, by omega⟩
  have hnn : ¬ (n ≤ 0 ∨ n < z.Prec - z.scale) := by omega
  have hkk : ¬ ((k : Int) ≤ 0) := by omega
  unfold Big.Round
  simp only [hfin, hnn, hkk, hshift, checked.Sub, hfs, wrap64_of_fits hfs, pow.Ten64,
    Int.toNat_ofNat, hten,
    wrap32_sub_wrap32, wrap32_of_fits hsc, Big.quoAndRoundWith, hmode, hy, wrap64_of_fits hq,
    Big.isCompact, hc, ne_eq, not_true_eq_false, not_false_eq_true, decide_True, or_false,
    Bool.not_true, Bool.false_eq_true, if_false, if_true, and_self, true_and]

/-- The unbounded path of `Round` under `ToZero`. -/
theorem Round_ToZero_inflated (fuel : Nat) (z : Big) (n : Int) (k : Nat)
    (hfin : z.form = Form.finite) (hmode : z.ctx.mode = RoundingMode.ToZero)
    (hc : z.compact = c.Inflated)
    (hn : 0 < n) (hint : z.Prec - z.scale ≤ n) (hk : (k : Int) = z.Prec - n) (hk1 : 1 ≤ k)
    (hfs : fits64 (k : Int) = true) (hsc : fits32 (z.scale - k) = true) :
    Big.Round (fuel + 1) z n
      = .ok { z with scale := z.scale - k, mantissa := Int.tdiv z.mantissa (10 ^ k) } := by
  have hshift : z.Prec - n = (k : Int) := hk.symm
  have hy : ¬ ((10 : Int) ^ k = 0) := by positivity
  have hnn : ¬ (n ≤ 0 ∨ n < z.Prec - z.scale) := by omega
  have hkk : ¬ ((k : Int) ≤ 0) := by omega
  unfold Big.Round
  simp only [hfin, hnn, hkk, hshift, checked.Sub, hfs, wrap64_of_fits hfs, pow.BigTen,
    Int.toNat_ofNat, wrap32_sub_wrap32, wrap32_of_fits hsc, Big.quoBigAndRoundWith, hmode, hy,
    Big.isCompact, hc, ne_eq, not_true_eq_false, not_false_eq_true, decide_True, decide_False,
    or_false, Bool.not_true, Bool.false_eq_true, if_false, if_true, and_self, true_and,
    false_and]

theorem decLenAux_self (fuel n : Nat) (hlt : n < 10 ^ fuel) :
    decLenAux n n = decLenAux fuel n := by
  by_cases h0 : n = 0
  · subst h0
    cases fuel with
    | zero => rfl
    | succ f => simp [decLenAux]
  · obtain ⟨h1, h2, h3⟩ := decLenAux_spec fuel n h0 hlt
    exact decLenAux_eq_of_bounds n n _ (Nat.lt_pow_self (by norm_num) n) h1 h2 h3

/-- C15, amended. Under `ToZero`, for a finite `z` and `n > 0`: when `z` has
more than `n` integer digits (`n < prec - scale`) `Round` returns `z` as it
is; otherwise, when `prec > n`, the mantissa is divided by `10^(prec - n)`
with truncation, the scale is decreased by `prec - n`, and the result has
exactly `n` digits. -/
theorem Round_ToZero_trims (fuel : Nat) (z : Big) (n : Int)
    (hfin : z.form = Form.finite) (hmode : z.ctx.mode = RoundingMode.ToZero)
    (hwt : z.WellTyped) (hn : 0 < n) (hn32 : fits32 n = true) :
    (n < z.Prec - z.scale → Big.Round (fuel + 1) z n = .ok z) ∧
    (z.Prec - z.scale ≤ n → n < z.Prec →
      ∃ r, Big.Round (fuel + 1) z n = .ok r ∧ r.form = Form.finite ∧
        r.mant = Int.tdiv z.mant (10 ^ (z.Prec - n).toNat) ∧
        r.scale = z.scale - (z.Prec - n) ∧ r.Prec = n) := by
  obtain ⟨hfit, hs32, _⟩ := hwt
  constructor
  · intro h
    unfold Big.Round
    rw [if_pos (Or.inr (Or.inl h))]
  · intro hint hlt
    obtain ⟨k, hk⟩ : ∃ k : Nat, (k : Int) = z.Prec - n := ⟨(z.Prec - n).toNat, by omega⟩
    have hk1 : 1 ≤ k := by omega
    have htn : (z.Prec - n).toNat = k := by omega
    have hs32b := hs32
    have hn32b := hn32
    simp only [fits32, minInt32, maxInt32, Bool.and_eq_true, decide_eq_true_eq] at hs32b hn32b
    have hsc : fits32 (z.scale - k) = true := by
      simp only [fits32, minInt32, maxInt32, Bool.and_eq_true, decide_eq_true_eq]
      omega
    have hfs : fits64 (k : Int) = true := by
      simp only [fits64, minInt64, maxInt64, Bool.and_eq_true, decide_eq_true_eq]
      omega
    rw [htn, ← hk]
    by_cases hc : z.compact = c.Inflated
    · -- the unbounded path
      have hP := Prec_inflated z hfin hc
      refine ⟨_, Round_ToZero_inflated fuel z n k hfin hmode hc hn hint hk hk1 hfs hsc,
        hfin, ?_, rfl, ?_⟩
      · have hci : z.isCompact = false := by
          unfold Big.isCompact; exact decide_eq_false (by rw [hc]; exact fun h => h rfl)
        simp only [Big.mant, Big.isCompact, hc, ne_eq, not_true_eq_false, decide_False,
          Bool.false_eq_true, if_false]
      · refine (Prec_inflated
          { z with scale := z.scale - k, mantissa := Int.tdiv z.mantissa (10 ^ k) }
          hfin hc).trans ?_
        show arith.BigLength (Int.tdiv z.mantissa (10 ^ k)) = n
        unfold arith.BigLength at hP ⊢
        simp only [Int.natAbs_tdiv, Int.natAbs_pow]
        have h10 : (10 : Int).natAbs = 10 := rfl
        rw [h10]
        have hM : z.mantissa.natAbs ≠ 0 := by
          intro h0
          rw [h0] at hP
          have : decLenAux 0 0 = 1 := rfl
          rw [this] at hP
          omega
        have hlt10 := Nat.lt_pow_self (by norm_num : 1 < 10) z.mantissa.natAbs
        have hkd : k < decLenAux z.mantissa.natAbs z.mantissa.natAbs := by omega
        obtain ⟨hq0, hqd⟩ := decLenAux_div_pow _ _ k hM hlt10 hkd
        have hdiv : Nat.div z.mantissa.natAbs (10 ^ k) = z.mantissa.natAbs / 10 ^ k := rfl
        rw [hdiv, decLenAux_self z.mantissa.natAbs _
          (lt_of_le_of_lt (Nat.div_le_self _ _) hlt10), hqd]
        omega
    · -- the 64-bit path
      have hP := Prec_compact z hfin hc
      have hfit2 := hfit
      simp only [fits64, minInt64, maxInt64, Bool.and_eq_true, decide_eq_true_eq] at hfit2
      have hne : z.compact ≠ -9223372036854775808 := by
        simpa only [c.Inflated, minInt64] using hc
      have hle : (Int.tdiv z.compact (10 ^ k)).natAbs ≤ z.compact.natAbs := by
        rw [Int.natAbs_tdiv]
        exact Nat.div_le_self _ _
      have hqI : Int.tdiv z.compact (10 ^ k) ≠ c.Inflated := by
        simp only [c.Inflated, minInt64]
        omega
      refine ⟨_, Round_ToZero_compact fuel z n k hfin hmode hc hfit hn hint hk hk1 hsc,
        hfin, ?_, rfl, ?_⟩
      · simp only [Big.mant, Big.isCompact, hc, hqI, ne_eq, not_false_eq_true, decide_True,
          if_true]
      · refine (Prec_compact
          { z with scale := z.scale - k, compact := Int.tdiv z.compact (10 ^ k) }
          hfin hqI).trans ?_
        show arith.Length (Int.tdiv z.compact (10 ^ k)) = n
        unfold arith.Length at hP ⊢
        simp only [Int.natAbs_tdiv, Int.natAbs_pow]
        have h10 : (10 : Int).natAbs = 10 := rfl
        rw [h10]
        have hM : z.compact.natAbs ≠ 0 := by
          intro h0
          rw [h0] at hP
          have : decLenAux 20 0 = 1 := rfl
          rw [this] at hP
          omega
        have hlt10 : z.compact.natAbs < 10 ^ 20 := natAbs_lt_of_fits64 hfit
        have hkd : k < decLenAux 20 z.compact.natAbs := by omega
        obtain ⟨hq0, hqd⟩ := decLenAux_div_pow _ _ k hM hlt10 hkd
        have hdiv : Nat.div z.compact.natAbs (10 ^ k) = z.compact.natAbs / 10 ^ k := rfl
        rw [hdiv, hqd]
        omega

/-- Under `ToZero`, `Round(3)` takes `12.345` (mantissa 12345, scale 3) to
`12.3` (mantissa 123, scale 1). -/
theorem Round_ToZero_trims_witness :
    ∃ r, Big.Round 1 ((withContext 0 RoundingMode.ToZero).SetMantScale 12345 3) 3 = .ok r ∧
      r.form = Form.finite ∧
      r.mant = Int.tdiv ((withContext 0 RoundingMode.ToZero).SetMantScale 12345 3).mant
        (10 ^ (((withContext 0 RoundingMode.ToZero).SetMantScale 12345 3).Prec - 3).toNat) ∧
      r.scale = ((withContext 0 RoundingMode.ToZero).SetMantScale 12345 3).scale
        - (((withContext 0 RoundingMode.ToZero).SetMantScale 12345 3).Prec - 3) ∧
      r.Prec = 3 :=
  (Round_ToZero_trims 0 ((withContext 0 RoundingMode.ToZero).SetMantScale 12345 3) 3
    (by decide) (by decide) ⟨by decide, by decide, by decide⟩ (by decide) (by decide)).2
    (by decide) (by decide)

/-! ## What the parsers accept -/

theorem digitVal_le_nine (ch : Char) (h : isDigit ch = true) : digitVal ch ≤ 9 := by
  simp only [isDigit, Bool.and_eq_true, decide_eq_true_eq] at h
  have h9 : '9'.toNat = 57 := by decide
  have h0 : '0'.toNat = 48 := by decide
  unfold digitVal
  omega

/-- A run of the digit loop that reports no error has read digits only. -/
theorem parseUintLoop_none (maxVal : Nat) (s : List Char) (n : Nat)
    (h : (parseUintLoop maxVal s n).2 = none) : s.all isDigit = true := by
  induction s generalizing n with
  | nil => rfl
  | cons ch rest ih =>
    rw [parseUintLoop] at h
    by_cases hd : isDigit ch = true
    · rw [if_pos hd] at h
      by_cases hr : n * 10 + digitVal ch > maxVal
      · rw [if_pos hr] at h; cases h
      · rw [if_neg hr] at h
        simp only [List.all_cons, hd, Bool.true_and]
        exact ih _ h
    · rw [if_neg hd] at h; cases h

/-- A range error of the digit loop comes with the largest value. -/
theorem parseUintLoop_range (maxVal : Nat) (s : List Char) (n : Nat)
    (h : (parseUintLoop maxVal s n).2 = some NumError.ErrRange) :
    (parseUintLoop maxVal s n).1 = maxVal := by
  induction s generalizing n with
  | nil => rw [parseUintLoop] at h; cases h
  | cons ch rest ih =>
    rw [parseUintLoop] at h ⊢
    by_cases hd : isDigit ch = true
    · rw [if_pos hd] at h ⊢
      by_cases hr : n * 10 + digitVal ch > maxVal
      · rw [if_pos hr]
      · rw [if_neg hr] at h ⊢
        exact ih _ h
    · rw [if_neg hd] at h; cases h

/-- Nineteen digits do not exceed 64 bits: on a short text the digit loop
reports no range error. -/
theorem parseUintLoop_short (s : List Char) (n j : Nat) (hn : n < 10 ^ j)
    (hj : j + s.length ≤ 19) :
    (parseUintLoop (2 ^ 64 - 1) s n).2 ≠ some NumError.ErrRange := by
  induction s generalizing n j with
  | nil => rw [parseUintLoop]; intro h; cases h
  | cons ch rest ih =>
    rw [parseUintLoop]
    simp only [List.length_cons] at hj
    by_cases hd : isDigit ch = true
    · rw [if_pos hd]
      have h9 := digitVal_le_nine ch hd
      have hlt : n * 10 + digitVal ch < 10 ^ (j + 1) := by rw [pow_succ]; omega
      have hle : (10 : Nat) ^ (j + 1) ≤ 10 ^ 19 := Nat.pow_le_pow_right (by norm_num) (by omega)
      have hr : ¬ (n * 10 + digitVal ch > 2 ^ 64 - 1) := by
        norm_num at hle ⊢
        omega
      rw [if_neg hr]
      exact ih _ (j + 1) hlt (by omega)
    · rw [if_neg hd]; intro h; cases h

theorem ParseUint_none (body : List Char) (bitSize : Nat)
    (h : (strconv.ParseUint body bitSize).2 = none) :
    body ≠ [] ∧ body.all isDigit = true := by
  unfold strconv.ParseUint at h
  by_cases hb : body = []
  · rw [if_pos hb] at h; cases h
  · rw [if_neg hb] at h
    exact ⟨hb, parseUintLoop_none _ _ _ h⟩

theorem ParseUint_range (body : List Char) (bitSize : Nat)
    (h : (strconv.ParseUint body bitSize).2 = some NumError.ErrRange) :
    (strconv.ParseUint body bitSize).1 = 2 ^ bitSize - 1 := by
  unfold strconv.ParseUint at h ⊢
  by_cases hb : body = []
  · rw [if_pos hb] at h; cases h
  · rw [if_neg hb] at h ⊢
    exact parseUintLoop_range _ _ _ h

theorem ParseUint_short (body : List Char) (hlen : body.length ≤ 19) :
    (strconv.ParseUint body 64).2 ≠ some NumError.ErrRange := by
  unfold strconv.ParseUint
  by_cases hb : body = []
  · rw [if_pos hb]; intro h; cases h
  · rw [if_neg hb]
    exact parseUintLoop_short body 0 0 (by norm_num) (by omega)

theorem isSignedDigits_of_body (ch : Char) (rest : List Char)
    (h : (if ch = '+' ∨ ch = '-' then rest else ch :: rest) ≠ [] ∧
      (if ch = '+' ∨ ch = '-' then rest else ch :: rest).all isDigit = true) :
    isSignedDigits (ch :: rest) = true := by
  unfold isSignedDigits
  simp only [Bool.and_eq_true, decide_eq_true_eq]
  exact h

/-- A text that `ParseInt` reads without error in 32 bits is an optional sign
followed by digits. -/
theorem ParseInt32_none (s : List Char) (h : (strconv.ParseInt s 32).2 = none) :
    isSignedDigits s = true := by
  cases s with
  | nil => simp [strconv.ParseInt] at h
  | cons ch rest =>
    apply isSignedDigits_of_body
    generalize hbody : (if ch = '+' ∨ ch = '-' then rest else ch :: rest) = body
    simp only [strconv.ParseInt, hbody] at h
    rcases herr : (strconv.ParseUint body 32).2 with _ | e
    · exact ParseUint_none body 32 herr
    · exfalso
      cases e with
      | ErrSyntax =>
        rw [if_pos herr] at h
        rw [herr] at h
        cases h
      | ErrRange =>
        have hun := ParseUint_range body 32 herr
        rw [if_neg (by rw [herr]; decide), hun] at h
        by_cases hneg : ch = '-'
        · simp [hneg] at h
        · simp [hneg] at h

/-- A text of at most 19 characters on which `ParseInt` reports no syntax
error in 64 bits is an optional sign followed by digits. -/
theorem ParseInt64_short (s : List Char) (hlen : s.length ≤ 19)
    (h : (strconv.ParseInt s 64).2 ≠ some NumError.ErrSyntax) :
    isSignedDigits s = true := by
  cases s with
  | nil => simp [strconv.ParseInt] at h
  | cons ch rest =>
    apply isSignedDigits_of_body
    generalize hbody : (if ch = '+' ∨ ch = '-' then rest else ch :: rest) = body
    have hbl : body.length ≤ 19 := by
      rw [← hbody]
      simp only [List.length_cons] at hlen
      split
      · omega
      · simpa using hlen
    simp only [strconv.ParseInt, hbody] at h
    rcases herr : (strconv.ParseUint body 64).2 with _ | e
    · exact ParseUint_none body 64 herr
    · exfalso
      cases e with
      | ErrSyntax =>
        rw [if_pos herr, herr] at h
        exact h rfl
      | ErrRange => exact ParseUint_short body hbl herr

theorem bigDigits_some (s : List Char) (n : Nat) (v : Nat) (h : bigDigits s n = some v) :
    s.all isDigit = true := by
  induction s generalizing n with
  | nil => rfl
  | cons ch rest ih =>
    rw [bigDigits] at h
    by_cases hd : isDigit ch = true
    · rw [if_pos hd] at h
      simp only [List.all_cons, hd, Bool.true_and]
      exact ih _ h
    · rw [if_neg hd] at h; cases h

/-- A text that `big.Int.SetString` accepts is an optional sign followed by
digits. -/
theorem bigSetString_some (s : List Char) (v : Int) (h : bigSetString s = some v) :
    isSignedDigits s = true := by
  cases s with
  | nil => simp [bigSetString] at h
  | cons ch rest =>
    apply isSignedDigits_of_body
    generalize hbody : (if ch = '+' ∨ ch = '-' then rest else ch :: rest) = body
    simp only [bigSetString, hbody] at h
    by_cases hb : body = []
    · rw [if_pos hb] at h; cases h
    · rw [if_neg hb] at h
      refine ⟨hb, ?_⟩
      cases hbd : bigDigits body 0 with
      | none => rw [hbd] at h; cases h
      | some n => exact bigDigits_some body 0 n hbd

/-- The last step of `SetString` succeeds only on an optional sign followed
by digits. -/
theorem setMantissa_some (z r : Big) (s : List Char) (scale : Int)
    (h : z.setMantissa s scale = some r) : isSignedDigits s = true := by
  unfold Big.setMantissa at h
  by_cases hlen : s.length ≤ 19
  · simp only [hlen, if_true, true_and] at h
    by_cases hsyn : (strconv.ParseInt s 64).2 = some NumError.ErrSyntax
    · rw [if_pos hsyn] at h; cases h
    · exact ParseInt64_short s hlen hsyn
  · have hgt : s.length > 19 := by omega
    simp only [hlen, if_false, false_and, hgt, or_true, if_true] at h
    cases hb : bigSetString s with
    | none => rw [hb] at h; cases h
    | some m => exact bigSetString_some s m hb

theorem filter_of_count_zero (s : List Char) (h : s.count '.' = 0) :
    (s.filter fun ch => decide (ch ≠ '.')) = s := by
  induction s with
  | nil => rfl
  | cons ch rest ih =>
    by_cases hc : ch = '.'
    · subst hc; simp at h
    · rw [List.count_cons_of_ne (fun e => hc e.symm)] at h
      rw [List.filter_cons_of_pos (by simpa using hc), ih h]

theorem filter_of_count_one (s : List Char) (h : s.count '.' = 1) :
    s.take (s.indexOf '.') ++ s.drop (s.indexOf '.' + 1)
      = s.filter fun ch => decide (ch ≠ '.') := by
  induction s with
  | nil => simp at h
  | cons ch rest ih =>
    by_cases hc : ch = '.'
    · subst hc
      rw [List.count_cons_self] at h
      have h0 : rest.count '.' = 0 := by omega
      rw [List.indexOf_cons_self]
      simp only [List.take_zero, List.nil_append, zero_add, List.drop_succ_cons, List.drop_zero]
      rw [List.filter_cons_of_neg (by simp), filter_of_count_zero rest h0]
    · rw [List.count_cons_of_ne (fun e => hc e.symm)] at h
      rw [List.indexOf_cons_ne _ (fun e => hc e)]
      simp only [List.take_succ_cons, List.drop_succ_cons, List.cons_append]
      rw [List.filter_cons_of_pos (by simpa using hc), ih h]

/-- The radix step of `SetString` passes on the text without its radix point,
when there is at most one. -/
theorem splitRadix_some (s s1 : List Char) (scale scale1 : Int)
    (h : splitRadix s scale = some (s1, scale1)) :
    s.count '.' ≤ 1 ∧ s1 = s.filter fun ch => decide (ch ≠ '.') := by
  unfold splitRadix at h
  split at h
  · next h0 =>
    simp only [Option.some.injEq, Prod.mk.injEq] at h
    exact ⟨by omega, by rw [← h.1, filter_of_count_zero s h0]⟩
  · next h1 =>
    simp only [Option.some.injEq, Prod.mk.injEq] at h
    exact ⟨by omega, by rw [← h.1, filter_of_count_one s h1]⟩
  · cases h

theorem lastIndexAny_spec (s chars : List Char) (h : 0 ≤ lastIndexAny s chars) :
    ∃ ch, s.get? (lastIndexAny s chars).toNat = some ch ∧ ch ∈ chars := by
  induction s with
  | nil => simp [lastIndexAny] at h
  | cons c0 rest ih =>
    rw [lastIndexAny] at h ⊢
    by_cases hr : lastIndexAny rest chars ≥ 0
    · simp only [hr, if_true] at h ⊢
      obtain ⟨ch, hch, hmem⟩ := ih hr
      refine ⟨ch, ?_, hmem⟩
      have e : (lastIndexAny rest chars + 1).toNat = (lastIndexAny rest chars).toNat + 1 := by
        omega
      rw [e, List.get?_cons_succ]
      exact hch
    · simp only [hr, if_false] at h ⊢
      by_cases hm : c0 ∈ chars
      · simp only [hm, if_true]
        exact ⟨c0, rfl, hm⟩
      · simp only [hm, if_false] at h
        omega

theorem lastIndexAny_lt (s chars : List Char) : lastIndexAny s chars < s.length := by
  induction s with
  | nil => simp [lastIndexAny]
  | cons c0 rest ih =>
    rw [lastIndexAny]
    simp only [List.length_cons, Nat.cast_add, Nat.cast_one]
    split
    · omega
    · split <;> omega

/-- The exponent step of `SetString` either keeps the text, or cuts it at an
`e` or `E` that is followed by an optional sign and digits. -/
theorem splitExponent_some (s m : List Char) (scale : Int)
    (h : splitExponent s = some (m, scale)) :
    m = s ∨ ∃ i, i < s.length ∧ (s.get? i = some 'e' ∨ s.get? i = some 'E') ∧
      m = s.take i ∧ isSignedDigits (s.drop (i + 1)) = true := by
  unfold splitExponent at h
  by_cases hi : lastIndexAny s ['E', 'e'] > 0
  · right
    simp only [hi, if_true] at h
    obtain ⟨ch, hch, hmem⟩ := lastIndexAny_spec s ['E', 'e'] (by omega)
    have hlt := lastIndexAny_lt s ['E', 'e']
    refine ⟨(lastIndexAny s ['E', 'e']).toNat, by omega, ?_, ?_, ?_⟩
    · rw [hch]
      simp only [List.mem_cons, List.mem_singleton, List.not_mem_nil, or_false] at hmem
      rcases hmem with h1 | h1
      · right; rw [h1]
      · left; rw [h1]
    · rcases hp : strconv.ParseInt (s.drop ((lastIndexAny s ['E', 'e']).toNat + 1)) 32
        with ⟨eint, err⟩
      rw [hp] at h
      cases err with
      | none =>
        simp only [Option.some.injEq, Prod.mk.injEq] at h
        exact h.1.symm
      | some e => cases h
    · rcases hp : strconv.ParseInt (s.drop ((lastIndexAny s ['E', 'e']).toNat + 1)) 32
        with ⟨eint, err⟩
      rw [hp] at h
      cases err with
      | none =>
        apply ParseInt32_none
        rw [hp]
      | some e => cases h
  · left
    simp only [hi, if_false, Option.some.injEq, Prod.mk.injEq] at h
    exact h.1.symm

/-- Every text that `SetString` accepts is an infinity or a lenient numeral. -/
theorem SetString_some_shape (z r : Big) (s : List Char) (h : z.SetString s = some r) :
    isInfText s = true ∨ isLenientNumeral s = true := by
  by_cases hinf : isInfText s = true
  · exact Or.inl hinf
  · right
    unfold Big.SetString at h
    rw [if_neg hinf] at h
    cases he : splitExponent s with
    | none => rw [he] at h; cases h
    | some p =>
      obtain ⟨m, sc⟩ := p
      rw [he] at h
      simp only [Option.some_bind] at h
      cases hr : splitRadix m sc with
      | none => rw [hr] at h; cases h
      | some q =>
        obtain ⟨m1, sc1⟩ := q
        rw [hr] at h
        simp only [Option.some_bind] at h
        have hsd := setMantissa_some z r m1 sc1 h
        obtain ⟨hcnt, hm1⟩ := splitRadix_some m m1 sc sc1 hr
        have hmant : isLenientMantissa m = true := by
          unfold isLenientMantissa
          rw [← hm1, hsd]
          simp [hcnt]
        unfold isLenientNumeral
        rcases splitExponent_some s m sc he with hms | ⟨i, hi, hch, hmi, hexp⟩
        · rw [← hms, hmant]; rfl
        · rw [Bool.or_eq_true]
          right
          rw [List.any_eq_true]
          refine ⟨i, List.mem_range.2 hi, ?_⟩
          rw [← hmi, hmant, hexp]
          rcases hch with h1 | h1 <;> rw [h1] <;> decide

/-- Every text of the grammar whose exponent fits in 32 bits is accepted. -/
theorem SetString_numeral_accepted (z : Big) (t : Numeral) (hwf : t.WellFormed)
    (hexp : fits32 t.exponent = true) : ∃ r, z.SetString t.text = some r := by
  have hInf : isInfText t.text = false := by
    have := isInfText_numeral t.sign t.int (t.fracText ++ t.expText) hwf.sign hwf.int
    simpa [Numeral.text, List.append_assoc] using this
  have hdig : IsDigits (t.int ++ t.fracDigits) := by
    refine ⟨by simp [hwf.int.1], ?_⟩
    intro ch hch
    rcases List.mem_append.1 hch with h | h
    · exact hwf.int.2 ch h
    · cases hf : t.frac with
      | none => simp [Numeral.fracDigits, hf] at h
      | some f =>
        simp only [Numeral.fracDigits, hf, Option.getD_some] at h
        exact (hwf.frac f hf).2 ch h
  unfold Big.SetString
  rw [hInf, splitExponent_numeral t hwf hexp]
  simp only [Bool.false_eq_true, if_false, Option.some_bind, splitRadix_numeral t hwf]
  obtain ⟨r, hr, _⟩ := setMantissa_signed z t.sign (t.int ++ t.fracDigits)
    (if t.frac = none then wrap32 (-t.exponent)
      else wrap32 (wrap32 (-t.exponent) + wrap32 (t.fracDigits.length : Int))) hwf.sign hdig
  exact ⟨r, hr⟩

/-- C20, as stated, fails: `5.` and `.5` are outside the grammar (a radix
point needs digits on both sides) and `SetString` accepts them, as 5 and as
0.5. -/
theorem SetString_radix_counterexample :
    Big.fresh.SetString "5.".toList = some (New 5 0) ∧
      Big.fresh.SetString ".5".toList = some (New 5 1) := by
  decide

/-- C20, amended. `SetString` reports failure for every text that is neither
an infinity (`Inf` with an optional sign, in any letter case) nor a lenient
numeral: a mantissa, alone or followed by `e` or `E`, an optional sign and
digits, where the mantissa holds at most one radix point and is an optional
sign followed by digits once that point is deleted. So the empty text, `.`,
`1.2.3`, `e5` and `1e` are rejected, while `5.` and `.5` are accepted as 5 and
0.5. Every infinity and every text of the grammar whose exponent fits in 32
bits is accepted. -/
theorem SetString_rejects_outside_lenient_grammar (z : Big) :
    (∀ s, isInfText s = false → isLenientNumeral s = false → z.SetString s = none) ∧
    (z.SetString "".toList = none ∧ z.SetString ".".toList = none ∧
      z.SetString "1.2.3".toList = none ∧ z.SetString "e5".toList = none ∧
      z.SetString "1e".toList = none) ∧
    (z.SetString "5.".toList = some { z with compact := 5, scale := 0, form := Form.finite } ∧
      z.SetString ".5".toList = some { z with compact := 5, scale := 1, form := Form.finite }) ∧
    (∀ s, isInfText s = true → z.SetString s = some z.SetInf) ∧
    (∀ t : Numeral, t.WellFormed → fits32 t.exponent = true →
      ∃ r, z.SetString t.text = some r) := by
  have hrej : ∀ s, isInfText s = false → isLenientNumeral s = false → z.SetString s = none := by
    intro s hinf hnum
    cases h : z.SetString s with
    | none => rfl
    | some r =>
      rcases SetString_some_shape z r s h with h1 | h1
      · rw [hinf] at h1; cases h1
      · rw [hnum] at h1; cases h1
  refine ⟨hrej, ⟨?_, ?_, ?_, ?_, ?_⟩, ⟨rfl, rfl⟩, ?_, ?_⟩
  · exact hrej _ (by decide) (by decide)
  · exact hrej _ (by decide) (by decide)
  · exact hrej _ (by decide) (by decide)
  · exact hrej _ (by decide) (by decide)
  · exact hrej _ (by decide) (by decide)
  · intro s hinf
    unfold Big.SetString
    rw [if_pos hinf]
    rfl
  · exact fun t hwf hexp => SetString_numeral_accepted z t hwf hexp

/-- The text `1.2.3` is rejected and the text `-1.5e+3` is accepted. -/
theorem SetString_rejects_outside_lenient_grammar_witness :
    Big.fresh.SetString "1.2.3".toList = none ∧
      ∃ r, Big.fresh.SetString
        (Numeral.text ⟨['-'], ['1'], some ['5'], some ('e', ['+'], ['3'])⟩) = some r :=
  ⟨(SetString_rejects_outside_lenient_grammar Big.fresh).1 "1.2.3".toList
      (by decide) (by decide),
    (SetString_rejects_outside_lenient_grammar Big.fresh).2.2.2.2
      ⟨['-'], ['1'], some ['5'], some ('e', ['+'], ['3'])⟩
      { sign := Or.inr (Or.inr rfl)
        int := ⟨by simp, by decide⟩
        frac := by
          intro f hf
          cases hf
          exact ⟨by simp, by decide⟩
        exp := by
          intro e es X h
          cases h
          exact ⟨Or.inl rfl, Or.inr (Or.inl rfl), by simp, by decide⟩ }
      (by simp [Numeral.exponent, applySign, decimalValue, digitVal, fits32, minInt32,
            maxInt32])⟩

/-! ## Plain and scientific text -/

/-- C21. The value parsed from `1.234e+5` (mantissa 1234, scale -2) has the
plain form `1234`, not `123400`: `toPlainString` writes the mantissa and the
two zeros, and `buffer.String` then trims every trailing `0`. -/
theorem PlainString_trims_zeros_of_negative_scale :
    Big.fresh.SetString "1.234e+5".toList
        = some { Big.fresh with compact := 1234, scale := -2, form := Form.finite } ∧
      ({ Big.fresh with compact := 1234, scale := -2, form := Form.finite } : Big).PlainString
        = .ok "1234".toList := by
  decide

/-- C22. For `-1.5` (mantissa -15, scale 1, adjusted exponent 0) `String` is
`-1.5` and `PlainString` is `1.5`: for a non-negative scale `toPlainString`
calls `normString` with a new buffer, and the sign written to the first one is
lost. -/
theorem PlainString_drops_sign :
    (New (-15) 1).form = Form.finite ∧ (New (-15) 1).scale ≥ 0 ∧
      (New (-15) 1).String = .ok "-1.5".toList ∧
      (New (-15) 1).PlainString = .ok "1.5".toList := by
  decide

/-! ## Absolute value and integer views -/

/-- C24. For `x = 2^63` on the unbounded path (as `SetString` gives it) and a
new destination, `Abs` writes the unbounded field only: `compact` keeps 0, so
the result is read on the 64-bit path and its mantissa is 0, not `|x|`. -/
theorem Abs_unbounded_leaves_compact :
    Big.fresh.SetString "9223372036854775808".toList
        = some { Big.fresh with compact := c.Inflated, mantissa := 9223372036854775808,
                                form := Form.finite } ∧
      Big.fresh.Abs { Big.fresh with compact := c.Inflated, mantissa := 9223372036854775808,
                                     form := Form.finite }
        = { Big.fresh with mantissa := 9223372036854775808, form := Form.finite } ∧
      ({ Big.fresh with mantissa := 9223372036854775808, form := Form.finite } : Big).mant = 0 ∧
      ({ Big.fresh with compact := c.Inflated, mantissa := 9223372036854775808,
                        form := Form.finite } : Big).mant = 9223372036854775808 := by
  decide

/-- C25. `IsInt` answers true for `0.05 = New(5, 2)`, whose mantissa is not a
multiple of `10^2`, and false for `12.000 = New(12000, 3)`, whose mantissa is a
multiple of `10^3`: the test `Prec < scale` compares digit counts. -/
theorem IsInt_compares_digit_counts :
    (New 5 2).form = Form.finite ∧ (New 5 2).IsInt = true ∧ (New 5 2).mant % 10 ^ 2 ≠ 0 ∧
      (New 12000 3).form = Form.finite ∧ (New 12000 3).IsInt = false ∧
      (New 12000 3).mant % 10 ^ 3 = 0 := by
  decide

/-- C26. For `-1.5 = New(-15, 1)` the method `Int` gives -2, the Euclidean
quotient of -15 by 10, while truncation and `Int64` give -1. -/
theorem Int_rounds_negative_down :
    (New (-15) 1).form = Form.finite ∧ (New (-15) 1).BigInt = -2 ∧
      (New (-15) 1).Int64 = -1 ∧ Int.tdiv (New (-15) 1).mant (10 ^ 1) = -1 := by
  decide

/-! ## Division and square root -/

/-- C27. For `x = 2^64` on the unbounded path (as `SetString` gives it),
`y = New(1, 0)`, precision 1 and mode `ToZero`, `Quo(z, x, y)` has mantissa 1
with scale -19, and `Quo(z, Neg(x), y)` has mantissa -18 with scale -18:
`cmpNormBig` compares the signed values, so the normalisation step takes away
a digit for `x` and not for `-x`. -/
theorem Quo_unbounded_path_not_odd (fuel : Nat) :
    Big.fresh.SetString "18446744073709551616".toList
        = some { Big.fresh with compact := c.Inflated, mantissa := 18446744073709551616,
                                form := Form.finite } ∧
      Big.Quo fuel (withContext 1 RoundingMode.ToZero)
          { Big.fresh with compact := c.Inflated, mantissa := 18446744073709551616,
                           form := Form.finite } (New 1 0)
        = .ok { withContext 1 RoundingMode.ToZero with
                compact := c.Inflated, mantissa := 1, scale := -19, form := Form.finite } ∧
      Big.Quo fuel (withContext 1 RoundingMode.ToZero)
          (Big.fresh.Neg { Big.fresh with compact := c.Inflated,
                                          mantissa := 18446744073709551616,
                                          form := Form.finite }) (New 1 0)
        = .ok { withContext 1 RoundingMode.ToZero with
                compact := c.Inflated, mantissa := -18, scale := -18, form := Form.finite } := by
  refine ⟨by decide, rfl, rfl⟩

/-- C28. For `x = 10` at precision 9 the 64-bit path of `Sqrt` is taken
(`x` is not big and `2 * 9 <= 19`); `10 * 10^18` does not fit in 64 bits, so
`Int64` of the shifted value is 0, the seed is 0, and the first pass of the
loop divides by zero. -/
theorem Sqrt_shifted_overflow_divides_by_zero (fsqrt : Int → Int) (fuel : Nat)
    (m : RoundingMode) :
    (New 10 0).IsBig = false ∧
      ({ New 10 0 with scale := -18 } : Big).Int64 = 0 ∧
      Big.Sqrt fsqrt (fuel + 1) false (withContext 9 m) (New 10 0)
        = .error Fault.divideByZero := by
  refine ⟨by decide, by decide, ?_⟩
  cases m <;> rfl

/-! ## Scale overflow in `Mul` and `Quo` -/

theorem Prec_pos (x : Big) (hfin : x.form = Form.finite) : 1 ≤ x.Prec := by
  unfold Big.Prec
  rw [if_neg (by rw [hfin]; exact fun h => h rfl)]
  split
  · exact (Length_bounds _).1
  · unfold arith.BigLength
    have := (decLenAux_bounds x.mantissa.natAbs x.mantissa.natAbs).1
    omega

theorem isCompact_eq_true {x : Big} (h : x.compact ≠ c.Inflated) : x.isCompact = true := by
  unfold Big.isCompact; exact decide_eq_true h

theorem isCompact_eq_false {x : Big} (h : x.compact = c.Inflated) : x.isCompact = false := by
  unfold Big.isCompact; exact decide_eq_false (by rw [h]; exact fun h2 => h2 rfl)

theorem isInflated_eq_not (x : Big) : x.isInflated = !x.isCompact := by
  unfold Big.isInflated Big.isCompact
  by_cases h : x.compact = c.Inflated <;> simp [h]

/-- On every path of `Mul`, a sum of scales outside 32 bits gives an infinity. -/
theorem Mul_scale_overflow (z x y : Big) (hx : x.form = Form.finite) (hy : y.form = Form.finite)
    (hov : fits32 (x.scale + y.scale) = false) : z.Mul x y = .ok { z with form := Form.inf } := by
  have hov2 : fits32 (y.scale + x.scale) = false := by rw [add_comm]; exact hov
  unfold Big.Mul
  rw [if_pos ⟨hx, hy⟩]
  by_cases hxc : x.compact = c.Inflated <;> by_cases hyc : y.compact = c.Inflated
  · simp only [isCompact_eq_false hxc, isCompact_eq_false hyc, Bool.false_eq_true, if_false,
      Big.mulBig, checked.Add32, hov, Bool.not_false, if_true]
  · simp only [isCompact_eq_false hxc, isCompact_eq_true hyc, Bool.false_eq_true, if_false,
      if_true, Big.mulHalf, isInflated_eq_not, Bool.not_true, Big.mulBig, checked.Add32, hov2,
      Bool.not_false]
    split <;> rfl
  · simp only [isCompact_eq_true hxc, isCompact_eq_false hyc, Bool.false_eq_true, if_false,
      if_true, Big.mulHalf, isInflated_eq_not, Bool.not_true, Big.mulBig, checked.Add32, hov,
      Bool.not_false]
    split <;> rfl
  · simp only [isCompact_eq_true hxc, isCompact_eq_true hyc, if_true, Big.mulCompact,
      checked.Add32, hov, Bool.not_false]

/-- The unbounded path of `Quo`: an overflow of either checked scale gives an
infinity. -/
theorem quoBig_scale_overflow (fuel : Nat) (z x y : Big)
    (hov : fits32 (x.scale - y.scale) = false ∨
      fits32 (wrap32 (x.scale - y.scale)
        + (if cmpNormBig x.mantissa (wrap32 x.Prec) y.mantissa (wrap32 y.Prec) = true
            then wrap32 (wrap32 y.Prec - 1) else wrap32 y.Prec)
        - wrap32 x.Prec + z.ctx.prec) = false) :
    z.quoBig fuel x y = .ok { z with form := Form.inf } := by
  unfold Big.quoBig
  simp only [checked.Sub32, checked.Int32]
  by_cases h1 : fits32 (x.scale - y.scale) = true
  · rcases hov with h | h
    · rw [h1] at h; cases h
    · simp only [h1, Bool.not_true, Bool.false_eq_true, if_false, h, Bool.not_false, if_true]
  · have h1f : fits32 (x.scale - y.scale) = false := by simpa using h1
    simp only [h1f, Bool.not_false, if_true]

theorem cmpNorm_ok (a as b bs : Int) (ha : a ≠ 0) (hb : b ≠ 0) :
    ∃ gt, cmpNorm a as b bs = .ok gt := by
  unfold cmpNorm
  rw [if_neg (by push_neg; exact ⟨ha, hb⟩)]
  simp only []
  split_ifs <;> exact ⟨_, rfl⟩

/-- The 64-bit path of `Quo`: an overflow of either checked scale gives an
infinity. -/
theorem quoCompact_scale_overflow (fuel : Nat) (z x y : Big) (gt : Bool)
    (hx0 : x.compact ≠ 0)
    (hgt : cmpNorm x.compact (wrap32 x.Prec) y.compact (wrap32 y.Prec) = .ok gt)
    (hov : fits32 (x.scale - y.scale) = false ∨
      fits32 (wrap32 (x.scale - y.scale)
        + (if gt = true then wrap32 (wrap32 y.Prec - 1) else wrap32 y.Prec)
        - wrap32 x.Prec + z.ctx.prec) = false) :
    z.quoCompact fuel x y = .ok { z with form := Form.inf } := by
  unfold Big.quoCompact
  rw [if_neg hx0]
  simp only [checked.Sub32, checked.Int32]
  by_cases h1 : fits32 (x.scale - y.scale) = true
  · rcases hov with h | h
    · rw [h1] at h; cases h
    · simp only [h1, Bool.not_true, Bool.false_eq_true, if_false, hgt, h, Bool.not_false,
        if_true]
  · have h1f : fits32 (x.scale - y.scale) = false := by simpa using h1
    simp only [h1f, Bool.not_false, if_true]

theorem mant_of_compact {x : Big} (h : x.compact ≠ c.Inflated) : x.mant = x.compact := by
  unfold Big.mant; rw [isCompact_eq_true h, if_pos rfl]

theorem mant_of_inflated {x : Big} (h : x.compact = c.Inflated) : x.mant = x.mantissa := by
  unfold Big.mant; rw [isCompact_eq_false h, if_neg (by decide)]

/-- The unbounded copy that `Quo` makes of a compact operand has the same
number of digits. -/
theorem inflatedCopy_Prec (x : Big) (hfin : x.form = Form.finite)
    (hc : x.compact ≠ c.Inflated) (hfit : fits64 x.compact = true) :
    x.inflatedCopy.Prec = x.Prec := by
  rw [Prec_compact x hfin hc, Prec_inflated x.inflatedCopy hfin rfl]
  show arith.BigLength x.compact = arith.Length x.compact
  unfold arith.BigLength arith.Length
  rw [decLenAux_self 20 _ (natAbs_lt_of_fits64 hfit)]

/-- C23. For `x = -2^64` with scale -2147483630 (as `SetBigMantScale` gives it),
`y = New(1, 0)`, precision 1 and mode `ToZero`: the normalised `|x|` exceeds
the normalised `|y|`, so the result scale of the division is
`-2147483630 + 0 - 20 + 1 = -2147483649`, outside 32 bits; `cmpNormBig`
compares the signed values and answers false, `Quo` computes the scale with
`p_y = 1` and returns a finite value with mantissa -18 and scale -2147483648
where an infinity is due. -/
theorem Quo_scale_overflow_missed (fuel : Nat) :
    Big.fresh.SetBigMantScale (-18446744073709551616) (-2147483630)
        = { Big.fresh with compact := c.Inflated, mantissa := -18446744073709551616,
                           scale := -2147483630, form := Form.finite } ∧
      specNormalisedExceeds
          { Big.fresh with compact := c.Inflated, mantissa := -18446744073709551616,
                           scale := -2147483630, form := Form.finite } (New 1 0) = true ∧
      specQuoScale (withContext 1 RoundingMode.ToZero)
          { Big.fresh with compact := c.Inflated, mantissa := -18446744073709551616,
                           scale := -2147483630, form := Form.finite } (New 1 0)
        = -2147483649 ∧
      fits32 (-2147483649) = false ∧
      Big.Quo fuel (withContext 1 RoundingMode.ToZero)
          { Big.fresh with compact := c.Inflated, mantissa := -18446744073709551616,
                           scale := -2147483630, form := Form.finite } (New 1 0)
        = .ok { withContext 1 RoundingMode.ToZero with
                compact := c.Inflated, mantissa := -18, scale := -2147483648,
                form := Form.finite } := by
  refine ⟨by decide, by decide, by decide, by decide, rfl⟩

end Decimal
